import Mathlib

/-!
# Verification of the WebVTT object codec and merge engine

This file gives a shallow embedding, in Lean 4, of the WebVTT
object-metadata codec and merge logic implemented in
`src/platform/server/routes/webvtt.ts`, and proves or refutes the
specification claims about it.

Modelling conventions:

* Text is modelled as `List Char` (`Str`).  JavaScript strings are UTF-16;
  all behaviour relevant here is on Unicode scalar values, which Lean's
  `Char` represents.
* JavaScript numbers are modelled as exact rationals (`ℚ`).  The source
  manipulates times such as `0.1`-second steps; the spec describes them as
  real numbers, so the embedding uses exact arithmetic.
* `undefined` / absent fields are modelled with `Option`; object fields are
  typed following the TypeScript `WebVTTData` interface declared in the
  source (`name: string`, `videoCurrentTime?: number`, ...).
* Ambient effects of the functions (the wall clock read by `Date.now()` /
  `getKoreaTimeISO()`, the random number generator `Math.random()`, and the
  contents of the per-video coordinate file read by
  `generateCompleteVttContent`) are passed as explicit parameters, so the
  embedded functions are total Lean functions of all their real inputs.
-/

/-- Character strings, as lists of Unicode scalar values. -/
abbrev Str := List Char

/-- Convert a Lean string literal to the `Str` representation. -/
def strL (s : String) : Str := s.data

/-- The newline character, `'\n'` in the source's `content.split('\n')`. -/
def nlChar : Char := Char.ofNat 10

/-- The double-quote character. -/
def quChar : Char := Char.ofNat 34

/-- The backslash character. -/
def bsChar : Char := Char.ofNat 92

/-- The opening curly brace. -/
def lcb : Char := Char.ofNat 123

/-- The closing curly brace. -/
def rcb : Char := Char.ofNat 125

/-- The opening square bracket. -/
def lsb : Char := Char.ofNat 91

/-- The closing square bracket. -/
def rsb : Char := Char.ofNat 93

/-- JavaScript `String.prototype.trim` removes these whitespace characters
(the ones that can actually occur in this system's text: space, tab,
carriage return, newline). -/
def isWsChar (c : Char) : Bool :=
  c = ' ' || c = Char.ofNat 9 || c = Char.ofNat 13 || c = nlChar

/-- Drop trailing characters satisfying `p` (helper for `trim`). -/
def dropTrailing (p : Char → Bool) (l : Str) : Str :=
  (l.reverse.dropWhile p).reverse

/-- Model of JavaScript `String.prototype.trim`. -/
def jsTrim (l : Str) : Str :=
  dropTrailing isWsChar (l.dropWhile isWsChar)

/-- Model of JavaScript `content.split('\n')`: split a character list at
every newline; `n+1` pieces for `n` newlines. -/
def splitNl : Str → List Str
  | [] => [[]]
  | c :: cs =>
    let rest := splitNl cs
    if c = nlChar then [] :: rest
    else match rest with
      | [] => [[c]]
      | r :: rs => (c :: r) :: rs

/-- Model of JavaScript `lines.join('\n')`: interleave a newline between
the pieces. -/
def joinNl : List Str → Str
  | [] => []
  | [l] => l
  | l :: ls => l ++ nlChar :: joinNl ls

/-- Does `l` start with the characters of `p`?  (JavaScript
`String.prototype.startsWith`.) -/
def strStarts (p l : Str) : Bool :=
  match p, l with
  | [], _ => true
  | _ :: _, [] => false
  | a :: p', b :: l' => a = b && strStarts p' l'

/-! ## JSON values

`JSON.parse` / `JSON.stringify` operate on JSON values; numbers are
modelled as exact rationals (see the header comment). -/

/-- A JSON value. -/
inductive Json where
  | null : Json
  | bool (b : Bool) : Json
  | num (q : ℚ) : Json
  | str (s : Str) : Json
  | arr (elems : List Json) : Json
  | obj (fields : List (Str × Json)) : Json

/-- JavaScript truthiness of a JSON value (`null`, `false`, `0` and `""`
are falsy; arrays and objects are truthy). -/
def jsTruthy : Json → Bool
  | .null => false
  | .bool b => b
  | .num q => q ≠ 0
  | .str s => s ≠ []
  | .arr _ => true
  | .obj _ => true

/-- JavaScript `a || b` over possibly-`undefined` JSON values
(`none` models `undefined`). -/
def jsOr (a b : Option Json) : Option Json :=
  match a with
  | some v => if jsTruthy v then some v else b
  | none => b

/-- JavaScript property access `o[k]` on a parsed JSON value: on an object
the last binding of the key wins (later duplicate keys overwrite earlier
ones during `JSON.parse`); on any other non-`null` value the result is
`undefined`.  (Access on `null` throws; callers model that case
explicitly.) -/
def jsGet (v : Json) (k : Str) : Option Json :=
  match v with
  | .obj kvs => (kvs.reverse.find? (fun kv => kv.1 = k)).map (·.2)
  | _ => none

/-! ## Rational arithmetic helpers

Core `Rat` arithmetic (`Rat.add`, ...) is `@[irreducible]`, which keeps
concrete witnesses from evaluating by `rfl`/`decide`.  The embedding
therefore computes with the following `mkRat`-based operations; they are
proved equal to the standard ones (`ratAdd_eq` etc. below), so universal
theorems can still use Mathlib's order and field lemmas. -/

/-- Addition on `ℚ`, via `mkRat` (kernel-reducible). -/
def ratAdd (a b : ℚ) : ℚ := mkRat (a.num * b.den + b.num * a.den) (a.den * b.den)

/-- Subtraction on `ℚ`, via `mkRat` (kernel-reducible). -/
def ratSub (a b : ℚ) : ℚ := mkRat (a.num * b.den - b.num * a.den) (a.den * b.den)

/-- Multiplication on `ℚ`, via `mkRat` (kernel-reducible). -/
def ratMul (a b : ℚ) : ℚ := mkRat (a.num * b.num) (a.den * b.den)

/-- Negation on `ℚ`, via `mkRat` (kernel-reducible). -/
def ratNeg (a : ℚ) : ℚ := mkRat (-a.num) a.den

/-- Absolute value on `ℚ` (JavaScript `Math.abs`), kernel-reducible. -/
def ratAbs (a : ℚ) : ℚ := if a.num < 0 then ratNeg a else a

/-- Strict order test on `ℚ`, kernel-reducible. -/
def ratLtB (a b : ℚ) : Bool := a.num * b.den < b.num * a.den

/-- Non-strict order test on `ℚ`, kernel-reducible. -/
def ratLeB (a b : ℚ) : Bool := a.num * b.den ≤ b.num * a.den

/-! ## `JSON.parse`

A recursive-descent parser over `Str`, total by a fuel argument
(`JSON.parse` itself always terminates; `jsonParse` supplies enough fuel
for any input).  The grammar is RFC 8259 JSON with numbers read as exact
decimals. -/

/-- Whitespace skipped between JSON tokens. -/
def skipWs : Str → Str
  | c :: cs => if isWsChar c then skipWs cs else c :: cs
  | [] => []

/-- Decimal digit test. -/
def isDigitCh (c : Char) : Bool := '0' ≤ c && c ≤ '9'

/-- Numeric value of a decimal digit character. -/
def digitVal (c : Char) : ℕ := c.toNat - 48

/-- Longest leading run of decimal digits, and the remainder. -/
def digitRun : Str → Str × Str
  | c :: cs =>
    if isDigitCh c then
      let (ds, r) := digitRun cs
      (c :: ds, r)
    else ([], c :: cs)
  | [] => ([], [])

/-- Natural number denoted by a digit run (most significant first). -/
def digitsToNat (ds : Str) : ℕ :=
  ds.foldl (fun acc c => acc * 10 + digitVal c) 0

/-- Unescape a single-character JSON escape (`\"`, `\\`, `\/`, `\n`, ...). -/
def unescCh (c : Char) : Option Char :=
  if c = quChar then some quChar
  else if c = bsChar then some bsChar
  else if c = '/' then some '/'
  else if c = 'n' then some nlChar
  else if c = 'r' then some (Char.ofNat 13)
  else if c = 't' then some (Char.ofNat 9)
  else if c = 'b' then some (Char.ofNat 8)
  else if c = 'f' then some (Char.ofNat 12)
  else none

/-- Value of one hexadecimal digit. -/
def hexVal (c : Char) : Option ℕ :=
  if '0' ≤ c && c ≤ '9' then some (c.toNat - 48)
  else if 'a' ≤ c && c ≤ 'f' then some (c.toNat - 87)
  else if 'A' ≤ c && c ≤ 'F' then some (c.toNat - 55)
  else none

/-- Parse the body of a JSON string (after the opening quote), returning
the decoded characters and the input after the closing quote. -/
def parseStrBody (acc : Str) : Str → Option (Str × Str)
  | c :: cs =>
    if c = quChar then some (acc.reverse, cs)
    else if c = bsChar then
      match cs with
      | 'u' :: a :: b :: c2 :: d :: rest =>
        match hexVal a, hexVal b, hexVal c2, hexVal d with
        | some va, some vb, some vc, some vd =>
          parseStrBody (Char.ofNat (((va * 16 + vb) * 16 + vc) * 16 + vd) :: acc) rest
        | _, _, _, _ => none
      | e :: rest =>
        match unescCh e with
        | some ch => parseStrBody (ch :: acc) rest
        | none => none
      | [] => none
    else parseStrBody (c :: acc) cs
  | [] => none

/-- The optional leading minus sign of a JSON number. -/
def numSign (cs : Str) : Bool × Str :=
  if cs.head? = some '-' then (true, cs.tail) else (false, cs)

/-- The optional fraction part: `none` models the syntax error of a
decimal point with no digits after it. -/
def numFrac (cs2 : Str) : Option (Str × Str) :=
  if cs2.head? = some '.' then
    let (fracDs, cs3) := digitRun cs2.tail
    if fracDs = [] then none else some (fracDs, cs3)
  else some ([], cs2)

/-- The optional exponent part: its signed value and the remainder
(`none` models a bare `e` with no digits). -/
def numExp (cs3 : Str) : Option (ℤ × Str) :=
  if cs3.head? = some 'e' ∨ cs3.head? = some 'E' then
    let r := cs3.tail
    let esign : ℤ × Str :=
      if r.head? = some '+' then (1, r.tail)
      else if r.head? = some '-' then (-1, r.tail)
      else (1, r)
    let (eds, r2) := digitRun esign.2
    if eds = [] then none else some (esign.1 * digitsToNat eds, r2)
  else some (0, cs3)

/-- The exact rational denoted by sign, integer digits, fraction digits
and exponent. -/
def assembleNum (neg : Bool) (intDs fracDs : Str) (ex : ℤ) : ℚ :=
  let flen := fracDs.length
  let mag : ℚ := mkRat (digitsToNat intDs * 10 ^ flen + digitsToNat fracDs) (10 ^ flen)
  let signed := if neg then ratNeg mag else mag
  if 0 ≤ ex then ratMul signed (mkRat (10 ^ ex.toNat) 1)
  else ratMul signed (mkRat 1 (10 ^ (-ex).toNat))

/-- Parse a JSON number: optional sign, integer digits, optional
fraction, optional exponent, as an exact rational. -/
def parseNum (cs : Str) : Option (ℚ × Str) :=
  let (neg, cs1) := numSign cs
  let (intDs, cs2) := digitRun cs1
  if intDs = [] then none
  else
    match numFrac cs2 with
    | none => none
    | some (fracDs, cs3) =>
      match numExp cs3 with
      | none => none
      | some (ex, cs4) => some (assembleNum neg intDs fracDs ex, cs4)

mutual

/-- Parse one JSON value (fuel-recursive). -/
def parseVal : ℕ → Str → Option (Json × Str)
  | 0, _ => none
  | fuel + 1, cs0 =>
    let cs := skipWs cs0
    if strStarts (strL ("null")) cs then some (.null, cs.drop 4)
    else if strStarts (strL ("true")) cs then some (.bool true, cs.drop 4)
    else if strStarts (strL ("false")) cs then some (.bool false, cs.drop 5)
    else
      match cs.head? with
      | none => none
      | some c =>
        if c = quChar then
          match parseStrBody [] cs.tail with
          | some (s, r') => some (.str s, r')
          | none => none
        else if c = lsb then
          let r := skipWs cs.tail
          match r.head? with
          | none => none
          | some c' =>
            if c' = rsb then some (.arr [], r.tail)
            else
              match parseElems fuel r with
              | some (es, r'') => some (.arr es, r'')
              | none => none
        else if c = lcb then
          let r := skipWs cs.tail
          match r.head? with
          | none => none
          | some c' =>
            if c' = rcb then some (.obj [], r.tail)
            else
              match parseMembers fuel r with
              | some (ms, r'') => some (.obj ms, r'')
              | none => none
        else if c = '-' || isDigitCh c then
          match parseNum cs with
          | some (q, r') => some (.num q, r')
          | none => none
        else none

/-- Parse one-or-more comma-separated array elements up to `]`. -/
def parseElems : ℕ → Str → Option (List Json × Str)
  | 0, _ => none
  | fuel + 1, cs =>
    match parseVal fuel cs with
    | none => none
    | some (v, r) =>
      let r' := skipWs r
      match r'.head? with
      | none => none
      | some c =>
        if c = ',' then
          match parseElems fuel r'.tail with
          | some (vs, r'') => some (v :: vs, r'')
          | none => none
        else if c = rsb then some ([v], r'.tail)
        else none

/-- Parse one-or-more comma-separated object members up to `}`. -/
def parseMembers : ℕ → Str → Option (List (Str × Json) × Str)
  | 0, _ => none
  | fuel + 1, cs0 =>
    let cs := skipWs cs0
    match cs.head? with
    | none => none
    | some c =>
      if c = quChar then
        match parseStrBody [] cs.tail with
        | none => none
        | some (key, r1) =>
          let r1' := skipWs r1
          if r1'.head? = some ':' then
            match parseVal fuel r1'.tail with
            | none => none
            | some (v, r3) =>
              let r3' := skipWs r3
              match r3'.head? with
              | none => none
              | some c3 =>
                if c3 = ',' then
                  match parseMembers fuel r3'.tail with
                  | some (ms, r5) => some ((key, v) :: ms, r5)
                  | none => none
                else if c3 = rcb then some ([(key, v)], r3'.tail)
                else none
          else none
      else none

end

/-- Model of `JSON.parse`: parse a complete document; `none` models the
thrown `SyntaxError`. -/
def jsonParse (cs : Str) : Option Json :=
  match parseVal (cs.length + 1) cs with
  | some (j, r) => if skipWs r = [] then some j else none
  | none => none

/-! ## `JSON.stringify(value, null, 2)`

The source serializes each object block with `JSON.stringify(objectData,
null, 2)`: one JSON token structure per line, nested values on their own
lines.  The serializer below produces that line structure.  Leading
indentation is omitted from the model: the decoder
(`extractObjectsFromVtt`) trims every line before using it, so the
indentation is invisible to every function modelled here.  The mid-line
`": "` separator after each key is kept as emitted. -/

/-- Character of a decimal digit. -/
def digitChar (n : ℕ) : Char := Char.ofNat (48 + n)

/-- Digit characters of `n`, most significant first, prepended to `acc`
(fuel-recursive so that it reduces in the kernel). -/
def natCharsAux : ℕ → ℕ → Str → Str
  | 0, _, acc => acc
  | fuel + 1, n, acc =>
    if n < 10 then digitChar n :: acc
    else natCharsAux fuel (n / 10) (digitChar (n % 10) :: acc)

/-- Decimal digit characters of a natural number. -/
def natChars (n : ℕ) : Str := natCharsAux (n + 1) n []

/-- Exactly `k` digit characters of `m` (mod `10^k`), with leading zeros. -/
def padDigits : ℕ → ℕ → Str
  | 0, _ => []
  | k + 1, m => padDigits k (m / 10) ++ [digitChar (m % 10)]

/-- The least `k < 16` with `d ∣ 10^k`, if any: the decimal exponent
needed to print a rational with denominator `d` exactly. -/
def decExp (d : ℕ) : Option ℕ :=
  (List.range 16).find? (fun k => 10 ^ k % d = 0)

/-- Decimal character form of `n / 10^k` (`n : ℕ`): integer digits, and
for `k > 0` a point followed by exactly `k` fraction digits. -/
def renderDec (n k : ℕ) : Str :=
  if k = 0 then natChars n
  else natChars (n / 10 ^ k) ++ '.' :: padDigits k (n % 10 ^ k)

/-- Decimal rendering of a rational number, exact whenever the denominator
divides a power of ten (JavaScript renders every number this system
produces that way); other denominators cannot arise from `JSON.parse`d
input or the sub-second–precision times this system stores, and get a
best-effort integer rendering. -/
def renderNum (q : ℚ) : Str :=
  (if q.num < 0 then ['-'] else []) ++
    match decExp q.den with
    | some k => renderDec (q.num.natAbs * (10 ^ k / q.den)) k
    | none => natChars q.num.natAbs

/-- JSON escape of one character (`JSON.stringify` escaping). -/
def escCh (c : Char) : Str :=
  if c = quChar then [bsChar, quChar]
  else if c = bsChar then [bsChar, bsChar]
  else if c = nlChar then [bsChar, 'n']
  else if c = Char.ofNat 13 then [bsChar, 'r']
  else if c = Char.ofNat 9 then [bsChar, 't']
  else if c = Char.ofNat 8 then [bsChar, 'b']
  else if c = Char.ofNat 12 then [bsChar, 'f']
  else if c.toNat < 32 then
    [bsChar, 'u', '0', '0', digitChar (c.toNat / 16),
      if c.toNat % 16 < 10 then digitChar (c.toNat % 16) else Char.ofNat (87 + c.toNat % 16)]
  else [c]

/-- Rendering of a JSON string (quotes and escapes). -/
def renderStr (s : Str) : Str :=
  quChar :: (s.flatMap escCh ++ [quChar])

/-- Append a character to the last line of a block of lines. -/
def appendLast (c : Char) : List Str → List Str
  | [] => []
  | [l] => [l ++ [c]]
  | l :: ls => l :: appendLast c ls

/-- Prepend characters to the first line of a block of lines. -/
def prependFirst (p : Str) : List Str → List Str
  | [] => [p]
  | l :: ls => (p ++ l) :: ls

mutual

/-- The line structure of `JSON.stringify(v, null, 2)` (see the section
comment: leading indentation omitted, everything else as emitted). -/
def renderLines : Json → List Str
  | .null => strL ("null") :: []
  | .bool true => strL ("true") :: []
  | .bool false => strL ("false") :: []
  | .num q => [renderNum q]
  | .str s => [renderStr s]
  | .arr [] => [[lsb, rsb]]
  | .arr (e :: es) => [lsb] :: (arrLines (e :: es) ++ [[rsb]])
  | .obj [] => [[lcb, rcb]]
  | .obj (kv :: ms) => [lcb] :: (objLines (kv :: ms) ++ [[rcb]])

/-- Lines of the elements of an array: every element but the last gets a
trailing comma on its final line. -/
def arrLines : List Json → List Str
  | [] => []
  | [e] => renderLines e
  | e :: es => appendLast ',' (renderLines e) ++ arrLines es

/-- Lines of the members of an object: `"key": ` is prepended to the
value's first line; every member but the last gets a trailing comma. -/
def objLines : List (Str × Json) → List Str
  | [] => []
  | [(k, v)] => prependFirst (renderStr k ++ [':', ' ']) (renderLines v)
  | (k, v) :: ms =>
    appendLast ',' (prependFirst (renderStr k ++ [':', ' ']) (renderLines v)) ++ objLines ms

end

/-- Model of `JSON.stringify(v, null, 2)` (its line structure joined by
newlines; see `renderLines`). -/
def jsonStringify (v : Json) : Str := joinNl (renderLines v)

/-- `pieces.join(sep)` for an arbitrary separator (used for
`objects.map(...).join(', ')`). -/
def joinSep (sep : Str) : List Str → Str
  | [] => []
  | [l] => l
  | l :: ls => l ++ sep ++ joinSep sep ls

/-! ## The annotated-object data model

One element of `WebVTTData.objects`, typed after the TypeScript
`WebVTTData` interface of `webvtt.ts` (`name: string`,
`code?: string`, `videoCurrentTime?: number`, ...); `none` models an
absent / `undefined` field.  The geometry fields `coordinates`,
`position` and `polygon` are declared loosely in the source
(`position?: any`) and are modelled as arbitrary JSON values. -/

structure VObj where
  id : Option Str := none
  name : Option Str := none
  code : Option Str := none
  category : Option Str := none
  dlReservoirDomain : Option Str := none
  additionalInfo : Option Str := none
  videoCurrentTime : Option ℚ := none
  coordinates : Option Json := none
  position : Option Json := none
  polygon : Option Json := none

/-- The request payload of the WebVTT route (the fields
`generateCompleteVttContent` actually reads: the video file name and the
duration; the object list is passed to it separately, as in the source). -/
structure WebVTTData where
  videoId : Str := []
  videoFileName : Str := []
  objects : List VObj := []
  duration : ℚ := 0

/-! ## Decode: `extractObjectsFromVtt` / `processVttObject`

The ambient effects of `processVttObject` — `Date.now()` and
`Math.random().toString(36).substr(2, 9)`, used only to synthesize the
`id` of the `k`-th successfully parsed block — are passed as functions of
`k`. -/

/-- Ambient inputs of the decoder. -/
structure DecodeEnv where
  nowFn : ℕ → ℕ
  randFn : ℕ → Str

/-- Coerce a JSON value to the `string`-typed fields of the object model
(a non-string value cannot arise from this system's own encoder). -/
def vtAsStr : Option Json → Option Str
  | some (Json.str s) => some s
  | _ => none

/-- Coerce a JSON value to the `number`-typed field of the object model. -/
def vtAsNum : Option Json → Option ℚ
  | some (Json.num q) => some q
  | _ => none

/-- Model of `processVttObject`: join the block's lines, `JSON.parse`
them, and build the object; `none` models the caught per-block exception
(parse failure, or the `TypeError` of property access on a `null` root).
`k` is the number of previously decoded objects (indexing the ambient
`Date.now()` / `Math.random()` draws). -/
def processVttObject (env : DecodeEnv) (objectLines : List Str) (k : ℕ) : Option VObj :=
  match jsonParse (joinNl objectLines) with
  | none => none
  | some Json.null => none
  | some d =>
    some {
      id := some (strL ("existing-") ++ natChars (env.nowFn k) ++ '-' :: env.randFn k)
      name := vtAsStr (jsOr (jsGet d (strL ("이름"))) (jsGet d (strL ("name"))))
      code := vtAsStr (jsGet d (strL ("code")))
      category := vtAsStr (jsOr (jsGet d (strL ("catefory"))) (jsGet d (strL ("category"))))
      dlReservoirDomain := vtAsStr (jsOr (jsGet d (strL ("도메인"))) (jsGet d (strL ("domain"))))
      additionalInfo := vtAsStr (jsOr (jsGet d (strL ("정보"))) (jsGet d (strL ("info"))))
      videoCurrentTime :=
        vtAsNum (jsOr (jsOr (jsGet d (strL ("시간"))) (jsGet d (strL ("videoTime"))))
          (some (Json.num 0)))
      coordinates := jsGet d (strL ("position"))
      position := jsGet d (strL ("position"))
      polygon := jsGet d (strL ("polygon")) }

/-- The mutable state of the line loop in `extractObjectsFromVtt`. -/
structure ExtractState where
  inCoordinatesSection : Bool := false
  currentObjectLines : List Str := []
  objects : List VObj := []

/-- Flush `currentObjectLines` through `processVttObject` (the
`if (currentObjectLines.length > 0) { processVttObject(...) }` step). -/
def flushObject (env : DecodeEnv) (st : ExtractState) : List VObj :=
  if st.currentObjectLines ≠ [] then
    match processVttObject env st.currentObjectLines st.objects.length with
    | some o => st.objects ++ [o]
    | none => st.objects
  else st.objects

/-- The line loop of `extractObjectsFromVtt`, one branch per source
branch. -/
def extractLoop (env : DecodeEnv) : List Str → ExtractState → List VObj
  | [], st => st.objects
  | l :: rest, st =>
    let line := jsTrim l
    if line = strL ("COORDINATES_DATA_START") then
      extractLoop env rest { st with inCoordinatesSection := true }
    else if line = strL ("COORDINATES_DATA_END") then
      extractLoop env rest
        { inCoordinatesSection := false, currentObjectLines := [], objects := flushObject env st }
    else if st.inCoordinatesSection then
      if strStarts (strL ("object")) line then
        extractLoop env rest { st with currentObjectLines := [], objects := flushObject env st }
      else if line ≠ [] then
        extractLoop env rest { st with currentObjectLines := st.currentObjectLines ++ [line] }
      else extractLoop env rest st
    else extractLoop env rest st

/-- Model of `extractObjectsFromVtt` (the decoder): split on newlines and
run the line loop. -/
def extractObjectsFromVtt (env : DecodeEnv) (content : Str) : List VObj :=
  extractLoop env (splitNl content) {}

/-! ## Merge: `combineObjectsWithTimeDeduplication` -/

/-- Model of the object spread `{ ...old, ...new }` for objects whose
present fields are never `undefined`-valued (request bodies and
JSON-parsed data): a field present on `new` wins, otherwise the old field
is kept. -/
def fieldOr (new old : Option α) : Option α :=
  match new with
  | some v => some v
  | none => old

/-- `{ ...combined[existingIndex], ...newObj }`. -/
def spreadMerge (old new : VObj) : VObj where
  id := fieldOr new.id old.id
  name := fieldOr new.name old.name
  code := fieldOr new.code old.code
  category := fieldOr new.category old.category
  dlReservoirDomain := fieldOr new.dlReservoirDomain old.dlReservoirDomain
  additionalInfo := fieldOr new.additionalInfo old.additionalInfo
  videoCurrentTime := fieldOr new.videoCurrentTime old.videoCurrentTime
  coordinates := fieldOr new.coordinates old.coordinates
  position := fieldOr new.position old.position
  polygon := fieldOr new.polygon old.polygon

/-- `obj.videoCurrentTime || 0` (`0` is falsy, so `getD` agrees). -/
def markerKey (o : VObj) : ℚ := o.videoCurrentTime.getD 0

/-- `combined.find(obj => Math.abs((obj.videoCurrentTime || 0) - t) < 0.1)`
as a Boolean test. -/
def timeConflictB (combined : List VObj) (t : ℚ) : Bool :=
  combined.any (fun o => ratLtB (ratAbs (ratSub (markerKey o) t)) (mkRat 1 10))

/-- Largest time marker in the list (`0` for the empty list),
kernel-reducible. -/
def maxMarker (combined : List VObj) : ℚ :=
  combined.foldr (fun o m => if ratLeB (markerKey o) m then m else markerKey o) 0

/-- An integer upper bound: `(q : ℚ) ≤ natCeilQ q` (proved below). -/
def natCeilQ (q : ℚ) : ℕ := q.num.toNat / q.den + 1

/-- The `while (find conflict) adjustedTime += 0.1` loop of the source,
made total with a fuel argument; `adjustFuel` below always supplies
enough fuel to reach the loop's exit condition (`adjustLoop_finds`). -/
def adjustLoop (combined : List VObj) : ℕ → ℚ → ℚ
  | 0, t => t
  | fuel + 1, t =>
    if timeConflictB combined t then adjustLoop combined fuel (ratAdd t (mkRat 1 10))
    else t

/-- Fuel sufficient for `adjustLoop` to reach a conflict-free time:
enough `+0.1` steps to climb past every marker in the list. -/
def adjustFuel (combined : List VObj) (t : ℚ) : ℕ :=
  10 * natCeilQ (ratSub (maxMarker combined) t) + 12

/-- The value of `adjustedTime` after the source's `while` loop. -/
def adjustedTime (combined : List VObj) (t : ℚ) : ℚ :=
  adjustLoop combined (adjustFuel combined t) t

/-- The body of the `newObjects.forEach` loop: update-in-place on a name
match, otherwise append with temporal-collision adjustment. -/
def mergeStep (combined : List VObj) (newObj : VObj) : List VObj :=
  match combined.findIdx? (fun existing => existing.name = newObj.name) with
  | some existingIndex =>
    combined.set existingIndex (spreadMerge (combined.getD existingIndex {}) newObj)
  | none =>
    let currentTime := newObj.videoCurrentTime.getD 0
    if timeConflictB combined currentTime then
      combined ++ [{ newObj with videoCurrentTime := some (adjustedTime combined currentTime) }]
    else combined ++ [newObj]

/-- Stable insertion of `x` into a list sorted by time marker: `x` goes
before the first element whose marker is not smaller. -/
def insertByMarker (x : VObj) : List VObj → List VObj
  | [] => [x]
  | y :: ys =>
    if ratLtB (markerKey y) (markerKey x) then y :: insertByMarker x ys
    else x :: y :: ys

/-- `combined.sort((a, b) => (a.videoCurrentTime || 0) -
(b.videoCurrentTime || 0))`: `Array.prototype.sort` is stable
(ECMA-262), so it is modelled by a stable insertion sort on the marker
key. -/
def sortByMarker : List VObj → List VObj
  | [] => []
  | x :: xs => insertByMarker x (sortByMarker xs)

/-- Model of `combineObjectsWithTimeDeduplication`. -/
def combineObjectsWithTimeDeduplication (existingObjects newObjects : List VObj) : List VObj :=
  sortByMarker (newObjects.foldl mergeStep existingObjects)

/-! ## Encode: `generateCompleteVttContent` -/

/-- Ambient inputs of the encoder: the `getKoreaTimeISO()` timestamp, the
`Math.floor(Math.random() * 1000)` draws (indexed in call order), and the
contents of the per-video coordinate file
(`<folder>-좌표.json`) if `fs.existsSync` finds it. -/
structure EncodeEnv where
  koreaTimeISO : Str
  randFn : ℕ → ℕ
  coordFile : Option Str := none

/-- `x || fallback` for a `string`-typed optional field, as the truthy
value if any. -/
def truthyStrOpt : Option Str → Option Str
  | some s => if s = [] then none else some s
  | none => none

/-- The own property names of `Object.prototype`: `categoryMap[category]`
in `getCategoryCode` is a plain-object lookup, so these keys hit the
prototype chain and yield the truthy inherited member instead of
`undefined`. -/
def objectProtoKeys : List Str :=
  [strL ("constructor"), strL ("hasOwnProperty"), strL ("isPrototypeOf"),
   strL ("propertyIsEnumerable"), strL ("toLocaleString"), strL ("toString"),
   strL ("valueOf"), strL ("__defineGetter__"), strL ("__defineSetter__"),
   strL ("__lookupGetter__"), strL ("__lookupSetter__"), strL ("__proto__")]

/-- The string the inherited `Object.prototype` member interpolates to in
the `finallink` template literal under Node/V8: built-in methods render as
`function <name>() { [native code] }` (the `constructor` key holds
the `Object` constructor, whose name is `Object`), and the `__proto__`
accessor yields `Object.prototype` itself, which renders as
`[object Object]`. -/
def protoMemberStr (key : Str) : Str :=
  if key = strL ("__proto__") then strL ("[object Object]")
  else if key = strL ("constructor") then
    strL ("function Object() \x7b [native code] \x7d")
  else strL ("function ") ++ key ++ strL ("() \x7b [native code] \x7d")

/-- The category → two-digit-code mapping of `getCategoryCode` in
`generateCompleteVttContent`: `categoryMap[category] || "00"`, where the
lookup consults the prototype chain — an own key of the table returns its
code, an `Object.prototype` property name returns the truthy inherited
member (as it later renders in the template literal), and every other
category falls through `undefined || "00"` to the default. -/
def getCategoryCode (category : Str) : Str :=
  if category = strL ("기타") then strL ("00")
  else if category = strL ("GTIN") then strL ("01")
  else if category = strL ("GLN") then strL ("02")
  else if category = strL ("SSCC") then strL ("03")
  else if category = strL ("GTIN-8") then strL ("04")
  else if category = strL ("GTIN-12") then strL ("05")
  else if category = strL ("GTIN-13") then strL ("06")
  else if category = strL ("GTIN-14") then strL ("07")
  else if objectProtoKeys.contains category then protoMemberStr category
  else strL ("00")

/-- The properties a JavaScript object built by `JSON.parse` actually
has: first occurrence order, later duplicate keys overwriting in place. -/
def upsertProp (k : Str) (v : Json) : List (Str × Json) → List (Str × Json)
  | [] => [(k, v)]
  | (k', v') :: rest => if k' = k then (k', v) :: rest else (k', v') :: upsertProp k v rest

/-- Deduplicated property list of a parsed JSON object. -/
def objProps (kvs : List (Str × Json)) : List (Str × Json) :=
  kvs.foldl (fun acc kv => upsertProp kv.1 kv.2 acc) []

/-- The values enumerated by `for (const objectKey in coordItem)`:
own enumerable properties of an object, indices of an array, character
positions of a string, nothing for other primitives. -/
def coordKeyVals : Json → List Json
  | Json.obj kvs => (objProps kvs).map (·.2)
  | Json.arr es => es
  | Json.str s => s.map (fun c => Json.str [c])
  | _ => []

/-- `coordItem[objectKey]["이름"] === obj.name` (strict equality between
the looked-up JSON value and the `string`-typed `obj.name`). -/
def vtNameMatches (v : Json) (name : Option Str) : Bool :=
  match jsGet v (strL ("이름")), name with
  | some (Json.str s), some t => s = t
  | none, none => true
  | _, _ => false

/-- The inner `for (const objectKey in coordItem)` loop: `.error ()`
models the `TypeError` thrown by property access on a `null` value
(aborting the whole `try` block), `.ok (some p)` a match followed by
`break` (`p = none` models `positionData = undefined` when the matching
value has no `position` property). -/
def scanItemVals (name : Option Str) : List Json → Except Unit (Option (Option Json))
  | [] => .ok none
  | v :: rest =>
    match v with
    | Json.null => .error ()
    | _ =>
      if vtNameMatches v name then .ok (some (jsGet v (strL ("position"))))
      else scanItemVals name rest

/-- The outer `for (const coordItem of coordinateArray)` loop, threading
`positionData`; a thrown inner exception leaves the last assigned value
in place (the `catch` is outside the loop). -/
def scanItems (name : Option Str) (pos : Option Json) : List Json → Option Json
  | [] => pos
  | item :: rest =>
    match scanItemVals name (coordKeyVals item) with
    | .error () => pos
    | .ok none => scanItems name pos rest
    | .ok (some p) => scanItems name p rest

/-- The whole `try { ... read coordinate file ... }` block of the
encoder: possibly replace `positionData` with the position matched by
object name in the coordinate file; any exception (missing or unparsable
file, non-iterable root, property access on `null`) is caught and leaves
the current value. -/
def coordinateOverride (coordFile : Option Str) (name : Option Str) (pos : Option Json) :
    Option Json :=
  match coordFile with
  | none => pos
  | some content =>
    match jsonParse content with
    | none => pos
    | some (Json.arr items) => scanItems name pos items
    | some (Json.str s) => scanItems name pos (s.map (fun c => Json.str [c]))
    | some _ => pos

/-- `Math.floor` on an exact rational. -/
def mathFloor (q : ℚ) : ℤ := q.num.ediv q.den

/-- Decimal characters of an integer. -/
def intChars (i : ℤ) : Str := (if i < 0 then ['-'] else []) ++ natChars i.natAbs

/-- `String.prototype.padStart(2, '0')`. -/
def padTwo (s : Str) : Str :=
  if s.length < 2 then List.replicate (2 - s.length) '0' ++ s else s

/-- Model of `formatDuration`: `MM:SS:HH` from seconds.  (The `%`
steps are modelled with floor-based remainders, which agree with
JavaScript's truncating `%` on the non-negative durations this system
passes.) -/
def formatDuration (seconds : ℚ) : Str :=
  let totalMinutes := mathFloor (mkRat seconds.num (seconds.den * 60))
  let remainingSeconds :=
    mathFloor (ratSub seconds (ratMul (mkRat 60 1) (mkRat totalMinutes 1)))
  let ms :=
    mathFloor (ratMul (ratSub seconds (mkRat (mathFloor seconds) 1)) (mkRat 100 1))
  padTwo (intChars totalMinutes) ++ ':' :: padTwo (intChars remainingSeconds) ++
    ':' :: padTwo (intChars ms)

/-- The `objectData` JSON literal built for one object by
`generateCompleteVttContent`, together with the number of
`Math.random()` draws consumed (two draws when `obj.code` is falsy: the
`"code"` field and the `finallink` field each evaluate
`obj.code || `CODE_RECT-${Math.floor(Math.random() * 1000)}``
independently). A key with an `undefined` value (`"이름"` for a nameless
object, `"position"` when the coordinate-file scan assigned `undefined`)
is omitted, as `JSON.stringify` omits it. -/
def encodeEntries (env : EncodeEnv) (rctr : ℕ) (obj : VObj) : List (Str × Json) × ℕ :=
  let categoryVal := (truthyStrOpt obj.category).getD (strL ("기타"))
  let categoryCode := getCategoryCode categoryVal
  let positionData :=
    coordinateOverride env.coordFile obj.name
      (jsOr (jsOr obj.coordinates obj.position) (some Json.null))
  let domainVal := (truthyStrOpt obj.dlReservoirDomain).getD (strL ("http://www.naver.com"))
  let infoVal := (truthyStrOpt obj.additionalInfo).getD (strL ("AI가 자동으로 탐지한 객체입니다."))
  let (codeVal, rctr1) :=
    match truthyStrOpt obj.code with
    | some c => (c, rctr)
    | none => (strL ("CODE_RECT-") ++ natChars (env.randFn rctr), rctr + 1)
  let (linkCodeVal, rctr2) :=
    match truthyStrOpt obj.code with
    | some c => (c, rctr1)
    | none => (strL ("CODE_RECT-") ++ natChars (env.randFn rctr1), rctr1 + 1)
  let entries :=
    (match obj.name with
      | some n => [(strL ("이름"), Json.str n)]
      | none => []) ++
    [(strL ("시간"), Json.num (obj.videoCurrentTime.getD 0)),
     (strL ("code"), Json.str codeVal),
     (strL ("catefory"), Json.str categoryVal),
     (strL ("도메인"), Json.str domainVal),
     (strL ("정보"), Json.str infoVal),
     (strL ("finallink"),
       Json.str (domainVal ++ '/' :: categoryCode ++ '/' :: linkCodeVal))] ++
    (match positionData with
      | some p => [(strL ("position"), p)]
      | none => []) ++
    [(strL ("polygon"), (jsOr obj.polygon (some Json.null)).getD Json.null)]
  (entries, rctr2)

/-- The `objects.forEach` loop of the encoder: the `object<N>` tag line
followed by the block's `JSON.stringify(objectData, null, 2)` lines, for
each object, threading the random-draw counter. -/
def encodeBlocks (env : EncodeEnv) : ℕ → ℕ → List VObj → List Str
  | _, _, [] => []
  | idx, rctr, obj :: rest =>
    let (entries, rctr') := encodeEntries env rctr obj
    (strL ("object") ++ natChars (idx + 1)) ::
      (renderLines (Json.obj entries) ++ encodeBlocks env (idx + 1) rctr' rest)

/-- The `vttLines` array built by `generateCompleteVttContent`, in push
order. -/
def generateVttLines (env : EncodeEnv) (data : WebVTTData) (objects : List VObj) : List Str :=
  [strL ("WEBVTT"), strL ("NOTE"),
   strL ("동영상: ") ++ data.videoFileName,
   strL ("생성일: ") ++ env.koreaTimeISO,
   strL ("탐지된 객체 수: ") ++ natChars objects.length] ++
  (if objects.length > 0 then
    strL ("COORDINATES_DATA_START") ::
      (encodeBlocks env 0 0 objects ++ [strL ("COORDINATES_DATA_END")])
  else []) ++
  [[]] ++
  (if objects.length > 0 then
    [strL ("1"), strL ("00:00:00.000 --> ") ++ formatDuration data.duration,
     strL ("탐지된 객체: ") ++ joinSep (strL (", ")) (objects.map (fun o => o.name.getD [])),
     []]
  else
    [strL ("1"), strL ("00:00:00.000 --> ") ++ formatDuration data.duration,
     strL ("탐지된 객체가 없습니다."), []])

/-- Model of `generateCompleteVttContent`: the line array joined with
newlines. -/
def generateCompleteVttContent (env : EncodeEnv) (data : WebVTTData) (objects : List VObj) :
    Str :=
  joinNl (generateVttLines env data objects)

/-- Model of `createUpdatedVttContent`: decode the existing container,
merge with the incoming objects, re-encode. -/
def createUpdatedVttContent (denv : DecodeEnv) (eenv : EncodeEnv) (existingContent : Str)
    (newData : WebVTTData) : Str :=
  generateCompleteVttContent eenv newData
    (combineObjectsWithTimeDeduplication (extractObjectsFromVtt denv existingContent)
      newData.objects)

/-! ## Auxiliary notions used by the theorem statements -/

/-- Canonical decimal digit characters of `n` (most significant first),
defined through `Nat.digits`: the specification that `natCharsAux`
implements. -/
def canonDigits (n : ℕ) : Str :=
  if n = 0 then ['0'] else ((Nat.digits 10 n).map digitChar).reverse

/-- A character that may begin a serialized JSON line without confusing
the container's line loop: not whitespace, not the `'o'` of an
`object<N>` tag, not the `'C'` of the section markers. -/
def goodHeadCh (c : Char) : Bool := !isWsChar c && c ≠ 'o' && c ≠ 'C'

/-- A line the container's line loop passes through literally: nonempty,
trim-invariant, no `object` tag, no section marker (all consequences of
its first and last characters, proved below). -/
def goodLineB (l : Str) : Bool :=
  match l with
  | [] => false
  | c :: _ => goodHeadCh c && !isWsChar (l.getLastD ' ') && !l.contains nlChar

/-- A string all of whose characters are printable (at or above the space
character): serialized with only `\"` and `\\` escapes, hence restored
verbatim by `JSON.parse`. -/
def safeStr (s : Str) : Bool := s.all (fun c => 32 ≤ c.toNat)

/-- A rational exactly representable as a short decimal — what
JavaScript prints without exponent notation for the times and pixel
coordinates this system stores. -/
def safeNum (q : ℚ) : Bool := (decExp q.den).isSome

mutual

/-- A JSON value whose strings are printable and whose numbers are exact
short decimals: its `JSON.stringify` output parses back to it. -/
def safeJson : Json → Bool
  | .null => true
  | .bool _ => true
  | .num q => safeNum q
  | .str s => safeStr s
  | .arr es => safeArr es
  | .obj kvs => safeObj kvs

/-- `safeJson` for every element of an array. -/
def safeArr : List Json → Bool
  | [] => true
  | e :: es => safeJson e && safeArr es

/-- `safeJson` for every member (and `safeStr` for every key) of an
object. -/
def safeObj : List (Str × Json) → Bool
  | [] => true
  | (k, v) :: kvs => safeStr k && safeJson v && safeObj kvs

end

/-- Is this JSON value the literal `null`? -/
def isNullJ : Json → Bool
  | .null => true
  | _ => false

/-- Is the `coordinates || position || null` chain already settled by a
falsy `position`?  (Used to say when a `null` geometry survives a round
trip.) -/
def posFalsy : Option Json → Bool
  | none => true
  | some p => !jsTruthy p

/-- A fully-populated annotated object, as the specification's round-trip
property assumes: every metadata field present, truthy and printable, the
time marker a short decimal, and the geometry either a truthy safe JSON
value or `null` (with no stray truthy `position` shadowing it); `polygon`
present (possibly `null`). -/
def validObj (o : VObj) : Bool :=
  (match o.name with
    | some s => s ≠ [] && safeStr s
    | none => false) &&
  (match o.code with
    | some s => s ≠ [] && safeStr s
    | none => false) &&
  (match o.category with
    | some s => s ≠ [] && safeStr s
    | none => false) &&
  (match o.dlReservoirDomain with
    | some s => s ≠ [] && safeStr s
    | none => false) &&
  (match o.additionalInfo with
    | some s => s ≠ [] && safeStr s
    | none => false) &&
  (match o.videoCurrentTime with
    | some q => safeNum q
    | none => false) &&
  (match o.coordinates with
    | some c => safeJson c && (jsTruthy c || (isNullJ c && posFalsy o.position))
    | none => false) &&
  (match o.polygon with
    | some p => safeJson p && (jsTruthy p || isNullJ p)
    | none => false)

/-- Validity of a whole object list. -/
def validList (L : List VObj) : Bool := L.all validObj

/-- The fields of the specification's `AnnotatedObject` data model
(`name`, `temporalMarker`, `code`, `category`, `domain`, `info`,
`geometry`, `polygon`): the projection under which decode∘encode is
compared with the original list.  The synthesized `id` and the
`derivedLink` (recomputed at encode time, never stored on the object) are
not part of the model. -/
def specView (o : VObj) :
    Option Str × Option ℚ × Option Str × Option Str × Option Str × Option Str ×
      Option Json × Option Json :=
  (o.name, o.videoCurrentTime, o.code, o.category, o.dlReservoirDomain, o.additionalInfo,
    o.coordinates, o.polygon)

/-- Erase the synthesized `id` of a decoded object (the only decode
output that depends on the ambient clock and random generator). -/
def dropId (o : VObj) : VObj := { o with id := none }

/-- Declarative companion of `extractLoop`: the groups of (trimmed,
nonempty) lines the loop assembles into object blocks, without running
the per-block parser.  Same branch structure as `extractLoop`, but
collecting line groups instead of decoding them. -/
def vttBlocksLoop : List Str → Bool → List Str → List (List Str)
  | [], _, _ => []
  | l :: rest, inCoord, curr =>
    let line := jsTrim l
    if line = strL ("COORDINATES_DATA_START") then
      vttBlocksLoop rest true curr
    else if line = strL ("COORDINATES_DATA_END") then
      (if curr ≠ [] then [curr] else []) ++ vttBlocksLoop rest false []
    else if inCoord then
      if strStarts (strL ("object")) line then
        (if curr ≠ [] then [curr] else []) ++ vttBlocksLoop rest true []
      else if line ≠ [] then vttBlocksLoop rest inCoord (curr ++ [line])
      else vttBlocksLoop rest inCoord curr
    else vttBlocksLoop rest inCoord curr

/-- The object blocks of a container text. -/
def vttBlocks (content : Str) : List (List Str) :=
  vttBlocksLoop (splitNl content) false []

/-- Decode a list of blocks: per-block `processVttObject`, skipping the
blocks that fail to parse and numbering the successes. -/
def decodeBlocks (env : DecodeEnv) : ℕ → List (List Str) → List VObj
  | _, [] => []
  | k, b :: bs =>
    match processVttObject env b k with
    | some o => o :: decodeBlocks env (k + 1) bs
    | none => decodeBlocks env k bs

/-- A fixed decoder environment for concrete examples. -/
def exDecodeEnv : DecodeEnv := { nowFn := fun _ => 7, randFn := fun _ => strL ("r") }

/-- A well-formed object block (for the malformed-block-skip example). -/
def exGoodJson (nm : String) (t : ℚ) : Json :=
  Json.obj [(strL ("이름"), Json.str (strL (nm))), (strL ("시간"), Json.num t)]

/-- A container text with one syntactically broken object block between
two well-formed ones. -/
def exMixedContainer : Str :=
  joinNl
    ([strL ("WEBVTT"), strL ("COORDINATES_DATA_START"), strL ("object1"),
      strL ("\x7b \x22이름\x22: broken")] ++
     (strL ("object2") :: renderLines (exGoodJson "good1" 1)) ++
     (strL ("object3") :: renderLines (exGoodJson "good2" 2)) ++
     [strL ("COORDINATES_DATA_END")])

/-- Example object `X` at marker `2` (for the merge examples). -/
def exX2 : VObj := { name := some (strL ("X")), videoCurrentTime := some 2 }

/-- Example object `Y` at marker `1` (for the merge examples). -/
def exY1 : VObj := { name := some (strL ("Y")), videoCurrentTime := some 1 }


/-- A remainder that cannot extend a rendered number: empty, or headed by
a character that is neither a digit nor `.`/`e`/`E`.  The newline and
comma that follow every number in the container qualify. -/
def numStop : Str → Bool
  | [] => true
  | c :: _ => !(isDigitCh c || c = '.' || c = 'e' || c = 'E')

mutual

/-- Fuel sufficient for `parseVal` on the rendering of a value: one unit
per parser call in the recursion (`rtAux` below proves it sufficient). -/
def pfuel : Json → ℕ
  | .null => 1
  | .bool _ => 1
  | .num _ => 1
  | .str _ => 1
  | .arr es => 1 + pfuelArr es
  | .obj kvs => 1 + pfuelObj kvs

/-- Fuel sufficient for `parseElems` on rendered array elements. -/
def pfuelArr : List Json → ℕ
  | [] => 0
  | e :: es => 1 + pfuel e + pfuelArr es

/-- Fuel sufficient for `parseMembers` on rendered object members. -/
def pfuelObj : List (Str × Json) → ℕ
  | [] => 0
  | (_, v) :: kvs => 1 + pfuel v + pfuelObj kvs

end

/-- The serialized JSON line blocks `encodeBlocks` emits (one block per
object, without the `object<N>` tag lines), with the random-draw counter
threaded exactly as in `encodeBlocks`. -/
def encodedBlocks (env : EncodeEnv) : ℕ → List VObj → List (List Str)
  | _, [] => []
  | rctr, o :: rest =>
    renderLines (Json.obj (encodeEntries env rctr o).1) ::
      encodedBlocks env (encodeEntries env rctr o).2 rest

/-- Example encoder environment (fixed timestamp, no coordinate file). -/
def exEncEnv : EncodeEnv :=
  { koreaTimeISO := strL ("2026-10-11T00:00:00"), randFn := fun _ => 0 }

/-- Example request payload for the round-trip witness. -/
def exData : WebVTTData := { videoFileName := strL ("v.mp4"), duration := 0 }

/-- A fully-populated valid object for the round-trip witness. -/
def exValidObj : VObj :=
  { name := some (strL ("A")), code := some (strL ("C1")), category := some (strL ("GTIN")),
    dlReservoirDomain := some (strL ("http://x.com")), additionalInfo := some (strL ("i")),
    videoCurrentTime := some 1, coordinates := some (Json.obj [(strL ("x"), Json.num 1)]),
    polygon := some Json.null }

/-- A second decoder environment: identical input text, different ambient
clock (`Date.now()`). -/
def exDecodeEnv2 : DecodeEnv := { nowFn := fun _ => 8, randFn := fun _ => strL ("r") }

/-- Encoder environment identical to `exEncEnv` except that the per-video
coordinate file exists on disk, holding a position for object `A`. -/
def exEncEnvFile : EncodeEnv :=
  { koreaTimeISO := strL ("2026-10-11T00:00:00"), randFn := fun _ => 0,
    coordFile := some (jsonStringify (Json.arr [Json.obj [(strL ("k"),
      Json.obj [(strL ("이름"), Json.str (strL ("A"))),
        (strL ("position"), Json.num 5)])]])) }

/-- Does every object carry a truthy `code` (so that the encoder consumes
no `Math.random()` draws)? -/
def codesTruthy (L : List VObj) : Bool := L.all (fun o => (truthyStrOpt o.code).isSome)

/-- A minimal container text with one empty-object block (for the
decoder-determinism counterexample). -/
def exC4Text : Str :=
  strL ("COORDINATES_DATA_START\nobject1\n\x7b\x7d\nCOORDINATES_DATA_END")

/-- An object with no `code` (forcing the encoder's `Math.random()`
draws). -/
def exNoCodeObj : VObj := { name := some (strL ("B")), videoCurrentTime := some 1 }

/-- Encoder environment whose random draws are the draw index. -/
def exEncEnvR1 : EncodeEnv :=
  { koreaTimeISO := strL ("2026-10-11T00:00:00"), randFn := fun i => i }

/-- Encoder environment with a different random stream, everything else
as in `exEncEnvR1`. -/
def exEncEnvR2 : EncodeEnv :=
  { koreaTimeISO := strL ("2026-10-11T00:00:00"), randFn := fun _ => 9 }

/-! # Theorems

First the bridge between the kernel-reducible rational operations and
Mathlib's, then the claims, grouped by subject. -/

theorem ratAdd_eq (a b : ℚ) : ratAdd a b = a + b := by
  rw [ratAdd, Rat.mkRat_eq_div]
  push_cast
  conv_rhs => rw [← Rat.num_div_den a, ← Rat.num_div_den b]
  rw [div_add_div _ _ (by positivity) (by positivity)]
  ring_nf

theorem ratSub_eq (a b : ℚ) : ratSub a b = a - b := by
  rw [ratSub, Rat.mkRat_eq_div]
  push_cast
  conv_rhs => rw [← Rat.num_div_den a, ← Rat.num_div_den b]
  rw [div_sub_div _ _ (by positivity) (by positivity)]
  ring_nf

theorem ratMul_eq (a b : ℚ) : ratMul a b = a * b := by
  rw [ratMul, Rat.mkRat_eq_div]
  push_cast
  conv_rhs => rw [← Rat.num_div_den a, ← Rat.num_div_den b]
  rw [div_mul_div_comm]

theorem ratNeg_eq (a : ℚ) : ratNeg a = -a := by
  rw [ratNeg, Rat.mkRat_eq_div]
  push_cast
  rw [neg_div, Rat.num_div_den]

theorem ratAbs_eq (a : ℚ) : ratAbs a = |a| := by
  rw [ratAbs]
  split
  · rw [ratNeg_eq, eq_comm, abs_eq_neg_self]
    rw [← Rat.num_nonpos]
    omega
  · rw [eq_comm, abs_eq_self, ← Rat.num_nonneg]
    omega

theorem ratLtB_iff (a b : ℚ) : ratLtB a b = true ↔ a < b := by
  simp [ratLtB, Rat.lt_def]

theorem ratLeB_iff (a b : ℚ) : ratLeB a b = true ↔ a ≤ b := by
  simp [ratLeB, Rat.le_def]

theorem mkRat_den_one (n : ℤ) : mkRat n 1 = (n : ℚ) := by
  rw [Rat.mkRat_eq_div]
  norm_num

theorem natCeilQ_ge (q : ℚ) : q ≤ (natCeilQ q : ℚ) := by
  have hden : 0 < (q.den : ℚ) := by positivity
  nth_rewrite 1 [← Rat.num_div_den q]
  rw [div_le_iff₀ hden, natCeilQ]
  have h1 : q.num ≤ (q.num.toNat : ℤ) := Int.self_le_toNat q.num
  have h2 : q.num.toNat < (q.num.toNat / q.den + 1) * q.den := by
    have hd := q.den_pos
    calc q.num.toNat = q.den * (q.num.toNat / q.den) + q.num.toNat % q.den :=
          (Nat.div_add_mod _ _).symm
      _ < q.den * (q.num.toNat / q.den) + q.den :=
          Nat.add_lt_add_left (Nat.mod_lt _ hd) _
      _ = (q.num.toNat / q.den + 1) * q.den := by ring
  calc (q.num : ℚ) ≤ (q.num.toNat : ℚ) := by exact_mod_cast h1
    _ ≤ ((q.num.toNat / q.den + 1) * q.den : ℕ) := by exact_mod_cast h2.le
    _ = (q.num.toNat / q.den + 1 : ℕ) * (q.den : ℚ) := by push_cast; ring

/-! ## C8: the category-code table -/

/-- C8 counterexample: the claim's table is wrong about the code — `GSIN`
and `GIAI` are neither own keys of `getCategoryCode`'s map nor inherited
`Object.prototype` names, so they fall to the default `"00"`, not to
`"04"` / `"03"`. -/
theorem C8_counterexample :
    getCategoryCode (strL ("GSIN")) ≠ strL ("04") ∧
    getCategoryCode (strL ("GIAI")) ≠ strL ("03") ∧
    getCategoryCode (strL ("GSIN")) = strL ("00") ∧
    getCategoryCode (strL ("GIAI")) = strL ("00") := by
  refine ⟨?_, ?_, rfl, rfl⟩ <;> decide

/-- C8 (amended): `getCategoryCode` is the plain-object lookup
`categoryMap[category] || "00"`.  Its eight own keys map 기타 to "00",
GTIN to "01", GLN to "02", SSCC to "03", GTIN-8 to "04", GTIN-12 to
"05", GTIN-13 to "06" and GTIN-14 to "07".  A category that is an
`Object.prototype` property name (`toString`, `constructor`, `valueOf`,
...) hits the prototype chain and yields the truthy inherited member —
never `"00"`.  Every other category, GSIN and GIAI included, falls
through `undefined || "00"` to the default `"00"`. -/
theorem C8_category_code_table :
    getCategoryCode (strL ("기타")) = strL ("00") ∧
    getCategoryCode (strL ("GTIN")) = strL ("01") ∧
    getCategoryCode (strL ("GLN")) = strL ("02") ∧
    getCategoryCode (strL ("SSCC")) = strL ("03") ∧
    getCategoryCode (strL ("GTIN-8")) = strL ("04") ∧
    getCategoryCode (strL ("GTIN-12")) = strL ("05") ∧
    getCategoryCode (strL ("GTIN-13")) = strL ("06") ∧
    getCategoryCode (strL ("GTIN-14")) = strL ("07") ∧
    getCategoryCode (strL ("GSIN")) = strL ("00") ∧
    getCategoryCode (strL ("GIAI")) = strL ("00") ∧
    (∀ c ∈ objectProtoKeys,
      getCategoryCode c = protoMemberStr c ∧ getCategoryCode c ≠ strL ("00")) ∧
    (∀ c : Str, c ∉ [strL ("기타"), strL ("GTIN"), strL ("GLN"), strL ("SSCC"),
        strL ("GTIN-8"), strL ("GTIN-12"), strL ("GTIN-13"), strL ("GTIN-14")] →
      objectProtoKeys.contains c = false → getCategoryCode c = strL ("00")) := by
  refine ⟨rfl, rfl, rfl, rfl, rfl, rfl, rfl, rfl, rfl, rfl, ?_, ?_⟩
  · intro c hc
    simp only [objectProtoKeys, List.mem_cons, List.not_mem_nil, or_false] at hc
    rcases hc with rfl | rfl | rfl | rfl | rfl | rfl | rfl | rfl | rfl | rfl | rfl | rfl <;>
      exact ⟨rfl, by decide⟩
  · intro c hc hproto
    simp only [List.mem_cons, List.not_mem_nil, or_false, not_or] at hc
    obtain ⟨h1, h2, h3, h4, h5, h6, h7, h8⟩ := hc
    rw [getCategoryCode]
    simp only [if_neg h1, if_neg h2, if_neg h3, if_neg h4, if_neg h5, if_neg h6, if_neg h7,
      if_neg h8]
    rw [if_neg (by rw [hproto]; decide)]

/-- Witness for the hypothesis-carrying conjuncts of
`C8_category_code_table`: the prototype-chain clause applied at the
concrete category `"toString"`, and the default clause at `"GSIN"`. -/
theorem C8_category_code_table_witness :
    getCategoryCode (strL ("toString")) ≠ strL ("00") ∧
    getCategoryCode (strL ("GSIN")) = strL ("00") :=
  ⟨(C8_category_code_table.2.2.2.2.2.2.2.2.2.2.1 (strL ("toString")) (by decide)).2,
    C8_category_code_table.2.2.2.2.2.2.2.2.2.2.2 (strL ("GSIN")) (by decide) (by decide)⟩

/-! ## Merge-engine lemmas -/

theorem combine_singleton (E : List VObj) (n : VObj) :
    combineObjectsWithTimeDeduplication E [n] = sortByMarker (mergeStep E n) := rfl

theorem findIdx?_none_of_all {p : VObj → Bool} {l : List VObj} (i : ℕ)
    (h : ∀ o ∈ l, p o = false) : List.findIdx? p l i = none := by
  induction l generalizing i with
  | nil => rfl
  | cons x xs ih =>
    rw [List.findIdx?_cons, if_neg (by simp [h x (by simp)])]
    exact ih _ (fun o ho => h o (by simp [ho]))

theorem findIdx?_append_cons {p : VObj → Bool} {pre post : List VObj} {x : VObj} (i : ℕ)
    (hpre : ∀ o ∈ pre, p o = false) (hx : p x = true) :
    List.findIdx? p (pre ++ x :: post) i = some (i + pre.length) := by
  induction pre generalizing i with
  | nil => simp [List.findIdx?_cons, hx]
  | cons y ys ih =>
    rw [List.cons_append, List.findIdx?_cons, if_neg (by simp [hpre y (by simp)])]
    rw [ih (i + 1) (fun o ho => hpre o (by simp [ho]))]
    simp
    omega

theorem sortByMarker_of_pairwise {l : List VObj}
    (h : List.Pairwise (fun a b => markerKey a ≤ markerKey b) l) : sortByMarker l = l := by
  induction l with
  | nil => rfl
  | cons x xs ih =>
    rw [sortByMarker, ih h.of_cons]
    cases xs with
    | nil => rfl
    | cons y ys =>
      rw [insertByMarker]
      rw [if_neg]
      simp only [Bool.not_eq_true]
      rw [← Bool.not_eq_true, ratLtB_iff, not_lt]
      exact (List.pairwise_cons.mp h).1 y (by simp)

/-! ## C6: merging the empty list sorts -/

/-- C6 counterexample: merging with the empty incoming list does not
return the existing list unchanged — the function unconditionally sorts
by time marker, so an unsorted existing list comes back reordered. -/
theorem C6_counterexample :
    combineObjectsWithTimeDeduplication [exX2, exY1] [] ≠ [exX2, exY1] := by
  intro h
  have e1 : List.map (fun o : VObj => o.name) (combineObjectsWithTimeDeduplication [exX2, exY1] []) =
      [some (strL ("Y")), some (strL ("X"))] := rfl
  rw [h] at e1
  have e2 : List.map (fun o : VObj => o.name) [exX2, exY1] =
      [some (strL ("X")), some (strL ("Y"))] := rfl
  rw [e2] at e1
  exact absurd e1 (by decide)

/-- C6 (amended): merging the empty incoming list returns the existing
list stably sorted by `temporalMarker`; in particular it returns the
existing list itself whenever that list is already sorted (non-decreasing
markers). -/
theorem C6_merge_empty :
    (∀ E : List VObj, combineObjectsWithTimeDeduplication E [] = sortByMarker E) ∧
    ∀ E : List VObj, List.Pairwise (fun a b => markerKey a ≤ markerKey b) E →
      combineObjectsWithTimeDeduplication E [] = E := by
  refine ⟨fun E => rfl, fun E h => ?_⟩
  exact sortByMarker_of_pairwise h

/-- Witness for `C6_merge_empty`: a concrete sorted two-element list is
returned unchanged. -/
theorem C6_merge_empty_witness :
    combineObjectsWithTimeDeduplication [exY1, exX2] [] = [exY1, exX2] :=
  C6_merge_empty.2 _ (by
    constructor
    · intro b hb
      simp only [List.mem_singleton] at hb
      subst hb
      show markerKey exY1 ≤ markerKey exX2
      norm_num [markerKey, exY1, exX2]
    · simp)

/-! ## C2: name-matched merge overwrites the time marker -/

/-- C2 counterexample: merging an incoming `"Object(1)"` at marker `9`
into an existing `"Object(1)"` at marker `5` yields marker `9`, not the
claimed retained `5` — the object spread `{ ...existing, ...incoming }`
overwrites `videoCurrentTime` (the source comment says so:
"시간은 유지하지 않음"). -/
theorem C2_counterexample :
    (combineObjectsWithTimeDeduplication
        [{ name := some (strL ("Object(1)")), videoCurrentTime := some 5 }]
        [{ name := some (strL ("Object(1)")), videoCurrentTime := some 9,
           additionalInfo := some (strL ("new info")) }]).map
      (fun o => o.videoCurrentTime) ≠ [some 5] := by
  intro h
  have e1 : (combineObjectsWithTimeDeduplication
        [{ name := some (strL ("Object(1)")), videoCurrentTime := some 5 }]
        [{ name := some (strL ("Object(1)")), videoCurrentTime := some 9,
           additionalInfo := some (strL ("new info")) }]).map
      (fun o => o.videoCurrentTime) = [some 9] := rfl
  rw [h] at e1
  exact absurd e1 (by decide)

/-- C2 (amended): on a name match, the merged object takes every field
present on the incoming object — `temporalMarker` included — and keeps
the existing object's value only for fields the incoming object omits
(the object spread); in particular the `"Object(1)"` example yields
`temporalMarker == 9.0` together with the incoming `info`. -/
theorem C2_identity_not_preserved :
    (∀ (pre post : List VObj) (x n : VObj),
        (∀ o ∈ pre, o.name ≠ n.name) → x.name = n.name →
        combineObjectsWithTimeDeduplication (pre ++ x :: post) [n] =
          sortByMarker (pre ++ spreadMerge x n :: post)) ∧
    combineObjectsWithTimeDeduplication
        [{ name := some (strL ("Object(1)")), videoCurrentTime := some 5 }]
        [{ name := some (strL ("Object(1)")), videoCurrentTime := some 9,
           additionalInfo := some (strL ("new info")) }] =
      [{ name := some (strL ("Object(1)")), videoCurrentTime := some 9,
         additionalInfo := some (strL ("new info")) }] := by
  constructor
  · intro pre post x n hpre hx
    rw [combine_singleton, mergeStep]
    rw [findIdx?_append_cons 0 (fun o ho => by simp [hpre o ho]) (by simp [hx])]
    simp only [Nat.zero_add]
    have hx0 : (pre ++ x :: post).getD pre.length ({} : VObj) = x := by
      rw [List.getD_eq_getElem?_getD, List.getElem?_append_right (Nat.le_refl _),
        Nat.sub_self]
      simp
    rw [hx0, List.set_append, if_neg (by omega), Nat.sub_self, List.set_cons_zero]
  · rfl

/-- Witness for the hypothesis-carrying conjunct of
`C2_identity_not_preserved`: applied to a singleton existing list and a
matching incoming object. -/
theorem C2_identity_not_preserved_witness :
    combineObjectsWithTimeDeduplication
        ([] ++ { name := some (strL ("Object(1)")), videoCurrentTime := some 5 } ::
          ([] : List VObj))
        [{ name := some (strL ("Object(1)")), videoCurrentTime := some 9 }] =
      sortByMarker
        ([] ++ spreadMerge { name := some (strL ("Object(1)")), videoCurrentTime := some 5 }
          { name := some (strL ("Object(1)")), videoCurrentTime := some 9 } :: []) :=
  C2_identity_not_preserved.1 [] []
    { name := some (strL ("Object(1)")), videoCurrentTime := some 5 }
    { name := some (strL ("Object(1)")), videoCurrentTime := some 9 }
    (by simp) rfl

/-! ## C5: there is no name-validation drop -/

/-- C5 counterexample: an incoming object without a `name` is not
dropped — merging it into the empty existing list produces a one-element
list, not the unchanged (empty) existing list the claim requires. -/
theorem C5_counterexample :
    combineObjectsWithTimeDeduplication [] [{ videoCurrentTime := some 1 }] ≠ [] := by
  intro h
  have e1 : (combineObjectsWithTimeDeduplication [] [{ videoCurrentTime := some 1 }]).length
      = 1 := rfl
  rw [h] at e1
  exact absurd e1 (by decide)

/-- C5 (amended): the merge performs no name validation at all.  A
nameless incoming object is treated like any other: it is matched against
existing objects by strict name equality (`undefined === undefined`
matches a nameless existing object), and when every existing object has a
name it is appended — after temporal-collision adjustment — rather than
dropped; in particular `merge([], [{temporalMarker: 1.0}])` returns the
one-element list with that object. -/
theorem C5_no_validation_drop :
    (∀ (E : List VObj) (n : VObj), n.name = none → (∀ o ∈ E, o.name ≠ none) →
      combineObjectsWithTimeDeduplication E [n] =
        sortByMarker (E ++
          [if timeConflictB E (n.videoCurrentTime.getD 0) then
            { n with videoCurrentTime := some (adjustedTime E (n.videoCurrentTime.getD 0)) }
          else n])) ∧
    combineObjectsWithTimeDeduplication [] [{ videoCurrentTime := some 1 }] =
      [{ videoCurrentTime := some 1 }] := by
  constructor
  · intro E n hn hE
    rw [combine_singleton, mergeStep]
    rw [findIdx?_none_of_all 0 (fun o ho => by simp [hn, hE o ho])]
    show sortByMarker
        (let currentTime := n.videoCurrentTime.getD 0;
         if timeConflictB E currentTime then
           E ++ [{ n with videoCurrentTime := some (adjustedTime E currentTime) }]
         else E ++ [n]) = _
    by_cases hc : timeConflictB E (n.videoCurrentTime.getD 0)
    · rw [if_pos hc, if_pos hc]
    · rw [if_neg (by simp [hc]), if_neg (by simp [hc])]
  · rfl

/-- Witness for the hypothesis-carrying conjunct of
`C5_no_validation_drop`: applied to a named singleton existing list and a
nameless incoming object (no collision, so it is appended unchanged and
sorted in front). -/
theorem C5_no_validation_drop_witness :
    combineObjectsWithTimeDeduplication [exX2] [{ videoCurrentTime := some 1 }] =
      sortByMarker ([exX2] ++
        [if timeConflictB [exX2] ((({ videoCurrentTime := some 1 } :
              VObj)).videoCurrentTime.getD 0) then
          { ({ videoCurrentTime := some 1 } : VObj) with
            videoCurrentTime := some (adjustedTime [exX2]
              ((({ videoCurrentTime := some 1 } : VObj)).videoCurrentTime.getD 0)) }
        else { videoCurrentTime := some 1 }]) :=
  C5_no_validation_drop.1 [exX2] { videoCurrentTime := some 1 } rfl
    (fun o ho => by
      simp only [List.mem_singleton] at ho
      subst ho
      simp [exX2])

/-! ## C3: the temporal-collision probe -/

theorem mkRat_one_ten : mkRat 1 10 = (1 / 10 : ℚ) := by
  rw [Rat.mkRat_eq_div]
  norm_num

theorem maxMarker_ge {l : List VObj} {o : VObj} (ho : o ∈ l) :
    markerKey o ≤ maxMarker l := by
  induction l with
  | nil => simp at ho
  | cons x xs ih =>
    rw [List.mem_cons] at ho
    have hfold : maxMarker (x :: xs) =
        if ratLeB (markerKey x) (maxMarker xs) then maxMarker xs else markerKey x := rfl
    rw [hfold]
    rcases ho with rfl | ho
    · split
      · exact (ratLeB_iff _ _).mp (by assumption)
      · exact le_refl _
    · have hoxs : markerKey o ≤ maxMarker xs := ih ho
      split
      · exact hoxs
      · rename_i hfalse
        have hlt : ¬ markerKey x ≤ maxMarker xs := by
          rw [← ratLeB_iff]
          simp [hfalse]
        rw [not_le] at hlt
        exact hoxs.trans hlt.le

theorem timeConflictB_eq_false_iff (l : List VObj) (t : ℚ) :
    timeConflictB l t = false ↔ ∀ o ∈ l, ¬ |markerKey o - t| < 1 / 10 := by
  rw [timeConflictB, List.any_eq_false]
  constructor
  · intro h o ho
    have := h o ho
    rwa [Bool.not_eq_true, ← Bool.not_eq_true, ratLtB_iff, ratAbs_eq, ratSub_eq,
      mkRat_one_ten] at this
  · intro h o ho
    rw [Bool.not_eq_true, ← Bool.not_eq_true, ratLtB_iff, ratAbs_eq, ratSub_eq,
      mkRat_one_ten]
    exact h o ho

theorem noConflict_of_ge {l : List VObj} {t : ℚ} (h : maxMarker l + 1 / 10 ≤ t) :
    timeConflictB l t = false := by
  rw [timeConflictB_eq_false_iff]
  intro o ho
  have h1 : markerKey o ≤ maxMarker l := maxMarker_ge ho
  rw [abs_sub_lt_iff, not_and_or, not_lt, not_lt]
  right
  linarith

theorem adjustLoop_spec (l : List VObj) :
    ∀ (fuel : ℕ) (t : ℚ), (∃ k < fuel, timeConflictB l (t + k * (1 / 10 : ℚ)) = false) →
      ∃ k : ℕ, adjustLoop l fuel t = t + k * (1 / 10 : ℚ) ∧
        timeConflictB l (t + k * (1 / 10 : ℚ)) = false ∧
        ∀ j < k, timeConflictB l (t + j * (1 / 10 : ℚ)) = true := by
  intro fuel
  induction fuel with
  | zero => intro t h; obtain ⟨k, hk, _⟩ := h; omega
  | succ fuel ih =>
    intro t h
    rw [adjustLoop]
    by_cases hc : timeConflictB l t = true
    · rw [if_pos hc, ratAdd_eq, mkRat_one_ten]
      obtain ⟨k, hkf, hk⟩ := h
      have hk0 : k ≠ 0 := by
        intro h0
        subst h0
        simp only [Nat.cast_zero, zero_mul, add_zero] at hk
        rw [hk] at hc
        exact absurd hc (by simp)
      obtain ⟨k', rfl⟩ : ∃ k', k = k' + 1 := ⟨k - 1, by omega⟩
      have harith : ∀ m : ℕ, t + 1 / 10 + (m : ℚ) * (1 / 10) = t + (m + 1 : ℕ) * (1 / 10) := by
        intro m
        push_cast
        ring
      obtain ⟨k2, he, hfree, hblock⟩ := ih (t + 1 / 10) ⟨k', by omega, by rw [harith]; exact hk⟩
      refine ⟨k2 + 1, ?_, ?_, ?_⟩
      · rw [he, harith]
      · rw [← harith]
        exact hfree
      · intro j hj
        cases j with
        | zero => simpa using hc
        | succ j' =>
          rw [← harith]
          exact hblock j' (by omega)
    · rw [if_neg hc]
      refine ⟨0, by push_cast; ring, ?_, by omega⟩
      have : t + (0 : ℕ) * (1 / 10 : ℚ) = t := by push_cast; ring
      rw [this]
      simpa using hc

theorem adjustFuel_sufficient (l : List VObj) (t : ℚ) :
    ∃ k < adjustFuel l t, timeConflictB l (t + k * (1 / 10 : ℚ)) = false := by
  refine ⟨10 * natCeilQ (ratSub (maxMarker l) t) + 11, by rw [adjustFuel]; omega, ?_⟩
  apply noConflict_of_ge
  have h1 : maxMarker l - t ≤ (natCeilQ (ratSub (maxMarker l) t) : ℚ) := by
    rw [← ratSub_eq]
    exact natCeilQ_ge _
  push_cast
  linarith

theorem adjustedTime_spec (l : List VObj) (t : ℚ) :
    ∃ k : ℕ, adjustedTime l t = t + k * (1 / 10 : ℚ) ∧
      timeConflictB l (t + k * (1 / 10 : ℚ)) = false ∧
      ∀ j < k, timeConflictB l (t + j * (1 / 10 : ℚ)) = true :=
  adjustLoop_spec l (adjustFuel l t) t (adjustFuel_sufficient l t)

theorem mergeStep_none {W : List VObj} {n : VObj}
    (h : List.findIdx? (fun existing => existing.name = n.name) W = none) :
    mergeStep W n =
      if timeConflictB W (n.videoCurrentTime.getD 0) then
        W ++ [{ n with videoCurrentTime := some (adjustedTime W (n.videoCurrentTime.getD 0)) }]
      else W ++ [n] := by
  rw [mergeStep, h]

theorem vobj_with_time_self {n : VObj} {t0 : ℚ} (h : n.videoCurrentTime = some t0) :
    ({ n with videoCurrentTime := some t0 }) = n := by
  cases n
  simp_all

/-- C3: for every working list and incoming object with a fresh name and
a present time marker, the appended object's marker is the original
incremented by exactly `0.1` a minimal number of times: no marker in the
working list is within `0.1` (strict) of the result, while every earlier
probe value was within `0.1` of some marker; in particular merging
existing `[A @ 10.0]` with incoming `[B @ 10.05]` yields `B` at exactly
`10.15`. -/
theorem C3_collision_avoidance :
    (∀ (W : List VObj) (n : VObj) (t0 : ℚ),
        n.videoCurrentTime = some t0 → (∀ o ∈ W, o.name ≠ n.name) →
        ∃ k : ℕ,
          mergeStep W n = W ++ [{ n with videoCurrentTime := some (t0 + k * (1 / 10 : ℚ)) }] ∧
          timeConflictB W (t0 + k * (1 / 10 : ℚ)) = false ∧
          ∀ j < k, timeConflictB W (t0 + j * (1 / 10 : ℚ)) = true) ∧
    combineObjectsWithTimeDeduplication
        [{ name := some (strL ("A")), videoCurrentTime := some 10 }]
        [{ name := some (strL ("B")), videoCurrentTime := some (mkRat 1005 100) }] =
      [{ name := some (strL ("A")), videoCurrentTime := some 10 },
       { name := some (strL ("B")), videoCurrentTime := some (mkRat 1015 100) }] := by
  constructor
  · intro W n t0 ht hW
    rw [mergeStep_none (findIdx?_none_of_all 0 (fun o ho => by simp [hW o ho]))]
    rw [ht]
    simp only [Option.getD_some]
    by_cases hc : timeConflictB W t0 = true
    · rw [if_pos hc]
      obtain ⟨k, he, hfree, hblock⟩ := adjustedTime_spec W t0
      exact ⟨k, by rw [he], hfree, hblock⟩
    · rw [if_neg hc]
      refine ⟨0, ?_, ?_, by omega⟩
      · have h0 : t0 + (0 : ℕ) * (1 / 10 : ℚ) = t0 := by push_cast; ring
        rw [h0, vobj_with_time_self ht]
      · have h0 : t0 + (0 : ℕ) * (1 / 10 : ℚ) = t0 := by push_cast; ring
        rw [h0]
        simpa using hc
  · rfl

/-- Witness for the hypothesis-carrying conjunct of
`C3_collision_avoidance`: applied to the concrete `A @ 10.0` working
list and incoming `B @ 10.05`. -/
theorem C3_collision_avoidance_witness :
    ∃ k : ℕ,
      mergeStep [{ name := some (strL ("A")), videoCurrentTime := some 10 }]
          { name := some (strL ("B")), videoCurrentTime := some (mkRat 1005 100) } =
        [{ name := some (strL ("A")), videoCurrentTime := some 10 }] ++
          [{ ({ name := some (strL ("B")), videoCurrentTime := some (mkRat 1005 100) } : VObj)
              with videoCurrentTime := some (mkRat 1005 100 + k * (1 / 10 : ℚ)) }] ∧
      timeConflictB [{ name := some (strL ("A")), videoCurrentTime := some 10 }]
        (mkRat 1005 100 + k * (1 / 10 : ℚ)) = false ∧
      ∀ j < k, timeConflictB [{ name := some (strL ("A")), videoCurrentTime := some 10 }]
        (mkRat 1005 100 + j * (1 / 10 : ℚ)) = true :=
  C3_collision_avoidance.1 _ _ (mkRat 1005 100) rfl
    (fun o ho => by
      simp only [List.mem_singleton] at ho
      subst ho
      decide)

/-! ## C7: the derived link can drift from the emitted code -/

/-- C7 counterexample: for an object with no `code`, the `"code"` field
and the `finallink` each draw their own fresh random token
(`obj.code || ...Math.random()...` is evaluated twice), so the emitted
link does not equal `domain + "/" + categoryCode + "/" + code` computed
from the emitted fields. -/
theorem C7_counterexample :
    vtAsStr (jsGet
        (Json.obj ((encodeEntries { koreaTimeISO := [], randFn := fun k => k + 1 } 0
          { name := some (strL ("N")) }).1))
        (strL ("finallink"))) ≠
      some ((strL ("http://www.naver.com")) ++ '/' :: getCategoryCode (strL ("기타")) ++
        '/' :: ((vtAsStr (jsGet
          (Json.obj ((encodeEntries { koreaTimeISO := [], randFn := fun k => k + 1 } 0
            { name := some (strL ("N")) }).1))
          (strL ("code")))).getD [])) := by
  decide

theorem jsGet_of_split {xs ys : List (Str × Json)} {k : Str} {v : Json}
    (hys : ∀ kv ∈ ys, kv.1 ≠ k) :
    jsGet (Json.obj (xs ++ (k, v) :: ys)) k = some v := by
  rw [jsGet]
  rw [show (xs ++ (k, v) :: ys).reverse = ys.reverse ++ (k, v) :: xs.reverse by simp]
  rw [List.find?_append]
  rw [List.find?_eq_none.mpr (fun kv hkv => by simp [hys kv (List.mem_reverse.mp hkv)])]
  simp [List.find?_cons]

/-- C7 (amended): whenever the object carries a (truthy) `code`, the
emitted `finallink` equals `domain + "/" + categoryCode + "/" + code`
computed from that same object's emitted `도메인`, `catefory` and `code`
fields; in particular for `category="GTIN"`, `domain="http://x.com"`,
`code="C1"` it equals exactly `"http://x.com/01/C1"`.  (For objects
without a code the link draws a second random token and drifts, see the
counterexample.) -/
theorem C7_derived_link :
    (∀ (env : EncodeEnv) (rctr : ℕ) (obj : VObj) (c : Str),
        truthyStrOpt obj.code = some c →
        ∃ dom cat : Str,
          jsGet (Json.obj (encodeEntries env rctr obj).1) (strL ("도메인")) =
            some (Json.str dom) ∧
          jsGet (Json.obj (encodeEntries env rctr obj).1) (strL ("catefory")) =
            some (Json.str cat) ∧
          jsGet (Json.obj (encodeEntries env rctr obj).1) (strL ("code")) =
            some (Json.str c) ∧
          jsGet (Json.obj (encodeEntries env rctr obj).1) (strL ("finallink")) =
            some (Json.str (dom ++ '/' :: getCategoryCode cat ++ '/' :: c))) ∧
    jsGet (Json.obj ((encodeEntries { koreaTimeISO := [], randFn := fun _ => 0 } 0
        { name := some (strL ("N")), code := some (strL ("C1")),
          category := some (strL ("GTIN")),
          dlReservoirDomain := some (strL ("http://x.com")) }).1))
      (strL ("finallink")) = some (Json.str (strL ("http://x.com/01/C1"))) := by
  constructor
  · intro env rctr obj c hc
    simp only [encodeEntries, hc]
    rcases hn : obj.name with _ | nm <;> simp only [hn] <;>
      [rcases hp : coordinateOverride env.coordFile none
          (jsOr (jsOr obj.coordinates obj.position) (some Json.null)) with _ | p;
       rcases hp : coordinateOverride env.coordFile (some nm)
          (jsOr (jsOr obj.coordinates obj.position) (some Json.null)) with _ | p] <;>
      simp only [hp] <;> exact ⟨_, _, rfl, rfl, rfl, rfl⟩
  · rfl

/-- Witness for the hypothesis-carrying conjunct of `C7_derived_link`:
applied to the concrete GTIN example object. -/
theorem C7_derived_link_witness :
    ∃ dom cat : Str,
      jsGet (Json.obj ((encodeEntries { koreaTimeISO := [], randFn := fun _ => 0 } 0
          { name := some (strL ("N")), code := some (strL ("C1")),
            category := some (strL ("GTIN")),
            dlReservoirDomain := some (strL ("http://x.com")) }).1))
        (strL ("도메인")) = some (Json.str dom) ∧
      jsGet (Json.obj ((encodeEntries { koreaTimeISO := [], randFn := fun _ => 0 } 0
          { name := some (strL ("N")), code := some (strL ("C1")),
            category := some (strL ("GTIN")),
            dlReservoirDomain := some (strL ("http://x.com")) }).1))
        (strL ("catefory")) = some (Json.str cat) ∧
      jsGet (Json.obj ((encodeEntries { koreaTimeISO := [], randFn := fun _ => 0 } 0
          { name := some (strL ("N")), code := some (strL ("C1")),
            category := some (strL ("GTIN")),
            dlReservoirDomain := some (strL ("http://x.com")) }).1))
        (strL ("code")) = some (Json.str (strL ("C1"))) ∧
      jsGet (Json.obj ((encodeEntries { koreaTimeISO := [], randFn := fun _ => 0 } 0
          { name := some (strL ("N")), code := some (strL ("C1")),
            category := some (strL ("GTIN")),
            dlReservoirDomain := some (strL ("http://x.com")) }).1))
        (strL ("finallink")) =
        some (Json.str (dom ++ '/' :: getCategoryCode cat ++ '/' :: strL ("C1"))) :=
  C7_derived_link.1 { koreaTimeISO := [], randFn := fun _ => 0 } 0
    { name := some (strL ("N")), code := some (strL ("C1")),
      category := some (strL ("GTIN")),
      dlReservoirDomain := some (strL ("http://x.com")) } (strL ("C1")) rfl

/-! ## C10: decode is total; text without the marker decodes to nothing -/

theorem extractLoop_no_marker (env : DecodeEnv) :
    ∀ (lines : List Str) (objs : List VObj),
      (∀ l ∈ lines, jsTrim l ≠ strL ("COORDINATES_DATA_START")) →
      extractLoop env lines
        { inCoordinatesSection := false, currentObjectLines := [], objects := objs } = objs := by
  intro lines
  induction lines with
  | nil => intro objs _; rfl
  | cons l rest ih =>
    intro objs h
    rw [extractLoop]
    rw [if_neg (by simpa using h l (by simp))]
    by_cases hend : jsTrim l = strL ("COORDINATES_DATA_END")
    · rw [if_pos hend]
      exact ih objs (fun l' hl' => h l' (by simp [hl']))
    · rw [if_neg hend, if_neg (by simp)]
      exact ih objs (fun l' hl' => h l' (by simp [hl']))

/-- C10: decoding is total — the embedding of `extractObjectsFromVtt` is
a total function returning an object list for every input text — and any
text none of whose (trimmed) lines is the `COORDINATES_DATA_START` marker
(a plain WebVTT file, unrelated text, ...) decodes to the empty list. -/
theorem C10_decode_total :
    (∀ (env : DecodeEnv) (content : Str),
        (∀ l ∈ splitNl content, jsTrim l ≠ strL ("COORDINATES_DATA_START")) →
        extractObjectsFromVtt env content = []) ∧
    extractObjectsFromVtt exDecodeEnv (strL ("WEBVTT") ++ nlChar :: strL ("NOTE hello")) =
      [] := by
  constructor
  · intro env content h
    exact extractLoop_no_marker env (splitNl content) [] h
  · rfl

/-- Witness for the hypothesis-carrying conjunct of `C10_decode_total`:
applied to a concrete plain WebVTT text with no marker line. -/
theorem C10_decode_total_witness :
    extractObjectsFromVtt exDecodeEnv (strL ("WEBVTT") ++ nlChar :: strL ("hi there")) = [] :=
  C10_decode_total.1 exDecodeEnv _ (by decide)

/-! ## C9: per-block parse failures are skipped, decode never aborts -/

theorem extractLoop_blocks (env : DecodeEnv) :
    ∀ (lines : List Str) (inCoord : Bool) (curr : List Str) (objs : List VObj),
      extractLoop env lines
        { inCoordinatesSection := inCoord, currentObjectLines := curr, objects := objs } =
      objs ++ decodeBlocks env objs.length (vttBlocksLoop lines inCoord curr) := by
  intro lines
  induction lines with
  | nil => intro inCoord curr objs; simp [extractLoop, vttBlocksLoop, decodeBlocks]
  | cons l rest ih =>
    intro inCoord curr objs
    rw [extractLoop, vttBlocksLoop]
    by_cases hstart : jsTrim l = strL ("COORDINATES_DATA_START")
    · rw [if_pos hstart, if_pos hstart]
      exact ih true curr objs
    · rw [if_neg hstart, if_neg hstart]
      by_cases hend : jsTrim l = strL ("COORDINATES_DATA_END")
      · rw [if_pos hend, if_pos hend]
        by_cases hcurr : curr = []
        · subst hcurr
          rw [flushObject]
          rw [if_neg (by simp)]
          simpa using ih false [] objs
        · rw [flushObject, if_pos (by simpa using hcurr), if_pos (by simpa using hcurr)]
          rw [List.singleton_append, decodeBlocks]
          dsimp only
          cases hp : processVttObject env curr objs.length with
          | some o =>
            simp only [hp]
            rw [ih false [] (objs ++ [o])]
            simp
          | none =>
            simp only [hp]
            exact ih false [] objs
      · rw [if_neg hend, if_neg hend]
        by_cases hin : inCoord
        · subst hin
          rw [if_pos rfl, if_pos rfl]
          by_cases htag : strStarts (strL ("object")) (jsTrim l)
          · rw [if_pos htag, if_pos htag]
            by_cases hcurr : curr = []
            · subst hcurr
              rw [flushObject, if_neg (by simp)]
              simpa using ih true [] objs
            · rw [flushObject, if_pos (by simpa using hcurr), if_pos (by simpa using hcurr)]
              rw [List.singleton_append, decodeBlocks]
              dsimp only
              cases hp : processVttObject env curr objs.length with
              | some o =>
                simp only [hp]
                rw [ih true [] (objs ++ [o])]
                simp
              | none =>
                simp only [hp]
                exact ih true [] objs
          · rw [if_neg htag, if_neg htag]
            by_cases hne : jsTrim l = []
            · rw [if_neg (by simp [hne]), if_neg (by simp [hne])]
              exact ih true curr objs
            · rw [if_pos (by simp [hne]), if_pos (by simp [hne])]
              exact ih true (curr ++ [jsTrim l]) objs
        · rw [if_neg hin, if_neg hin]
          exact ih inCoord curr objs

set_option maxRecDepth 8000 in
/-- C9: decoding never aborts and skips exactly the blocks whose embedded
structure fails to parse: for every container text the decoded list is
the per-block decode of the text's object blocks, failures dropped and
the remaining blocks still processed in order; in particular the concrete
container with one broken block between two well-formed ones decodes to
exactly the two well-formed objects, in original order. -/
theorem C9_malformed_block_skip :
    (∀ (env : DecodeEnv) (content : Str),
        extractObjectsFromVtt env content = decodeBlocks env 0 (vttBlocks content)) ∧
    extractObjectsFromVtt exDecodeEnv exMixedContainer =
      [{ id := some (strL ("existing-7-r")), name := some (strL ("good1")),
         videoCurrentTime := some 1 },
       { id := some (strL ("existing-7-r")), name := some (strL ("good2")),
         videoCurrentTime := some 2 }] := by
  constructor
  · intro env content
    rw [extractObjectsFromVtt]
    rw [show ({} : ExtractState) =
      { inCoordinatesSection := false, currentObjectLines := [], objects := [] } from rfl]
    rw [extractLoop_blocks]
    rfl
  · rfl

/-! ## C1, step 1: decimal digit characters -/

theorem digitChar_spec {d : ℕ} (h : d < 10) :
    isDigitCh (digitChar d) = true ∧ digitVal (digitChar d) = d := by
  interval_cases d <;> exact ⟨rfl, rfl⟩

theorem digitChar_not_special {d : ℕ} (h : d < 10) :
    isWsChar (digitChar d) = false ∧ digitChar d ≠ 'o' ∧ digitChar d ≠ 'C' ∧
      digitChar d ≠ nlChar ∧ digitChar d ≠ '-' ∧ digitChar d ≠ 'n' ∧ digitChar d ≠ 't' ∧
      digitChar d ≠ 'f' ∧ digitChar d ≠ quChar ∧ digitChar d ≠ lsb ∧ digitChar d ≠ lcb ∧
      digitChar d ≠ rsb ∧ digitChar d ≠ rcb ∧ digitChar d ≠ '.' := by
  interval_cases d <;> exact ⟨rfl, by decide, by decide, by decide, by decide, by decide,
    by decide, by decide, by decide, by decide, by decide, by decide, by decide, by decide⟩

theorem canonDigits_single {n : ℕ} (h : n < 10) : canonDigits n = [digitChar n] := by
  by_cases h0 : n = 0
  · subst h0
    rfl
  · rw [canonDigits, if_neg h0, Nat.digits_def' (by norm_num : 1 < 10) (by omega)]
    rw [Nat.div_eq_of_lt h, Nat.digits_zero, Nat.mod_eq_of_lt h]
    rfl

theorem canonDigits_split {n : ℕ} (h : 10 ≤ n) :
    canonDigits n = canonDigits (n / 10) ++ [digitChar (n % 10)] := by
  have hn0 : n ≠ 0 := by omega
  rw [canonDigits, if_neg hn0, Nat.digits_def' (by norm_num : 1 < 10) (by omega)]
  rw [List.map_cons, List.reverse_cons]
  have h10 : n / 10 ≠ 0 := by omega
  congr 1
  rw [canonDigits, if_neg h10]

theorem canonDigits_all_digits (n : ℕ) : ∀ c ∈ canonDigits n, isDigitCh c = true := by
  rw [canonDigits]
  split
  · intro c hc
    simp only [List.mem_singleton] at hc
    subst hc
    rfl
  · intro c hc
    simp only [List.mem_reverse, List.mem_map] at hc
    obtain ⟨d, hd, rfl⟩ := hc
    exact (digitChar_spec (Nat.digits_lt_base (by norm_num) hd)).1

theorem canonDigits_ne_nil (n : ℕ) : canonDigits n ≠ [] := by
  rw [canonDigits]
  split
  · simp
  · simp [Nat.digits_ne_nil_iff_ne_zero, *]

theorem natCharsAux_eq_canon :
    ∀ (fuel : ℕ), 0 < fuel → ∀ n, n < 10 ^ fuel → ∀ acc,
      natCharsAux fuel n acc = canonDigits n ++ acc := by
  intro fuel
  induction fuel with
  | zero => omega
  | succ fuel ih =>
    intro _ n h acc
    rw [natCharsAux]
    by_cases h10 : n < 10
    · rw [if_pos h10, canonDigits_single h10]
      rfl
    · rw [if_neg h10]
      have hf : 0 < fuel := by
        by_contra hf0
        have hfz : fuel = 0 := by omega
        subst hfz
        norm_num at h
        omega
      have h' : n < 10 ^ fuel * 10 := by rw [← pow_succ]; exact h
      have hdiv : n / 10 < 10 ^ fuel := by omega
      rw [ih hf (n / 10) hdiv _]
      conv_rhs => rw [canonDigits_split (show 10 ≤ n by omega)]
      simp

theorem natChars_eq_canon (n : ℕ) : natChars n = canonDigits n := by
  have hbound : n < 10 ^ (n + 1) :=
    lt_of_lt_of_le (Nat.lt_pow_self (by norm_num) n)
      (Nat.pow_le_pow_right (by norm_num) (by omega))
  rw [natChars, natCharsAux_eq_canon (n + 1) (by omega) n hbound, List.append_nil]

theorem digitsToNat_append_digit (xs : Str) (c : Char) :
    digitsToNat (xs ++ [c]) = digitsToNat xs * 10 + digitVal c := by
  simp [digitsToNat, List.foldl_append]

theorem digitsToNat_canon (n : ℕ) : digitsToNat (canonDigits n) = n := by
  induction n using Nat.strong_induction_on with
  | _ n ih =>
    by_cases h10 : n < 10
    · rw [canonDigits_single h10]
      simp [digitsToNat, (digitChar_spec h10).2]
    · rw [canonDigits_split (by omega), digitsToNat_append_digit,
        ih (n / 10) (by omega), (digitChar_spec (by omega)).2]
      omega

theorem canonDigits_head (n : ℕ) :
    ∃ c t, canonDigits n = c :: t ∧ isDigitCh c = true := by
  cases hc : canonDigits n with
  | nil => exact absurd hc (canonDigits_ne_nil n)
  | cons c t =>
    exact ⟨c, t, rfl, canonDigits_all_digits n c (hc ▸ List.mem_cons_self _ _)⟩

theorem padDigits_all_digits (k m : ℕ) : ∀ c ∈ padDigits k m, isDigitCh c = true := by
  induction k generalizing m with
  | zero => simp [padDigits]
  | succ k ih =>
    intro c hc
    rw [padDigits] at hc
    rw [List.mem_append] at hc
    rcases hc with hc | hc
    · exact ih _ c hc
    · simp only [List.mem_singleton] at hc
      subst hc
      exact (digitChar_spec (Nat.mod_lt _ (by omega))).1

theorem padDigits_length (k m : ℕ) : (padDigits k m).length = k := by
  induction k generalizing m with
  | zero => rfl
  | succ k ih => simp [padDigits, ih]

theorem digitsToNat_padDigits (k m : ℕ) : digitsToNat (padDigits k m) = m % 10 ^ k := by
  induction k generalizing m with
  | zero => simp [padDigits, digitsToNat, Nat.mod_one]
  | succ k ih =>
    rw [padDigits, digitsToNat_append_digit, ih, (digitChar_spec (Nat.mod_lt _ (by omega))).2]
    rw [pow_succ', Nat.mod_mul]
    ring

/-! ## C1, step 2: digit-run parsing -/

theorem digitRun_no_digit {cs : Str}
    (h : cs = [] ∨ ∃ c t, cs = c :: t ∧ isDigitCh c = false) : digitRun cs = ([], cs) := by
  rcases h with rfl | ⟨c, t, rfl, hc⟩
  · rfl
  · rw [digitRun, if_neg (by simp [hc])]

theorem numStop_shape {cs : Str} (h : numStop cs = true) :
    cs = [] ∨ ∃ c t, cs = c :: t ∧ isDigitCh c = false ∧ c ≠ '.' ∧ c ≠ 'e' ∧ c ≠ 'E' := by
  cases cs with
  | nil => exact Or.inl rfl
  | cons c t =>
    right
    rw [numStop] at h
    simp only [Bool.not_eq_true', Bool.or_eq_false_iff] at h
    refine ⟨c, t, rfl, h.1.1.1, by simpa using h.1.1.2, by simpa using h.1.2,
      by simpa using h.2⟩

theorem digitRun_append {ds rest : Str} (hds : ∀ c ∈ ds, isDigitCh c = true)
    (hrest : digitRun rest = ([], rest)) : digitRun (ds ++ rest) = (ds, rest) := by
  induction ds with
  | nil => simpa using hrest
  | cons c t ih =>
    rw [List.cons_append, digitRun, if_pos (by simp [hds c (by simp)])]
    rw [ih (fun x hx => hds x (by simp [hx]))]

/-! ## C1, step 3: the number codec round trip -/

theorem skipWs_not_ws {c : Char} {t : Str} (h : isWsChar c = false) :
    skipWs (c :: t) = c :: t := by
  rw [skipWs, if_neg (by simp [h])]

theorem decExp_dvd {d k : ℕ} (h : decExp d = some k) : d ∣ 10 ^ k := by
  have hp := List.find?_some h
  simp only [decide_eq_true_eq] at hp
  exact Nat.dvd_of_mod_eq_zero hp

theorem ratMul_mkRat_one (x : ℚ) : ratMul x (mkRat 1 1) = x := by
  rw [ratMul_eq]
  rw [show mkRat 1 1 = (1 : ℚ) by rw [Rat.mkRat_eq_div]; norm_num]
  exact mul_one x

theorem mkRat_scale {m : ℤ} {d k : ℕ} (hd : d ∣ 10 ^ k) (hd0 : d ≠ 0) :
    mkRat (m * ((10 ^ k / d : ℕ) : ℤ)) (10 ^ k) = mkRat m d := by
  rw [Rat.mkRat_eq_div, Rat.mkRat_eq_div]
  have h10 : ((10 ^ k : ℕ) : ℚ) ≠ 0 := by positivity
  have hdq : ((d : ℕ) : ℚ) ≠ 0 := by exact_mod_cast hd0
  rw [div_eq_div_iff h10 hdq]
  have hcan : (10 ^ k / d) * d = 10 ^ k := Nat.div_mul_cancel hd
  push_cast
  rw [mul_assoc]
  congr 1
  exact_mod_cast congrArg (Nat.cast : ℕ → ℚ) hcan

theorem mkRat_natAbs (q : ℚ) : mkRat (q.num.natAbs : ℤ) q.den = |q| := by
  rcases le_or_lt 0 q.num with h | h
  · rw [Int.natAbs_of_nonneg h, Rat.mkRat_self, abs_of_nonneg]
    rwa [← Rat.num_nonneg]
  · have habs : (q.num.natAbs : ℤ) = -q.num := Int.ofNat_natAbs_of_nonpos h.le
    rw [habs, abs_of_neg (by rw [← Rat.num_neg]; exact h)]
    rw [Rat.mkRat_eq_div]
    push_cast
    rw [neg_div, Rat.num_div_den]

theorem numStop_head_facts {rest : Str} (h : numStop rest = true) :
    rest.head? ≠ some '.' ∧ rest.head? ≠ some 'e' ∧ rest.head? ≠ some 'E' ∧
      digitRun rest = ([], rest) := by
  rcases numStop_shape h with rfl | ⟨c, t, rfl, hd, h1, h2, h3⟩
  · exact ⟨by simp, by simp, by simp, rfl⟩
  · exact ⟨by simp [h1], by simp [h2], by simp [h3],
      digitRun_no_digit (Or.inr ⟨c, t, rfl, hd⟩)⟩

theorem renderDec_head (n k : ℕ) :
    ∃ c t, renderDec n k = c :: t ∧ isDigitCh c = true := by
  rw [renderDec]
  split
  · rw [natChars_eq_canon]
    exact canonDigits_head n
  · rw [natChars_eq_canon]
    obtain ⟨c, t, he, hc⟩ := canonDigits_head (n / 10 ^ k)
    exact ⟨c, t ++ '.' :: padDigits k (n % 10 ^ k), by rw [he]; rfl, hc⟩

theorem parseNum_eq_of {cs cs1 cs2 cs3 cs4 intDs fracDs : Str} {neg : Bool} {ex : ℤ}
    (h1 : numSign cs = (neg, cs1)) (h2 : digitRun cs1 = (intDs, cs2)) (h3 : intDs ≠ [])
    (h4 : numFrac cs2 = some (fracDs, cs3)) (h5 : numExp cs3 = some (ex, cs4)) :
    parseNum cs = some (assembleNum neg intDs fracDs ex, cs4) := by
  simp only [parseNum, h1, h2, h4, h5, if_neg h3]

theorem numFrac_stop {cs : Str} (h : cs.head? ≠ some '.') :
    numFrac cs = some ([], cs) := by
  rw [numFrac, if_neg h]

theorem numExp_stop {cs : Str} (he : cs.head? ≠ some 'e') (hE : cs.head? ≠ some 'E') :
    numExp cs = some (0, cs) := by
  rw [numExp, if_neg (by rw [not_or]; exact ⟨he, hE⟩)]

theorem assembleNum_dec (neg : Bool) (n k : ℕ) :
    assembleNum neg (canonDigits (n / 10 ^ k)) (padDigits k (n % 10 ^ k)) 0 =
      (if neg then ratNeg (mkRat n (10 ^ k)) else mkRat n (10 ^ k)) := by
  rw [assembleNum]
  have hdup : n % 10 ^ k % 10 ^ k = n % 10 ^ k :=
    Nat.mod_eq_of_lt (Nat.mod_lt _ (by positivity))
  simp only [padDigits_length, digitsToNat_canon, digitsToNat_padDigits, hdup]
  have hnat : (n / 10 ^ k) * 10 ^ k + n % 10 ^ k = n := by
    rw [mul_comm]
    exact Nat.div_add_mod n (10 ^ k)
  have harg : ((n / 10 ^ k : ℕ) : ℤ) * 10 ^ k + ((n % 10 ^ k : ℕ) : ℤ) = (n : ℤ) := by
    exact_mod_cast hnat
  rw [harg, if_pos (le_refl (0 : ℤ))]
  rw [show ((0 : ℤ)).toNat = 0 from rfl, pow_zero, ratMul_mkRat_one]

theorem assembleNum_int (neg : Bool) (n : ℕ) :
    assembleNum neg (canonDigits n) [] 0 =
      (if neg then ratNeg (mkRat n 1) else mkRat n 1) := by
  rw [assembleNum]
  simp only [List.length_nil, digitsToNat_canon, pow_zero]
  rw [show digitsToNat [] = 0 from rfl]
  rw [if_pos (le_refl (0 : ℤ))]
  rw [show ((0 : ℤ)).toNat = 0 from rfl, pow_zero, ratMul_mkRat_one]
  norm_num

theorem parseNum_renderDec (n k : ℕ) {rest : Str} (hrest : numStop rest = true) :
    parseNum (renderDec n k ++ rest) = some (mkRat n (10 ^ k), rest) ∧
    parseNum ('-' :: (renderDec n k ++ rest)) = some (ratNeg (mkRat n (10 ^ k)), rest) := by
  obtain ⟨hdot, he, hE, hnorun⟩ := numStop_head_facts hrest
  obtain ⟨c0, t0, hct, hc0⟩ := renderDec_head n k
  have hheadne : (renderDec n k ++ rest).head? ≠ some '-' := by
    rw [hct]
    intro hcm
    rw [List.cons_append, List.head?_cons] at hcm
    injection hcm with hcm
    subst hcm
    exact absurd hc0 (by decide)
  have hsign : numSign (renderDec n k ++ rest) = (false, renderDec n k ++ rest) := by
    rw [numSign, if_neg hheadne]
  have hsignm : numSign ('-' :: (renderDec n k ++ rest)) =
      (true, renderDec n k ++ rest) := by
    rw [numSign, if_pos (by rw [List.head?_cons])]
    rfl
  by_cases hk : k = 0
  · subst hk
    have hdec : renderDec n 0 = canonDigits n := by
      rw [renderDec, if_pos rfl, natChars_eq_canon]
    have hrun : digitRun (renderDec n 0 ++ rest) = (canonDigits n, rest) := by
      rw [hdec]
      exact digitRun_append (canonDigits_all_digits n) hnorun
    have hfrac : numFrac rest = some ([], rest) := numFrac_stop hdot
    have hexp : numExp rest = some (0, rest) := numExp_stop he hE
    have hvalue := assembleNum_int (n := n)
    constructor
    · rw [parseNum_eq_of hsign hrun (canonDigits_ne_nil n) hfrac hexp, hvalue false]
      norm_num
    · rw [parseNum_eq_of hsignm hrun (canonDigits_ne_nil n) hfrac hexp, hvalue true]
      norm_num
  · have hdec : renderDec n k =
        canonDigits (n / 10 ^ k) ++ '.' :: padDigits k (n % 10 ^ k) := by
      rw [renderDec, if_neg hk, natChars_eq_canon]
    have hpadne : padDigits k (n % 10 ^ k) ≠ [] := by
      intro hnil
      have hlen := padDigits_length k (n % 10 ^ k)
      rw [hnil] at hlen
      simp at hlen
      omega
    have hrun : digitRun (renderDec n k ++ rest) =
        (canonDigits (n / 10 ^ k), '.' :: (padDigits k (n % 10 ^ k) ++ rest)) := by
      rw [hdec, List.append_assoc, List.cons_append]
      exact digitRun_append (canonDigits_all_digits _)
        (digitRun_no_digit (Or.inr ⟨'.', _, rfl, by decide⟩))
    have hfrac : numFrac ('.' :: (padDigits k (n % 10 ^ k) ++ rest)) =
        some (padDigits k (n % 10 ^ k), rest) := by
      rw [numFrac, if_pos (by rw [List.head?_cons]), List.tail_cons]
      rw [digitRun_append (padDigits_all_digits _ _) hnorun]
      dsimp only
      rw [if_neg hpadne]
    have hexp : numExp rest = some (0, rest) := numExp_stop he hE
    have hvalue := assembleNum_dec (n := n) (k := k)
    constructor
    · rw [parseNum_eq_of hsign hrun (canonDigits_ne_nil _) hfrac hexp, hvalue false]
      norm_num
    · rw [parseNum_eq_of hsignm hrun (canonDigits_ne_nil _) hfrac hexp, hvalue true]
      norm_num

theorem parseNum_renderNum {q : ℚ} (hs : safeNum q = true) {rest : Str}
    (hrest : numStop rest = true) :
    parseNum (renderNum q ++ rest) = some (q, rest) := by
  obtain ⟨k, hk⟩ : ∃ k, decExp q.den = some k := by
    rw [safeNum, Option.isSome_iff_exists] at hs
    exact hs
  have hdvd : q.den ∣ 10 ^ k := decExp_dvd hk
  have hval : mkRat (q.num.natAbs * (10 ^ k / q.den) : ℕ) (10 ^ k) = |q| := by
    rw [show ((q.num.natAbs * (10 ^ k / q.den) : ℕ) : ℤ) =
      (q.num.natAbs : ℤ) * ((10 ^ k / q.den : ℕ) : ℤ) by push_cast; ring]
    rw [mkRat_scale hdvd q.den_nz, mkRat_natAbs]
  by_cases hneg : q.num < 0
  · rw [renderNum, if_pos hneg, hk]
    dsimp only
    rw [List.singleton_append, List.cons_append]
    rw [(parseNum_renderDec _ k hrest).2, hval]
    rw [ratNeg_eq, abs_of_neg (by rw [← Rat.num_neg]; exact hneg), neg_neg]
  · rw [renderNum, if_neg hneg, hk]
    dsimp only
    rw [List.nil_append]
    rw [(parseNum_renderDec _ k hrest).1, hval]
    rw [abs_of_nonneg (by rw [← Rat.num_nonneg]; omega)]

/-! ## C1, step 4: the string codec round trip -/

theorem parseStrBody_close (acc cs : Str) :
    parseStrBody acc (quChar :: cs) = some (acc.reverse, cs) := by
  rw [parseStrBody.eq_def]
  dsimp only
  rw [if_pos rfl]

theorem parseStrBody_plain {c : Char} (h1 : c ≠ quChar) (h2 : c ≠ bsChar) (acc cs : Str) :
    parseStrBody acc (c :: cs) = parseStrBody (c :: acc) cs := by
  rw [parseStrBody.eq_def]
  dsimp only
  rw [if_neg h1, if_neg h2]

theorem parseStrBody_esc {e : Char} (ch : Char) (hu : e ≠ 'u') (h : unescCh e = some ch) (acc cs : Str) :
    parseStrBody acc (bsChar :: e :: cs) = parseStrBody (ch :: acc) cs := by
  rw [parseStrBody.eq_def]
  dsimp only
  rw [if_neg (by decide), if_pos rfl]
  split
  · next heq =>
    injection heq with h1 _
    exact absurd h1 hu
  · next e' rest hnu heq =>
    injection heq with h1 h2
    subst h1
    subst h2
    rw [h]
  · next heq => exact absurd heq (by simp)

theorem escCh_safe_shape {c : Char} (h32 : 32 ≤ c.toNat) :
    (c = quChar ∧ escCh c = [bsChar, quChar]) ∨
    (c = bsChar ∧ escCh c = [bsChar, bsChar]) ∨
    (c ≠ quChar ∧ c ≠ bsChar ∧ escCh c = [c]) := by
  by_cases h1 : c = quChar
  · exact Or.inl ⟨h1, by rw [escCh, if_pos h1]⟩
  · by_cases h2 : c = bsChar
    · refine Or.inr (Or.inl ⟨h2, ?_⟩)
      rw [escCh, if_neg h1, if_pos h2]
    · refine Or.inr (Or.inr ⟨h1, h2, ?_⟩)
      rw [escCh, if_neg h1, if_neg h2, if_neg ?_, if_neg ?_, if_neg ?_, if_neg ?_, if_neg ?_,
        if_neg (by omega)]
      all_goals (rintro rfl; revert h32; decide)

theorem safeStr_cons {c : Char} {t : Str} (h : safeStr (c :: t) = true) :
    32 ≤ c.toNat ∧ safeStr t = true := by
  rw [safeStr, List.all_cons] at h
  simp only [Bool.and_eq_true, decide_eq_true_eq] at h
  exact ⟨h.1, h.2⟩

theorem parseStrBody_escape : ∀ {s : Str}, safeStr s = true →
    ∀ (acc rest : Str), parseStrBody acc (s.flatMap escCh ++ quChar :: rest) =
      some (acc.reverse ++ s, rest) := by
  intro s
  induction s with
  | nil =>
    intro _ acc rest
    simp only [List.flatMap_nil, List.nil_append]
    rw [parseStrBody_close]
    simp
  | cons c t ih =>
    intro hs acc rest
    obtain ⟨hc, ht⟩ := safeStr_cons hs
    rw [List.flatMap_cons, List.append_assoc]
    rcases escCh_safe_shape hc with ⟨hcq, he⟩ | ⟨hcb, he⟩ | ⟨h1, h2, he⟩
    · subst hcq
      rw [he]
      simp only [List.cons_append, List.nil_append]
      rw [parseStrBody_esc quChar (by decide) (by decide), ih ht]
      simp
    · subst hcb
      rw [he]
      simp only [List.cons_append, List.nil_append]
      rw [parseStrBody_esc bsChar (by decide) (by decide), ih ht]
      simp
    · rw [he]
      simp only [List.cons_append, List.nil_append]
      rw [parseStrBody_plain h1 h2, ih ht]
      simp

/-! ## C1, step 5: line blocks, newline joining and splitting -/

theorem joinNl_cons {l : Str} {ls : List Str} (h : ls ≠ []) :
    joinNl (l :: ls) = l ++ nlChar :: joinNl ls := by
  cases ls with
  | nil => exact absurd rfl h
  | cons a as =>
    rw [joinNl]
    simp

theorem joinNl_append {A B : List Str} (hA : A ≠ []) (hB : B ≠ []) :
    joinNl (A ++ B) = joinNl A ++ nlChar :: joinNl B := by
  induction A with
  | nil => exact absurd rfl hA
  | cons a as ih =>
    cases as with
    | nil =>
      rw [List.cons_append, List.nil_append, joinNl_cons hB]
      rfl
    | cons b bs =>
      rw [List.cons_append, joinNl_cons (by simp), joinNl_cons (by simp : b :: bs ≠ []),
        ih (by simp)]
      simp [List.append_assoc]

theorem appendLast_ne_nil {c : Char} {ls : List Str} (h : ls ≠ []) : appendLast c ls ≠ [] := by
  cases ls with
  | nil => exact absurd rfl h
  | cons a as => cases as <;> simp [appendLast]

theorem appendLast_length (c : Char) : ∀ ls : List Str, (appendLast c ls).length = ls.length
  | [] => rfl
  | [a] => rfl
  | a :: b :: bs => by
    rw [appendLast]
    · simp only [List.length_cons]
      rw [appendLast_length c (b :: bs)]
      simp
    · simp

theorem joinNl_appendLast {c : Char} : ∀ {ls : List Str}, ls ≠ [] →
    joinNl (appendLast c ls) = joinNl ls ++ [c] := by
  intro ls
  induction ls with
  | nil => exact fun h => absurd rfl h
  | cons a as ih =>
    intro _
    cases as with
    | nil => rfl
    | cons b bs =>
      rw [appendLast]
      · rw [joinNl_cons (appendLast_ne_nil (by simp)), ih (by simp),
          joinNl_cons (by simp : b :: bs ≠ [])]
        simp [List.append_assoc]
      · simp

theorem prependFirst_cons (p l : Str) (ls : List Str) :
    prependFirst p (l :: ls) = (p ++ l) :: ls := rfl

theorem joinNl_prependFirst (p l : Str) (ls : List Str) :
    joinNl (prependFirst p (l :: ls)) = p ++ joinNl (l :: ls) := by
  cases ls with
  | nil => rfl
  | cons b bs =>
    rw [prependFirst_cons, joinNl_cons (by simp : b :: bs ≠ []),
      joinNl_cons (by simp : b :: bs ≠ []), List.append_assoc]

theorem splitNl_no_nl : ∀ {l : Str}, l.contains nlChar = false → splitNl l = [l] := by
  intro l
  induction l with
  | nil => intro _; rfl
  | cons c t ih =>
    intro h
    have hc : ¬(nlChar == c) = true ∧ t.contains nlChar = false := by
      rw [List.contains_cons, Bool.or_eq_false_iff] at h
      exact ⟨by simp [h.1], h.2⟩
    rw [splitNl]
    simp only [ih hc.2]
    rw [if_neg (by intro hcc; exact hc.1 (by simp [hcc]))]

theorem splitNl_cons_nl : ∀ {l : Str}, l.contains nlChar = false → ∀ rest' : Str,
    splitNl (l ++ nlChar :: rest') = l :: splitNl rest' := by
  intro l
  induction l with
  | nil =>
    intro _ rest'
    rw [List.nil_append, splitNl, if_pos rfl]
  | cons c t ih =>
    intro h rest'
    have hc : ¬(nlChar == c) = true ∧ t.contains nlChar = false := by
      rw [List.contains_cons, Bool.or_eq_false_iff] at h
      exact ⟨by simp [h.1], h.2⟩
    rw [List.cons_append, splitNl]
    simp only [ih hc.2 rest']
    rw [if_neg (by intro hcc; exact hc.1 (by simp [hcc]))]

theorem splitNl_joinNl : ∀ {ls : List Str}, (∀ l ∈ ls, l.contains nlChar = false) → ls ≠ [] →
    splitNl (joinNl ls) = ls := by
  intro ls
  induction ls with
  | nil => exact fun _ h => absurd rfl h
  | cons a as ih =>
    intro h _
    cases as with
    | nil => exact splitNl_no_nl (h a (by simp))
    | cons b bs =>
      rw [joinNl_cons (by simp), splitNl_cons_nl (h a (by simp)),
        ih (fun l hl => h l (by simp [hl])) (by simp)]

/-! ## C1, step 6: character and line classification of the renderer's output -/

theorem ws_cases {c : Char} (h : isWsChar c = true) :
    c = ' ' ∨ c = Char.ofNat 9 ∨ c = Char.ofNat 13 ∨ c = nlChar := by
  rw [isWsChar] at h
  simp only [Bool.or_eq_true, decide_eq_true_eq] at h
  tauto

theorem digit_not_ws {c : Char} (h : isDigitCh c = true) : isWsChar c = false := by
  cases hw : isWsChar c with
  | false => rfl
  | true => rcases ws_cases hw with rfl | rfl | rfl | rfl <;> exact absurd h (by decide)

theorem digit_head_facts {c : Char} (h : isDigitCh c = true) :
    isWsChar c = false ∧ c ≠ 'o' ∧ c ≠ 'C' ∧ c ≠ nlChar ∧ c ≠ 'n' ∧ c ≠ 't' ∧ c ≠ 'f' ∧
      c ≠ quChar ∧ c ≠ lsb ∧ c ≠ lcb ∧ c ≠ rsb ∧ c ≠ rcb ∧ c ≠ ',' ∧ c ≠ '-' := by
  refine ⟨digit_not_ws h, ?_, ?_, ?_, ?_, ?_, ?_, ?_, ?_, ?_, ?_, ?_, ?_, ?_⟩
  all_goals (rintro rfl; exact absurd h (by decide))

theorem contains_nl_false : ∀ {l : Str}, (∀ x ∈ l, x ≠ nlChar) → l.contains nlChar = false := by
  intro l
  induction l with
  | nil => intro _; rfl
  | cons c t ih =>
    intro h
    rw [List.contains_cons, Bool.or_eq_false_iff]
    refine ⟨?_, ih (fun x hx => h x (by simp [hx]))⟩
    have := h c (by simp)
    simp [beq_eq_false_iff_ne]
    exact fun he => this he.symm

theorem goodLineB_intro {c : Char} {t : Str} (h1 : goodHeadCh c = true)
    (h2 : isWsChar ((c :: t).getLastD ' ') = false)
    (h3 : (c :: t).contains nlChar = false) : goodLineB (c :: t) = true := by
  rw [goodLineB, h1, h2, h3]
  rfl

theorem goodLineB_shape {l : Str} (h : goodLineB l = true) :
    ∃ c t, l = c :: t ∧ goodHeadCh c = true ∧ isWsChar (l.getLastD ' ') = false ∧
      l.contains nlChar = false := by
  cases l with
  | nil => exact absurd h (by rw [goodLineB]; simp)
  | cons c t =>
    rw [goodLineB] at h
    simp only [Bool.and_eq_true, Bool.not_eq_true'] at h
    exact ⟨c, t, rfl, h.1.1, h.1.2, h.2⟩

theorem getLastD_mem : ∀ (t : Str) (c d : Char), (c :: t).getLastD d ∈ c :: t := by
  intro t
  induction t with
  | nil => intro c d; simp [List.getLastD]
  | cons b bs ih =>
    intro c d
    rw [List.getLastD_cons]
    exact List.mem_cons_of_mem c (ih b c)

theorem getLastD_append_last : ∀ {A : Str} {c d : Char}, (A ++ [c]).getLastD d = c := by
  intro A
  induction A with
  | nil => intro c d; rfl
  | cons a as ih =>
    intro c d
    rw [List.cons_append, List.getLastD_cons]
    exact ih

theorem getLastD_append_cons : ∀ {A : Str} {c : Char} {t : Str} {d : Char},
    (A ++ c :: t).getLastD d = t.getLastD c := by
  intro A
  induction A with
  | nil => intro c t d; rw [List.nil_append, List.getLastD_cons]
  | cons a as ih =>
    intro c t d
    rw [List.cons_append, List.getLastD_cons]
    exact ih

theorem strStarts_cons_ne {a b : Char} (h : a ≠ b) (p l : Str) :
    strStarts (a :: p) (b :: l) = false := by
  rw [strStarts]
  simp [h]

theorem strStarts_self_append : ∀ (p r : Str), strStarts p (p ++ r) = true := by
  intro p
  induction p with
  | nil => intro r; rfl
  | cons a p' ih =>
    intro r
    rw [List.cons_append, strStarts]
    simp [ih r]

theorem natChars_mem {n : ℕ} {x : Char} (hx : x ∈ natChars n) : isDigitCh x = true := by
  rw [natChars_eq_canon] at hx
  exact canonDigits_all_digits n x hx

theorem renderNum_head (q : ℚ) :
    ∃ c t, renderNum q = c :: t ∧ (c = '-' ∨ isDigitCh c = true) := by
  rw [renderNum]
  by_cases hneg : q.num < 0
  · rw [if_pos hneg]
    exact ⟨'-', _, by rw [List.singleton_append], Or.inl rfl⟩
  · rw [if_neg hneg, List.nil_append]
    cases hdec : decExp q.den with
    | some k =>
      obtain ⟨c, t, he, hc⟩ := renderDec_head (q.num.natAbs * (10 ^ k / q.den)) k
      exact ⟨c, t, he, Or.inr hc⟩
    | none =>
      obtain ⟨c, t, he, hc⟩ := canonDigits_head q.num.natAbs
      exact ⟨c, t, by rw [show (natChars q.num.natAbs : Str) = canonDigits q.num.natAbs
        from natChars_eq_canon _]; exact he, Or.inr hc⟩

theorem renderNum_chars {q : ℚ} {x : Char} (hx : x ∈ renderNum q) :
    x = '-' ∨ x = '.' ∨ isDigitCh x = true := by
  rw [renderNum] at hx
  rcases List.mem_append.1 hx with h | h
  · by_cases hneg : q.num < 0
    · rw [if_pos hneg] at h
      simp at h
      exact Or.inl h
    · rw [if_neg hneg] at h
      simp at h
  · cases hdec : decExp q.den with
    | some k =>
      rw [hdec] at h
      have h' : x ∈ renderDec (q.num.natAbs * (10 ^ k / q.den)) k := h
      rw [renderDec] at h'
      by_cases hk : k = 0
      · rw [if_pos hk] at h'
        exact Or.inr (Or.inr (natChars_mem h'))
      · rw [if_neg hk] at h'
        rcases List.mem_append.1 h' with h2 | h2
        · exact Or.inr (Or.inr (natChars_mem h2))
        · rcases List.mem_cons.1 h2 with rfl | h3
          · exact Or.inr (Or.inl rfl)
          · exact Or.inr (Or.inr (padDigits_all_digits _ _ x h3))
    | none =>
      rw [hdec] at h
      have h' : x ∈ natChars q.num.natAbs := h
      exact Or.inr (Or.inr (natChars_mem h'))

theorem numChar_not_ws {x : Char} (h : x = '-' ∨ x = '.' ∨ isDigitCh x = true) :
    isWsChar x = false ∧ x ≠ nlChar := by
  rcases h with rfl | rfl | hd
  · exact ⟨by decide, by decide⟩
  · exact ⟨by decide, by decide⟩
  · obtain ⟨h1, _, _, h4, _⟩ := digit_head_facts hd
    exact ⟨h1, h4⟩

theorem goodLineB_renderNum (q : ℚ) : goodLineB (renderNum q) = true := by
  obtain ⟨c, t, he, hcd⟩ := renderNum_head q
  rw [he]
  apply goodLineB_intro
  · rcases hcd with rfl | hd
    · decide
    · obtain ⟨h1, h2, h3, _⟩ := digit_head_facts hd
      rw [goodHeadCh, h1]
      simp [h2, h3]
  · have hm : (c :: t).getLastD ' ' ∈ renderNum q := by
      rw [he]; exact getLastD_mem t c ' '
    exact (numChar_not_ws (renderNum_chars hm)).1
  · apply contains_nl_false
    intro x hx
    have hm : x ∈ renderNum q := by rw [he]; exact hx
    exact (numChar_not_ws (renderNum_chars hm)).2

theorem renderStr_chars {s : Str} (hs : safeStr s = true) {x : Char} (hx : x ∈ renderStr s) :
    32 ≤ x.toNat := by
  rw [renderStr] at hx
  rcases List.mem_cons.1 hx with rfl | h
  · decide
  · rcases List.mem_append.1 h with h2 | h2
    · obtain ⟨c, hc, hxc⟩ := List.mem_flatMap.1 h2
      have hc32 : 32 ≤ c.toNat := by
        rw [safeStr, List.all_eq_true] at hs
        simpa using hs c hc
      rcases escCh_safe_shape hc32 with ⟨_, he⟩ | ⟨_, he⟩ | ⟨_, _, he⟩ <;> rw [he] at hxc
      · rcases List.mem_cons.1 hxc with rfl | h3
        · decide
        · simp at h3; subst h3; decide
      · rcases List.mem_cons.1 hxc with rfl | h3
        · decide
        · simp at h3; subst h3; decide
      · simp at hxc; subst hxc; exact hc32
    · simp at h2; subst h2; decide

theorem ge32_ne_nl {x : Char} (h : 32 ≤ x.toNat) : x ≠ nlChar := by
  rintro rfl
  revert h
  decide

theorem goodLineB_renderStr {s : Str} (hs : safeStr s = true) :
    goodLineB (renderStr s) = true := by
  rw [renderStr]
  apply goodLineB_intro
  · decide
  · rw [show quChar :: (s.flatMap escCh ++ [quChar]) =
      (quChar :: s.flatMap escCh) ++ [quChar] from by rw [List.cons_append]]
    rw [getLastD_append_last]
    decide
  · apply contains_nl_false
    intro x hx
    exact ge32_ne_nl (renderStr_chars hs (by rw [renderStr]; exact hx))

theorem renderLines_ne_nil (j : Json) : renderLines j ≠ [] := by
  cases j with
  | null => simp [renderLines]
  | bool b => cases b <;> simp [renderLines]
  | num q => simp [renderLines]
  | str s => simp [renderLines]
  | arr es => cases es <;> simp [renderLines]
  | obj kvs => cases kvs <;> simp [renderLines]

theorem renderLines_shape (j : Json) :
    ∃ c t ls, renderLines j = (c :: t) :: ls ∧
      (c = 'n' ∨ c = 't' ∨ c = 'f' ∨ c = '-' ∨ isDigitCh c = true ∨ c = quChar ∨
        c = lsb ∨ c = lcb) := by
  cases j with
  | null => exact ⟨'n', strL ("ull"), [], rfl, Or.inl rfl⟩
  | bool b =>
    cases b with
    | true => exact ⟨'t', strL ("rue"), [], rfl, Or.inr (Or.inl rfl)⟩
    | false => exact ⟨'f', strL ("alse"), [], rfl, Or.inr (Or.inr (Or.inl rfl))⟩
  | num q =>
    obtain ⟨c, t, he, hc⟩ := renderNum_head q
    refine ⟨c, t, [], by rw [show renderLines (Json.num q) = [renderNum q] from rfl, he], ?_⟩
    rcases hc with rfl | hd
    · tauto
    · tauto
  | str s => exact ⟨quChar, s.flatMap escCh ++ [quChar], [], rfl, by tauto⟩
  | arr es =>
    cases es with
    | nil => exact ⟨lsb, [rsb], [], rfl, by tauto⟩
    | cons e es' => exact ⟨lsb, [], arrLines (e :: es') ++ [[rsb]], rfl, by tauto⟩
  | obj kvs =>
    cases kvs with
    | nil => exact ⟨lcb, [rcb], [], rfl, by tauto⟩
    | cons kv kvs' => exact ⟨lcb, [], objLines (kv :: kvs') ++ [[rcb]], rfl, by tauto⟩

theorem valHead_facts {c : Char}
    (h : c = 'n' ∨ c = 't' ∨ c = 'f' ∨ c = '-' ∨ isDigitCh c = true ∨ c = quChar ∨
      c = lsb ∨ c = lcb) :
    isWsChar c = false ∧ c ≠ rsb ∧ c ≠ rcb ∧ c ≠ nlChar := by
  rcases h with rfl | rfl | rfl | rfl | hd | rfl | rfl | rfl
  · exact ⟨by decide, by decide, by decide, by decide⟩
  · exact ⟨by decide, by decide, by decide, by decide⟩
  · exact ⟨by decide, by decide, by decide, by decide⟩
  · exact ⟨by decide, by decide, by decide, by decide⟩
  · obtain ⟨h1, _, _, h4, _, _, _, _, _, _, h11, h12, _⟩ := digit_head_facts hd
    exact ⟨h1, h11, h12, h4⟩
  · exact ⟨by decide, by decide, by decide, by decide⟩
  · exact ⟨by decide, by decide, by decide, by decide⟩
  · exact ⟨by decide, by decide, by decide, by decide⟩

theorem arrLines_ne_nil {e : Json} (es : List Json) : arrLines (e :: es) ≠ [] := by
  cases es with
  | nil => exact renderLines_ne_nil e
  | cons e2 es' =>
    rw [arrLines]
    · intro hnil
      rcases List.append_eq_nil.1 hnil with ⟨h1, _⟩
      exact appendLast_ne_nil (renderLines_ne_nil e) h1
    · simp

theorem objLines_ne_nil {kv : Str × Json} (kvs : List (Str × Json)) :
    objLines (kv :: kvs) ≠ [] := by
  obtain ⟨k, v⟩ := kv
  cases kvs with
  | nil =>
    rw [objLines]
    obtain ⟨c, t, ls, he, _⟩ := renderLines_shape v
    rw [he, prependFirst_cons]
    simp
  | cons kv2 kvs' =>
    rw [objLines]
    · intro hnil
      rcases List.append_eq_nil.1 hnil with ⟨h1, _⟩
      obtain ⟨c, t, ls, he, _⟩ := renderLines_shape v
      rw [he, prependFirst_cons] at h1
      exact absurd h1 (appendLast_ne_nil (by simp))
    · simp

theorem appendLast_first (ch c : Char) (t : Str) (ls : List Str) :
    ∃ t' ls', appendLast ch ((c :: t) :: ls) = (c :: t') :: ls' := by
  cases ls with
  | nil => exact ⟨t ++ [ch], [], by rw [appendLast, List.cons_append]⟩
  | cons l2 ls2 =>
    refine ⟨t, appendLast ch (l2 :: ls2), ?_⟩
    rw [appendLast]
    simp

theorem arrLines_first {e : Json} {c : Char} {t : Str} {ls : List Str}
    (he : renderLines e = (c :: t) :: ls) (es : List Json) :
    ∃ t' ls', arrLines (e :: es) = (c :: t') :: ls' := by
  cases es with
  | nil => exact ⟨t, ls, by rw [arrLines, he]⟩
  | cons e2 es' =>
    rw [arrLines]
    · rw [he]
      obtain ⟨t', ls', hap⟩ := appendLast_first ',' c t ls
      rw [hap, List.cons_append]
      exact ⟨t', ls' ++ arrLines (e2 :: es'), rfl⟩
    · simp

theorem objLines_first {k : Str} {v : Json} (kvs : List (Str × Json)) :
    ∃ t' ls', objLines ((k, v) :: kvs) = (quChar :: t') :: ls' := by
  obtain ⟨c, t, ls, he, _⟩ := renderLines_shape v
  have hpf : prependFirst (renderStr k ++ [':', ' ']) (renderLines v) =
      (quChar :: (((k.flatMap escCh ++ [quChar]) ++ [':', ' ']) ++ (c :: t))) :: ls := by
    rw [he, prependFirst_cons, renderStr]
    simp [List.append_assoc]
  cases kvs with
  | nil =>
    rw [objLines, hpf]
    exact ⟨_, _, rfl⟩
  | cons kv2 kvs' =>
    rw [objLines]
    · rw [hpf]
      obtain ⟨t', ls', hap⟩ := appendLast_first ',' quChar
        (((k.flatMap escCh ++ [quChar]) ++ [':', ' ']) ++ (c :: t)) ls
      rw [hap, List.cons_append]
      exact ⟨t', ls' ++ objLines (kv2 :: kvs'), rfl⟩
    · simp

theorem joinNl_first (c : Char) (t : Str) (ls : List Str) :
    ∃ w, joinNl ((c :: t) :: ls) = c :: w := by
  cases ls with
  | nil => exact ⟨t, rfl⟩
  | cons l2 ls2 =>
    rw [joinNl_cons (by simp : l2 :: ls2 ≠ []), List.cons_append]
    exact ⟨_, rfl⟩

theorem contains_nl_false_iff (l : Str) :
    l.contains nlChar = false ↔ ∀ x ∈ l, x ≠ nlChar := by
  induction l with
  | nil => simp
  | cons c t ih =>
    rw [List.contains_cons, Bool.or_eq_false_iff, ih]
    constructor
    · rintro ⟨h1, h2⟩ x hx
      rcases List.mem_cons.1 hx with rfl | hx2
      · simp only [beq_eq_false_iff_ne] at h1
        exact fun he => h1 he.symm
      · exact h2 x hx2
    · intro h
      refine ⟨?_, fun x hx => h x (by simp [hx])⟩
      have hc := h c (by simp)
      simp only [beq_eq_false_iff_ne]
      exact fun he => hc he.symm

theorem appendLast_cons₂ (ch : Char) (a b : Str) (bs : List Str) :
    appendLast ch (a :: b :: bs) = a :: appendLast ch (b :: bs) := by
  rw [appendLast]
  simp

theorem goodLineB_concat_comma {l : Str} (h : goodLineB l = true) :
    goodLineB (l ++ [',']) = true := by
  obtain ⟨c, t, rfl, h1, h2, h3⟩ := goodLineB_shape h
  rw [List.cons_append]
  apply goodLineB_intro h1
  · rw [show t ++ [','] = t ++ ',' :: [] from rfl]
    rw [show (c :: (t ++ ',' :: [])).getLastD ' ' = ((c :: t) ++ ',' :: []).getLastD ' '
      from by rw [List.cons_append]]
    rw [getLastD_append_last]
    decide
  · rw [show c :: (t ++ [',']) = (c :: t) ++ [','] from by rw [List.cons_append]]
    rw [contains_nl_false_iff]
    intro x hx
    rcases List.mem_append.1 hx with hx1 | hx2
    · exact (contains_nl_false_iff _).1 h3 x hx1
    · simp at hx2
      subst hx2
      decide

theorem goodLines_appendLast : ∀ {ls : List Str}, (∀ l ∈ ls, goodLineB l = true) →
    ∀ l ∈ appendLast ',' ls, goodLineB l = true := by
  intro ls
  induction ls with
  | nil => intro _ l hl; simp [appendLast] at hl
  | cons a as ih =>
    intro h l hl
    cases as with
    | nil =>
      rw [show appendLast ',' [a] = [a ++ [',']] from rfl] at hl
      simp only [List.mem_singleton] at hl
      subst hl
      exact goodLineB_concat_comma (h a (by simp))
    | cons b bs =>
      rw [appendLast_cons₂] at hl
      rcases List.mem_cons.1 hl with rfl | hl2
      · exact h l (by simp)
      · exact ih (fun x hx => h x (by simp [hx])) l hl2

theorem goodLineB_key_prefix {k : Str} (hk : safeStr k = true) {l : Str}
    (hl : goodLineB l = true) :
    goodLineB ((renderStr k ++ [':', ' ']) ++ l) = true := by
  obtain ⟨c, t, rfl, h1, h2, h3⟩ := goodLineB_shape hl
  rw [renderStr]
  rw [show ((quChar :: (k.flatMap escCh ++ [quChar])) ++ [':', ' ']) ++ (c :: t) =
    quChar :: (((k.flatMap escCh ++ [quChar]) ++ [':', ' ']) ++ (c :: t))
    from by simp [List.cons_append]]
  apply goodLineB_intro
  · decide
  · rw [List.getLastD_cons]
    simp only [List.append_assoc, List.cons_append, List.nil_append]
    rw [getLastD_append_cons, List.getLastD_cons, List.getLastD_cons]
    exact h2
  · rw [contains_nl_false_iff]
    intro x hx
    rcases List.mem_cons.1 hx with rfl | hx2
    · decide
    · rcases List.mem_append.1 hx2 with hx3 | hx4
      · rcases List.mem_append.1 hx3 with hx5 | hx6
        · exact ge32_ne_nl (renderStr_chars hk (by rw [renderStr]; simp [hx5]))
        · simp at hx6
          rcases hx6 with rfl | rfl <;> decide
      · exact (contains_nl_false_iff _).1 h3 x hx4

theorem goodLines_prependFirst {k : Str} (hk : safeStr k = true) {ls : List Str}
    (hne : ls ≠ []) (h : ∀ l ∈ ls, goodLineB l = true) :
    ∀ l ∈ prependFirst (renderStr k ++ [':', ' ']) ls, goodLineB l = true := by
  cases ls with
  | nil => exact absurd rfl hne
  | cons a as =>
    intro l hl
    rw [prependFirst_cons] at hl
    rcases List.mem_cons.1 hl with rfl | hl2
    · exact goodLineB_key_prefix hk (h a (by simp))
    · exact h l (by simp [hl2])

theorem json_sizeOf_pos (j : Json) : 0 < sizeOf j := by
  cases j <;> simp_arith

theorem jlist_sizeOf_pos (es : List Json) : 0 < sizeOf es := by
  cases es <;> simp_arith

theorem kvlist_sizeOf_pos (kvs : List (Str × Json)) : 0 < sizeOf kvs := by
  cases kvs <;> simp_arith

theorem linesGoodAux : ∀ n : ℕ,
    (∀ j : Json, sizeOf j ≤ n → safeJson j = true → ∀ l ∈ renderLines j, goodLineB l = true) ∧
    (∀ es : List Json, sizeOf es ≤ n → safeArr es = true →
      ∀ l ∈ arrLines es, goodLineB l = true) ∧
    (∀ kvs : List (Str × Json), sizeOf kvs ≤ n → safeObj kvs = true →
      ∀ l ∈ objLines kvs, goodLineB l = true) := by
  intro n
  induction n with
  | zero =>
    refine ⟨fun j hsz => absurd hsz (by have := json_sizeOf_pos j; omega),
      fun es hsz => absurd hsz (by have := jlist_sizeOf_pos es; omega),
      fun kvs hsz => absurd hsz (by have := kvlist_sizeOf_pos kvs; omega)⟩
  | succ m ih =>
    refine ⟨?_, ?_, ?_⟩
    · intro j hsz hs l hl
      cases j with
      | null =>
        simp only [renderLines, List.mem_singleton] at hl
        subst hl
        decide
      | bool b =>
        cases b <;> simp only [renderLines, List.mem_singleton] at hl <;> subst hl <;> decide
      | num q =>
        simp only [renderLines, List.mem_singleton] at hl
        subst hl
        exact goodLineB_renderNum q
      | str s =>
        simp only [renderLines, List.mem_singleton] at hl
        subst hl
        exact goodLineB_renderStr (by rw [safeJson] at hs; exact hs)
      | arr es =>
        cases es with
        | nil =>
          simp only [renderLines, List.mem_singleton] at hl
          subst hl
          decide
        | cons e es' =>
          rw [renderLines] at hl
          rcases List.mem_cons.1 hl with rfl | hl2
          · decide
          · rcases List.mem_append.1 hl2 with hl3 | hl4
            · have hsz' : sizeOf (e :: es') ≤ m := by simp at hsz ⊢; omega
              have hs' : safeArr (e :: es') = true := by rw [safeJson] at hs; exact hs
              exact ih.2.1 (e :: es') hsz' hs' l hl3
            · simp at hl4
              subst hl4
              decide
      | obj kvs =>
        cases kvs with
        | nil =>
          simp only [renderLines, List.mem_singleton] at hl
          subst hl
          decide
        | cons kv kvs' =>
          rw [renderLines] at hl
          rcases List.mem_cons.1 hl with rfl | hl2
          · decide
          · rcases List.mem_append.1 hl2 with hl3 | hl4
            · have hsz' : sizeOf (kv :: kvs') ≤ m := by simp at hsz ⊢; omega
              have hs' : safeObj (kv :: kvs') = true := by rw [safeJson] at hs; exact hs
              exact ih.2.2 (kv :: kvs') hsz' hs' l hl3
            · simp at hl4
              subst hl4
              decide
    · intro es hsz hs l hl
      cases es with
      | nil => simp [arrLines] at hl
      | cons e es' =>
        have hsand : safeJson e = true ∧ safeArr es' = true := by
          rw [safeArr, Bool.and_eq_true] at hs
          exact hs
        cases es' with
        | nil =>
          rw [arrLines] at hl
          have hsz' : sizeOf e ≤ m := by simp at hsz; omega
          exact ih.1 e hsz' hsand.1 l hl
        | cons e2 es'' =>
          rw [arrLines] at hl
          · rcases List.mem_append.1 hl with hl2 | hl3
            · have hsz' : sizeOf e ≤ m := by simp at hsz; omega
              exact goodLines_appendLast (ih.1 e hsz' hsand.1) l hl2
            · have hsz' : sizeOf (e2 :: es'') ≤ m := by simp at hsz ⊢; omega
              exact ih.2.1 (e2 :: es'') hsz' hsand.2 l hl3
          · simp
    · intro kvs hsz hs l hl
      cases kvs with
      | nil => simp [objLines] at hl
      | cons kv kvs' =>
        obtain ⟨k, v⟩ := kv
        have hsand : safeStr k = true ∧ safeJson v = true ∧ safeObj kvs' = true := by
          rw [safeObj, Bool.and_eq_true, Bool.and_eq_true] at hs
          exact ⟨hs.1.1, hs.1.2, hs.2⟩
        have hszv : sizeOf v ≤ m := by simp at hsz; omega
        cases kvs' with
        | nil =>
          rw [objLines] at hl
          exact goodLines_prependFirst hsand.1 (renderLines_ne_nil v)
            (ih.1 v hszv hsand.2.1) l hl
        | cons kv2 kvs'' =>
          rw [objLines] at hl
          · rcases List.mem_append.1 hl with hl2 | hl3
            · exact goodLines_appendLast
                (goodLines_prependFirst hsand.1 (renderLines_ne_nil v)
                  (ih.1 v hszv hsand.2.1)) l hl2
            · have hsz' : sizeOf (kv2 :: kvs'') ≤ m := by simp at hsz ⊢; omega
              exact ih.2.2 (kv2 :: kvs'') hsz' hsand.2.2 l hl3
          · simp

theorem linesGood {j : Json} (hs : safeJson j = true) :
    ∀ l ∈ renderLines j, goodLineB l = true :=
  (linesGoodAux (sizeOf j)).1 j le_rfl hs

/-! ## C1, step 7: controlled unfoldings of the parser -/

theorem parseVal_cons_ws {c : Char} (hc : isWsChar c = true) :
    ∀ (fuel : ℕ) (cs : Str), parseVal fuel (c :: cs) = parseVal fuel cs := by
  intro fuel cs
  cases fuel with
  | zero => rfl
  | succ f =>
    rw [parseVal, parseVal, show skipWs (c :: cs) = skipWs cs from by rw [skipWs, if_pos hc]]

theorem parseElems_cons_ws {c : Char} (hc : isWsChar c = true) (f : ℕ) (cs : Str) :
    parseElems (f + 1) (c :: cs) = parseElems (f + 1) cs := by
  rw [parseElems, parseElems, parseVal_cons_ws hc]

theorem parseMembers_cons_ws {c : Char} (hc : isWsChar c = true) (f : ℕ) (cs : Str) :
    parseMembers (f + 1) (c :: cs) = parseMembers (f + 1) cs := by
  rw [parseMembers, parseMembers,
    show skipWs (c :: cs) = skipWs cs from by rw [skipWs, if_pos hc]]

theorem pfuel_pos (j : Json) : 1 ≤ pfuel j := by
  cases j <;> rw [pfuel] <;> omega

theorem pfuelArr_pos {e : Json} (es : List Json) : 1 ≤ pfuelArr (e :: es) := by
  rw [pfuelArr]
  omega

theorem pfuelObj_pos (kv : Str × Json) (kvs : List (Str × Json)) :
    1 ≤ pfuelObj (kv :: kvs) := by
  obtain ⟨k, v⟩ := kv
  rw [pfuelObj]
  omega

theorem numStop_nl (x : Str) : numStop (nlChar :: x) = true := by
  rw [numStop]
  decide

theorem numStop_comma (x : Str) : numStop (',' :: x) = true := by
  rw [numStop]
  decide

theorem strStarts_null_ne {c : Char} (h : c ≠ 'n') (tl : Str) :
    strStarts (strL ("null")) (c :: tl) = false := by
  rw [show (strL ("null") : Str) = 'n' :: strL ("ull") from rfl]
  exact strStarts_cons_ne (fun he => h he.symm) _ _

theorem strStarts_true_ne {c : Char} (h : c ≠ 't') (tl : Str) :
    strStarts (strL ("true")) (c :: tl) = false := by
  rw [show (strL ("true") : Str) = 't' :: strL ("rue") from rfl]
  exact strStarts_cons_ne (fun he => h he.symm) _ _

theorem strStarts_false_ne {c : Char} (h : c ≠ 'f') (tl : Str) :
    strStarts (strL ("false")) (c :: tl) = false := by
  rw [show (strL ("false") : Str) = 'f' :: strL ("alse") from rfl]
  exact strStarts_cons_ne (fun he => h he.symm) _ _

theorem parseVal_null (f : ℕ) (rest : Str) :
    parseVal (f + 1) (strL ("null") ++ rest) = some (Json.null, rest) := by
  rw [show (strL ("null") : Str) ++ rest = 'n' :: 'u' :: 'l' :: 'l' :: rest from rfl]
  simp only [parseVal]
  rw [skipWs_not_ws (by decide)]
  rw [show strStarts (strL ("null")) ('n' :: 'u' :: 'l' :: 'l' :: rest) = true from
    strStarts_self_append (strL ("null")) rest]
  rw [if_pos rfl]
  rfl

theorem parseVal_true (f : ℕ) (rest : Str) :
    parseVal (f + 1) (strL ("true") ++ rest) = some (Json.bool true, rest) := by
  rw [show (strL ("true") : Str) ++ rest = 't' :: 'r' :: 'u' :: 'e' :: rest from rfl]
  simp only [parseVal]
  rw [skipWs_not_ws (by decide)]
  rw [strStarts_null_ne (by decide)]
  rw [if_neg (by decide)]
  rw [show strStarts (strL ("true")) ('t' :: 'r' :: 'u' :: 'e' :: rest) = true from
    strStarts_self_append (strL ("true")) rest]
  rw [if_pos rfl]
  rfl

theorem parseVal_false (f : ℕ) (rest : Str) :
    parseVal (f + 1) (strL ("false") ++ rest) = some (Json.bool false, rest) := by
  rw [show (strL ("false") : Str) ++ rest = 'f' :: 'a' :: 'l' :: 's' :: 'e' :: rest from rfl]
  simp only [parseVal]
  rw [skipWs_not_ws (by decide)]
  rw [strStarts_null_ne (by decide)]
  rw [if_neg (by decide)]
  rw [strStarts_true_ne (by decide)]
  rw [if_neg (by decide)]
  rw [show strStarts (strL ("false")) ('f' :: 'a' :: 'l' :: 's' :: 'e' :: rest) = true from
    strStarts_self_append (strL ("false")) rest]
  rw [if_pos rfl]
  rfl

theorem parseVal_head {f : ℕ} {c : Char} {tl : Str}
    (hws : isWsChar c = false) (hn : c ≠ 'n') (ht : c ≠ 't') (hf : c ≠ 'f') :
    parseVal (f + 1) (c :: tl) =
      (if c = quChar then
        match parseStrBody [] tl with
        | some (s, r') => some (Json.str s, r')
        | none => none
      else if c = lsb then
        match (skipWs tl).head? with
        | none => none
        | some c' =>
          if c' = rsb then some (Json.arr [], (skipWs tl).tail)
          else
            match parseElems f (skipWs tl) with
            | some (es, r'') => some (Json.arr es, r'')
            | none => none
      else if c = lcb then
        match (skipWs tl).head? with
        | none => none
        | some c' =>
          if c' = rcb then some (Json.obj [], (skipWs tl).tail)
          else
            match parseMembers f (skipWs tl) with
            | some (ms, r'') => some (Json.obj ms, r'')
            | none => none
      else if (c = '-' || isDigitCh c : Bool) then
        match parseNum (c :: tl) with
        | some (q, r') => some (Json.num q, r')
        | none => none
      else none) := by
  simp only [parseVal]
  rw [skipWs_not_ws hws]
  rw [strStarts_null_ne hn, strStarts_true_ne ht, strStarts_false_ne hf]
  rw [if_neg (by decide), if_neg (by decide), if_neg (by decide)]
  rw [List.head?_cons, List.tail_cons]

theorem numHead_facts {c : Char} (h : c = '-' ∨ isDigitCh c = true) :
    isWsChar c = false ∧ c ≠ 'n' ∧ c ≠ 't' ∧ c ≠ 'f' ∧ c ≠ quChar ∧ c ≠ lsb ∧ c ≠ lcb ∧
      (c = '-' || isDigitCh c) = true := by
  rcases h with rfl | hd
  · exact ⟨by decide, by decide, by decide, by decide, by decide, by decide, by decide,
      by decide⟩
  · obtain ⟨h1, _, _, _, h5, h6, h7, h8, h9, h10, _, _, _, _⟩ := digit_head_facts hd
    exact ⟨h1, h5, h6, h7, h8, h9, h10, by simp [hd]⟩

theorem parseElems_step {f : ℕ} {cs r : Str} {v : Json}
    (h : parseVal f cs = some (v, r)) :
    parseElems (f + 1) cs =
      (match (skipWs r).head? with
      | none => none
      | some c =>
        if c = ',' then
          match parseElems f (skipWs r).tail with
          | some (vs, r'') => some (v :: vs, r'')
          | none => none
        else if c = rsb then some ([v], (skipWs r).tail)
        else none) := by
  rw [parseElems, h]

theorem parseMembers_qu {f : ℕ} {tl : Str} :
    parseMembers (f + 1) (quChar :: tl) =
      (match parseStrBody [] tl with
      | none => none
      | some (key, r1) =>
        if (skipWs r1).head? = some ':' then
          match parseVal f (skipWs r1).tail with
          | none => none
          | some (v, r3) =>
            match (skipWs r3).head? with
            | none => none
            | some c3 =>
              if c3 = ',' then
                match parseMembers f (skipWs r3).tail with
                | some (ms, r5) => some ((key, v) :: ms, r5)
                | none => none
              else if c3 = rcb then some ([(key, v)], (skipWs r3).tail)
              else none
        else none) := by
  simp only [parseMembers]
  rw [skipWs_not_ws (by decide), List.head?_cons, List.tail_cons]
  rfl

theorem rtAux : ∀ fuel : ℕ,
    (∀ (j : Json) (rest : Str), pfuel j ≤ fuel → safeJson j = true → numStop rest = true →
      parseVal fuel (joinNl (renderLines j) ++ rest) = some (j, rest)) ∧
    (∀ (e : Json) (es : List Json) (rest : Str), pfuelArr (e :: es) ≤ fuel →
      safeArr (e :: es) = true →
      parseElems fuel (joinNl (arrLines (e :: es)) ++ nlChar :: rsb :: rest) =
        some (e :: es, rest)) ∧
    (∀ (kv : Str × Json) (kvs : List (Str × Json)) (rest : Str), pfuelObj (kv :: kvs) ≤ fuel →
      safeObj (kv :: kvs) = true →
      parseMembers fuel (joinNl (objLines (kv :: kvs)) ++ nlChar :: rcb :: rest) =
        some (kv :: kvs, rest)) := by
  intro fuel
  induction fuel with
  | zero =>
    refine ⟨fun j rest hpf => absurd hpf (by have := pfuel_pos j; omega),
      fun e es rest hpf => absurd hpf (by have := pfuelArr_pos (e := e) es; omega),
      fun kv kvs rest hpf => absurd hpf (by have := pfuelObj_pos kv kvs; omega)⟩
  | succ f ih =>
    refine ⟨?_, ?_, ?_⟩
    · intro j rest hpf hsafe hrest
      cases j with
      | null => exact parseVal_null f rest
      | bool b =>
        cases b with
        | true => exact parseVal_true f rest
        | false => exact parseVal_false f rest
      | num q =>
        have hs' : safeNum q = true := by rw [safeJson] at hsafe; exact hsafe
        obtain ⟨c, t, he, hcd⟩ := renderNum_head q
        obtain ⟨hws, hn, ht, hf, hqu, hlsb, hlcb, hbool⟩ := numHead_facts hcd
        rw [show joinNl (renderLines (Json.num q)) = renderNum q from rfl, he,
          List.cons_append]
        rw [parseVal_head hws hn ht hf]
        rw [if_neg hqu, if_neg hlsb, if_neg hlcb, if_pos hbool]
        rw [← List.cons_append, ← he, parseNum_renderNum hs' hrest]
      | str s =>
        have hs' : safeStr s = true := by rw [safeJson] at hsafe; exact hsafe
        rw [show joinNl (renderLines (Json.str s)) = renderStr s from rfl, renderStr,
          List.cons_append]
        rw [parseVal_head (by decide) (by decide) (by decide) (by decide)]
        rw [if_pos rfl]
        rw [List.append_assoc]
        rw [show ([quChar] : Str) ++ rest = quChar :: rest from rfl]
        rw [parseStrBody_escape hs']
        simp
      | arr es =>
        cases es with
        | nil =>
          rw [show joinNl (renderLines (Json.arr [])) ++ rest = lsb :: rsb :: rest from rfl]
          rw [parseVal_head (by decide) (by decide) (by decide) (by decide)]
          rw [if_neg (by decide), if_pos rfl]
          rw [skipWs_not_ws (by decide), List.head?_cons]
          rfl
        | cons e es' =>
          have hsA : safeArr (e :: es') = true := by rw [safeJson] at hsafe; exact hsafe
          have hpf' : pfuelArr (e :: es') ≤ f := by rw [pfuel] at hpf; omega
          obtain ⟨c1, t1, ls1, hel, hch⟩ := renderLines_shape e
          obtain ⟨hws1, hrsb1, hrcb1, hnl1⟩ := valHead_facts hch
          obtain ⟨t2, ls2, harr⟩ := arrLines_first hel es'
          obtain ⟨w, hjoin⟩ := joinNl_first c1 t2 ls2
          have hlines : joinNl (renderLines (Json.arr (e :: es'))) ++ rest =
              lsb :: nlChar :: (joinNl (arrLines (e :: es')) ++ nlChar :: rsb :: rest) := by
            rw [show renderLines (Json.arr (e :: es')) =
              [lsb] :: (arrLines (e :: es') ++ [[rsb]]) from rfl]
            rw [joinNl_cons (by
              intro hnil
              rcases List.append_eq_nil.1 hnil with ⟨h1, _⟩
              exact arrLines_ne_nil es' h1)]
            rw [joinNl_append (arrLines_ne_nil es') (by simp)]
            simp [List.append_assoc]
            rfl
          rw [hlines]
          rw [parseVal_head (by decide) (by decide) (by decide) (by decide)]
          rw [if_neg (by decide), if_pos rfl]
          rw [show skipWs (nlChar ::
              (joinNl (arrLines (e :: es')) ++ nlChar :: rsb :: rest)) =
              joinNl (arrLines (e :: es')) ++ nlChar :: rsb :: rest from by
            rw [skipWs, if_pos (by decide)]
            rw [harr, hjoin, List.cons_append]
            exact skipWs_not_ws hws1]
          rw [show (joinNl (arrLines (e :: es')) ++ nlChar :: rsb :: rest).head? = some c1
            from by rw [harr, hjoin, List.cons_append, List.head?_cons]]
          dsimp only
          rw [if_neg hrsb1]
          rw [ih.2.1 e es' rest hpf' hsA]
      | obj kvs =>
        cases kvs with
        | nil =>
          rw [show joinNl (renderLines (Json.obj [])) ++ rest = lcb :: rcb :: rest from rfl]
          rw [parseVal_head (by decide) (by decide) (by decide) (by decide)]
          rw [if_neg (by decide), if_neg (by decide), if_pos rfl]
          rw [skipWs_not_ws (by decide), List.head?_cons]
          rfl
        | cons kv kvs' =>
          have hsO : safeObj (kv :: kvs') = true := by rw [safeJson] at hsafe; exact hsafe
          have hpf' : pfuelObj (kv :: kvs') ≤ f := by rw [pfuel] at hpf; omega
          obtain ⟨k, v⟩ := kv
          obtain ⟨t2, ls2, hobj⟩ := objLines_first (k := k) (v := v) kvs'
          obtain ⟨w, hjoin⟩ := joinNl_first quChar t2 ls2
          have hlines : joinNl (renderLines (Json.obj ((k, v) :: kvs'))) ++ rest =
              lcb :: nlChar ::
                (joinNl (objLines ((k, v) :: kvs')) ++ nlChar :: rcb :: rest) := by
            rw [show renderLines (Json.obj ((k, v) :: kvs')) =
              [lcb] :: (objLines ((k, v) :: kvs') ++ [[rcb]]) from rfl]
            rw [joinNl_cons (by
              intro hnil
              rcases List.append_eq_nil.1 hnil with ⟨h1, _⟩
              exact objLines_ne_nil kvs' h1)]
            rw [joinNl_append (objLines_ne_nil kvs') (by simp)]
            simp [List.append_assoc]
            rfl
          rw [hlines]
          rw [parseVal_head (by decide) (by decide) (by decide) (by decide)]
          rw [if_neg (by decide), if_neg (by decide), if_pos rfl]
          rw [show skipWs (nlChar ::
              (joinNl (objLines ((k, v) :: kvs')) ++ nlChar :: rcb :: rest)) =
              joinNl (objLines ((k, v) :: kvs')) ++ nlChar :: rcb :: rest from by
            rw [skipWs, if_pos (by decide)]
            rw [hobj, hjoin, List.cons_append]
            exact skipWs_not_ws (by decide)]
          rw [show (joinNl (objLines ((k, v) :: kvs')) ++ nlChar :: rcb :: rest).head? =
            some quChar from by rw [hobj, hjoin, List.cons_append, List.head?_cons]]
          dsimp only
          rw [if_neg (by decide)]
          rw [ih.2.2 (k, v) kvs' rest hpf' hsO]
    · intro e es rest hpf hsafe
      have hsand : safeJson e = true ∧ safeArr es = true := by
        rw [safeArr, Bool.and_eq_true] at hsafe
        exact hsafe
      cases es with
      | nil =>
        have hpe : pfuel e ≤ f := by rw [pfuelArr, pfuelArr] at hpf; omega
        rw [show arrLines [e] = renderLines e from by rw [arrLines]]
        rw [parseElems_step (ih.1 e (nlChar :: rsb :: rest) hpe hsand.1 (numStop_nl _))]
        rw [show skipWs (nlChar :: rsb :: rest) = rsb :: rest from by
          rw [skipWs, if_pos (by decide)]
          exact skipWs_not_ws (by decide)]
        rw [List.head?_cons]
        dsimp only
        rw [if_neg (by decide), if_pos rfl, List.tail_cons]
      | cons e2 es'' =>
        have hpe : pfuel e ≤ f := by rw [pfuelArr] at hpf; omega
        have hpes : pfuelArr (e2 :: es'') ≤ f := by rw [pfuelArr] at hpf; omega
        obtain ⟨g, hg⟩ : ∃ g, f = g + 1 :=
          ⟨f - 1, by have := pfuelArr_pos (e := e2) es''; omega⟩
        have hinput : joinNl (arrLines (e :: e2 :: es'')) ++ nlChar :: rsb :: rest =
            joinNl (renderLines e) ++ ',' :: nlChar ::
              (joinNl (arrLines (e2 :: es'')) ++ nlChar :: rsb :: rest) := by
          rw [show arrLines (e :: e2 :: es'') =
            appendLast ',' (renderLines e) ++ arrLines (e2 :: es'') from by
              rw [arrLines]
              simp]
          rw [joinNl_append (appendLast_ne_nil (renderLines_ne_nil e))
            (arrLines_ne_nil es'')]
          rw [joinNl_appendLast (renderLines_ne_nil e)]
          simp [List.append_assoc]
        rw [hinput]
        rw [parseElems_step (ih.1 e _ hpe hsand.1 (numStop_comma _))]
        rw [show skipWs (',' :: nlChar ::
            (joinNl (arrLines (e2 :: es'')) ++ nlChar :: rsb :: rest)) =
            ',' :: nlChar :: (joinNl (arrLines (e2 :: es'')) ++ nlChar :: rsb :: rest) from
          skipWs_not_ws (by decide)]
        rw [List.head?_cons]
        dsimp only
        rw [if_pos rfl, List.tail_cons]
        rw [hg, parseElems_cons_ws (by decide), ← hg]
        rw [ih.2.1 e2 es'' rest hpes hsand.2]
    · intro kv kvs rest hpf hsafe
      obtain ⟨k, v⟩ := kv
      have hsand : safeStr k = true ∧ safeJson v = true ∧ safeObj kvs = true := by
        rw [safeObj, Bool.and_eq_true, Bool.and_eq_true] at hsafe
        exact ⟨hsafe.1.1, hsafe.1.2, hsafe.2⟩
      have hpv : pfuel v ≤ f := by rw [pfuelObj] at hpf; omega
      obtain ⟨l1, ls1, hrl⟩ : ∃ l1 ls1, renderLines v = l1 :: ls1 := by
        cases hrv : renderLines v with
        | nil => exact absurd hrv (renderLines_ne_nil v)
        | cons a as => exact ⟨a, as, rfl⟩
      cases kvs with
      | nil =>
        have hinput : joinNl (objLines [(k, v)]) ++ nlChar :: rcb :: rest =
            quChar :: (k.flatMap escCh ++ quChar :: ':' :: ' ' ::
              (joinNl (renderLines v) ++ nlChar :: rcb :: rest)) := by
          rw [show objLines [(k, v)] =
            prependFirst (renderStr k ++ [':', ' ']) (renderLines v) from by rw [objLines]]
          rw [hrl, joinNl_prependFirst, renderStr]
          simp [List.append_assoc]
        rw [hinput]
        rw [parseMembers_qu]
        rw [parseStrBody_escape hsand.1]
        dsimp only
        rw [show skipWs (':' :: ' ' :: (joinNl (renderLines v) ++ nlChar :: rcb :: rest)) =
            ':' :: ' ' :: (joinNl (renderLines v) ++ nlChar :: rcb :: rest) from
          skipWs_not_ws (by decide)]
        rw [List.head?_cons, if_pos rfl, List.tail_cons]
        rw [parseVal_cons_ws (by decide), ih.1 v _ hpv hsand.2.1 (numStop_nl _)]
        dsimp only
        rw [show skipWs (nlChar :: rcb :: rest) = rcb :: rest from by
          rw [skipWs, if_pos (by decide)]
          exact skipWs_not_ws (by decide)]
        rw [List.head?_cons]
        dsimp only
        rw [if_neg (by decide), if_pos rfl, List.tail_cons]
        simp
      | cons kv2 kvs'' =>
        have hpkvs : pfuelObj (kv2 :: kvs'') ≤ f := by rw [pfuelObj] at hpf; omega
        obtain ⟨g, hg⟩ : ∃ g, f = g + 1 :=
          ⟨f - 1, by have := pfuelObj_pos kv2 kvs''; omega⟩
        have hinput : joinNl (objLines ((k, v) :: kv2 :: kvs'')) ++ nlChar :: rcb :: rest =
            quChar :: (k.flatMap escCh ++ quChar :: ':' :: ' ' ::
              (joinNl (renderLines v) ++ ',' :: nlChar ::
                (joinNl (objLines (kv2 :: kvs'')) ++ nlChar :: rcb :: rest))) := by
          rw [show objLines ((k, v) :: kv2 :: kvs'') =
            appendLast ',' (prependFirst (renderStr k ++ [':', ' ']) (renderLines v)) ++
              objLines (kv2 :: kvs'') from by
            rw [objLines]
            simp]
          rw [joinNl_append (appendLast_ne_nil (by rw [hrl, prependFirst_cons]; simp))
            (objLines_ne_nil kvs'')]
          rw [joinNl_appendLast (by rw [hrl, prependFirst_cons]; simp)]
          rw [hrl, joinNl_prependFirst, renderStr]
          simp [List.append_assoc]
        rw [hinput]
        rw [parseMembers_qu]
        rw [parseStrBody_escape hsand.1]
        dsimp only
        rw [show skipWs (':' :: ' ' :: (joinNl (renderLines v) ++ ',' :: nlChar ::
            (joinNl (objLines (kv2 :: kvs'')) ++ nlChar :: rcb :: rest))) =
            ':' :: ' ' :: (joinNl (renderLines v) ++ ',' :: nlChar ::
            (joinNl (objLines (kv2 :: kvs'')) ++ nlChar :: rcb :: rest)) from
          skipWs_not_ws (by decide)]
        rw [List.head?_cons, if_pos rfl, List.tail_cons]
        rw [parseVal_cons_ws (by decide), ih.1 v _ hpv hsand.2.1 (numStop_comma _)]
        dsimp only
        rw [show skipWs (',' :: nlChar ::
            (joinNl (objLines (kv2 :: kvs'')) ++ nlChar :: rcb :: rest)) =
            ',' :: nlChar :: (joinNl (objLines (kv2 :: kvs'')) ++ nlChar :: rcb :: rest) from
          skipWs_not_ws (by decide)]
        rw [List.head?_cons]
        dsimp only
        rw [if_pos rfl, List.tail_cons]
        rw [hg, parseMembers_cons_ws (by decide), ← hg]
        rw [ih.2.2 kv2 kvs'' rest hpkvs hsand.2.2]
        simp

/-! ## C1, step 8: `JSON.parse (JSON.stringify v)` recovers `v` -/

theorem pfuelBoundAux : ∀ n : ℕ,
    (∀ j : Json, sizeOf j ≤ n → pfuel j + 1 ≤ 2 * (renderLines j).length) ∧
    (∀ es : List Json, sizeOf es ≤ n → pfuelArr es ≤ 2 * (arrLines es).length) ∧
    (∀ kvs : List (Str × Json), sizeOf kvs ≤ n → pfuelObj kvs ≤ 2 * (objLines kvs).length) := by
  intro n
  induction n with
  | zero =>
    refine ⟨fun j hsz => absurd hsz (by have := json_sizeOf_pos j; omega),
      fun es hsz => absurd hsz (by have := jlist_sizeOf_pos es; omega),
      fun kvs hsz => absurd hsz (by have := kvlist_sizeOf_pos kvs; omega)⟩
  | succ m ih =>
    refine ⟨?_, ?_, ?_⟩
    · intro j hsz
      cases j with
      | null => rw [pfuel]; simp [renderLines]
      | bool b => rw [pfuel]; cases b <;> simp [renderLines]
      | num q => rw [pfuel]; simp [renderLines]
      | str s => rw [pfuel]; simp [renderLines]
      | arr es =>
        cases es with
        | nil => rw [pfuel, pfuelArr]; simp [renderLines]
        | cons e es' =>
          have hsz' : sizeOf (e :: es') ≤ m := by simp at hsz ⊢; omega
          have hb := ih.2.1 (e :: es') hsz'
          rw [pfuel]
          rw [show renderLines (Json.arr (e :: es')) =
            [lsb] :: (arrLines (e :: es') ++ [[rsb]]) from rfl]
          simp only [List.length_cons, List.length_append, List.length_singleton]
          omega
      | obj kvs =>
        cases kvs with
        | nil => rw [pfuel, pfuelObj]; simp [renderLines]
        | cons kv kvs' =>
          have hsz' : sizeOf (kv :: kvs') ≤ m := by simp at hsz ⊢; omega
          have hb := ih.2.2 (kv :: kvs') hsz'
          rw [pfuel]
          rw [show renderLines (Json.obj (kv :: kvs')) =
            [lcb] :: (objLines (kv :: kvs') ++ [[rcb]]) from rfl]
          simp only [List.length_cons, List.length_append, List.length_singleton]
          omega
    · intro es hsz
      cases es with
      | nil => rw [pfuelArr]; omega
      | cons e es' =>
        have hsze : sizeOf e ≤ m := by simp at hsz; omega
        have hbe := ih.1 e hsze
        cases es' with
        | nil =>
          rw [pfuelArr, pfuelArr]
          rw [show arrLines [e] = renderLines e from by rw [arrLines]]
          omega
        | cons e2 es'' =>
          have hsz' : sizeOf (e2 :: es'') ≤ m := by simp at hsz ⊢; omega
          have hb := ih.2.1 (e2 :: es'') hsz'
          rw [pfuelArr]
          rw [show arrLines (e :: e2 :: es'') =
            appendLast ',' (renderLines e) ++ arrLines (e2 :: es'') from by
              rw [arrLines]
              simp]
          rw [List.length_append, appendLast_length]
          omega
    · intro kvs hsz
      cases kvs with
      | nil => rw [pfuelObj]; omega
      | cons kv kvs' =>
        obtain ⟨k, v⟩ := kv
        have hszv : sizeOf v ≤ m := by simp at hsz; omega
        have hbv := ih.1 v hszv
        obtain ⟨l1, ls1, hrl⟩ : ∃ l1 ls1, renderLines v = l1 :: ls1 := by
          cases hrv : renderLines v with
          | nil => exact absurd hrv (renderLines_ne_nil v)
          | cons a as => exact ⟨a, as, rfl⟩
        cases kvs' with
        | nil =>
          rw [pfuelObj, pfuelObj]
          rw [show objLines [(k, v)] =
            prependFirst (renderStr k ++ [':', ' ']) (renderLines v) from by rw [objLines]]
          rw [hrl, prependFirst_cons]
          rw [hrl] at hbv
          simp only [List.length_cons] at hbv ⊢
          omega
        | cons kv2 kvs'' =>
          have hsz' : sizeOf (kv2 :: kvs'') ≤ m := by simp at hsz ⊢; omega
          have hb := ih.2.2 (kv2 :: kvs'') hsz'
          rw [pfuelObj]
          rw [show objLines ((k, v) :: kv2 :: kvs'') =
            appendLast ',' (prependFirst (renderStr k ++ [':', ' ']) (renderLines v)) ++
              objLines (kv2 :: kvs'') from by
            rw [objLines]
            simp]
          rw [List.length_append, appendLast_length, hrl, prependFirst_cons]
          rw [hrl] at hbv
          simp only [List.length_cons] at hbv ⊢
          omega

theorem joinNl_length_ge : ∀ {ls : List Str}, (∀ l ∈ ls, l ≠ []) → ls ≠ [] →
    2 * ls.length ≤ (joinNl ls).length + 1 := by
  intro ls
  induction ls with
  | nil => exact fun _ h => absurd rfl h
  | cons a as ih =>
    intro h _
    cases as with
    | nil =>
      have : 1 ≤ a.length := List.length_pos.2 (h a (by simp))
      rw [show joinNl [a] = a from rfl]
      simp only [List.length_singleton]
      omega
    | cons b bs =>
      have h1 : 1 ≤ a.length := List.length_pos.2 (h a (by simp))
      have h2 := ih (fun l hl => h l (by simp [hl])) (by simp)
      rw [joinNl_cons (by simp : b :: bs ≠ [])]
      simp only [List.length_append, List.length_cons] at h2 ⊢
      omega

theorem jsonParse_render {j : Json} (hs : safeJson j = true) :
    jsonParse (joinNl (renderLines j)) = some j := by
  have hne : ∀ l ∈ renderLines j, l ≠ [] := by
    intro l hl
    obtain ⟨c, t, rfl, _⟩ := goodLineB_shape (linesGood hs l hl)
    simp
  have hlenge := joinNl_length_ge hne (renderLines_ne_nil j)
  have hbound := (pfuelBoundAux (sizeOf j)).1 j le_rfl
  have hfuel : pfuel j ≤ (joinNl (renderLines j)).length + 1 := by omega
  have h1 := (rtAux ((joinNl (renderLines j)).length + 1)).1 j [] hfuel hs (by rfl)
  rw [List.append_nil] at h1
  rw [jsonParse, h1]
  rfl

/-! ## C1, step 9: the container line loop over the encoder's lines -/

theorem dropWhile_nonws_head {c : Char} {t : Str} (h : isWsChar c = false) :
    (c :: t).dropWhile isWsChar = c :: t := by
  simp [List.dropWhile_cons, h]

theorem jsTrim_good {l : Str} (h : goodLineB l = true) : jsTrim l = l := by
  obtain ⟨c, t, rfl, h1, h2, h3⟩ := goodLineB_shape h
  have hws : isWsChar c = false := by
    rw [goodHeadCh] at h1
    simp only [Bool.and_eq_true, Bool.not_eq_true'] at h1
    exact h1.1.1
  rw [jsTrim, dropWhile_nonws_head hws, dropTrailing]
  cases hrev : (c :: t).reverse with
  | nil => exact absurd hrev (by simp)
  | cons x xs =>
    have hx : x = (c :: t).getLastD ' ' := by
      have hh := List.head?_reverse (c :: t)
      rw [hrev] at hh
      rw [List.getLastD_eq_getLast?, ← hh]
      rfl
    have hxws : isWsChar x = false := by rw [hx]; exact h2
    rw [dropWhile_nonws_head hxws, ← hrev, List.reverse_reverse]

theorem dropWhile_append_last {p : Char → Bool} {c : Char} (hc : p c = false) :
    ∀ A : Str, ∃ s, (A ++ [c]).dropWhile p = s ++ [c] := by
  intro A
  induction A with
  | nil => exact ⟨[], by simp [List.dropWhile_cons, hc]⟩
  | cons a as ih =>
    by_cases hpa : p a = true
    · obtain ⟨s, hs⟩ := ih
      exact ⟨s, by rw [List.cons_append]; simp [List.dropWhile_cons, hpa, hs]⟩
    · exact ⟨a :: as, by
        rw [List.cons_append]
        simp [List.dropWhile_cons, hpa]⟩

theorem jsTrim_head {c : Char} {cs : Str} (h : isWsChar c = false) :
    ∃ t, jsTrim (c :: cs) = c :: t := by
  rw [jsTrim, dropWhile_nonws_head h, dropTrailing, List.reverse_cons]
  obtain ⟨s, hs⟩ := dropWhile_append_last (p := isWsChar) h cs.reverse
  rw [hs, List.reverse_append]
  exact ⟨s.reverse, by simp⟩

theorem cons_ne_start {c : Char} (hC : c ≠ 'C') (t : Str) :
    c :: t ≠ strL ("COORDINATES_DATA_START") := by
  rw [show (strL ("COORDINATES_DATA_START") : Str) =
    'C' :: strL ("OORDINATES_DATA_START") from rfl]
  intro he
  injection he with h1 _
  exact hC h1

theorem cons_ne_end {c : Char} (hC : c ≠ 'C') (t : Str) :
    c :: t ≠ strL ("COORDINATES_DATA_END") := by
  rw [show (strL ("COORDINATES_DATA_END") : Str) = 'C' :: strL ("OORDINATES_DATA_END")
    from rfl]
  intro he
  injection he with h1 _
  exact hC h1

theorem cons_not_object {c : Char} (ho : c ≠ 'o') (t : Str) :
    strStarts (strL ("object")) (c :: t) = false := by
  rw [show (strL ("object") : Str) = 'o' :: strL ("bject") from rfl]
  exact strStarts_cons_ne (fun he => ho he.symm) _ _

theorem trim_ne_start {c : Char} {cs : Str} (h : isWsChar c = false) (hC : c ≠ 'C') :
    jsTrim (c :: cs) ≠ strL ("COORDINATES_DATA_START") := by
  obtain ⟨t, ht⟩ := jsTrim_head h
  rw [ht]
  exact cons_ne_start hC t

theorem trim_ne_end {c : Char} {cs : Str} (h : isWsChar c = false) (hC : c ≠ 'C') :
    jsTrim (c :: cs) ≠ strL ("COORDINATES_DATA_END") := by
  obtain ⟨t, ht⟩ := jsTrim_head h
  rw [ht]
  exact cons_ne_end hC t

theorem goodHead_facts {c : Char} {t : Str} (h : goodLineB (c :: t) = true) :
    isWsChar c = false ∧ c ≠ 'o' ∧ c ≠ 'C' := by
  obtain ⟨c', t', he, h1, _, _⟩ := goodLineB_shape h
  injection he with e1 e2
  subst e1
  rw [goodHeadCh] at h1
  simp only [Bool.and_eq_true, Bool.not_eq_true', decide_eq_true_eq] at h1
  exact ⟨h1.1.1, h1.1.2, h1.2⟩

theorem vttBlocksLoop_skip : ∀ {lines : List Str},
    (∀ l ∈ lines, jsTrim l ≠ strL ("COORDINATES_DATA_START") ∧
      jsTrim l ≠ strL ("COORDINATES_DATA_END")) →
    ∀ curr : List Str, vttBlocksLoop lines false curr = [] := by
  intro lines
  induction lines with
  | nil => intro _ curr; rfl
  | cons l rest ih =>
    intro h curr
    rw [vttBlocksLoop]
    rw [if_neg (h l (by simp)).1, if_neg (h l (by simp)).2, if_neg (by simp)]
    exact ih (fun x hx => h x (by simp [hx])) curr

theorem vttBlocksLoop_json : ∀ {jlines : List Str}, (∀ l ∈ jlines, goodLineB l = true) →
    ∀ (rest2 curr : List Str),
    vttBlocksLoop (jlines ++ rest2) true curr = vttBlocksLoop rest2 true (curr ++ jlines) := by
  intro jlines
  induction jlines with
  | nil => intro _ rest2 curr; simp
  | cons l jl ih =>
    intro h rest2 curr
    have hg := h l (by simp)
    obtain ⟨c, t, rfl, _, _, _⟩ := goodLineB_shape hg
    obtain ⟨hws, ho, hC⟩ := goodHead_facts hg
    rw [List.cons_append, vttBlocksLoop, jsTrim_good hg]
    rw [if_neg (cons_ne_start hC t), if_neg (cons_ne_end hC t), if_pos rfl]
    rw [cons_not_object ho t, if_neg (by simp)]
    rw [if_pos (by simp : (c :: t : Str) ≠ [])]
    rw [ih (fun x hx => h x (by simp [hx])) rest2 (curr ++ [c :: t])]
    rw [List.append_assoc]
    rfl

/-! ## C1, step 10: the encoder's object entries under a valid object -/

theorem isNullJ_eq {j : Json} (h : isNullJ j = true) : j = Json.null := by
  cases j with
  | null => rfl
  | bool b => exact absurd h Bool.false_ne_true
  | num q => exact absurd h Bool.false_ne_true
  | str s => exact absurd h Bool.false_ne_true
  | arr es => exact absurd h Bool.false_ne_true
  | obj kvs => exact absurd h Bool.false_ne_true

theorem validObj_destruct {o : VObj} (hv : validObj o = true) :
    ∃ n c cat dom info t C p,
      o.name = some n ∧ n ≠ [] ∧ safeStr n = true ∧
      o.code = some c ∧ c ≠ [] ∧ safeStr c = true ∧
      o.category = some cat ∧ cat ≠ [] ∧ safeStr cat = true ∧
      o.dlReservoirDomain = some dom ∧ dom ≠ [] ∧ safeStr dom = true ∧
      o.additionalInfo = some info ∧ info ≠ [] ∧ safeStr info = true ∧
      o.videoCurrentTime = some t ∧ safeNum t = true ∧
      o.coordinates = some C ∧ safeJson C = true ∧
        (jsTruthy C = true ∨ (C = Json.null ∧ posFalsy o.position = true)) ∧
      o.polygon = some p ∧ safeJson p = true ∧ (jsTruthy p = true ∨ p = Json.null) := by
  rw [validObj] at hv
  simp only [Bool.and_eq_true] at hv
  obtain ⟨⟨⟨⟨⟨⟨⟨h1, h2⟩, h3⟩, h4⟩, h5⟩, h6⟩, h7⟩, h8⟩ := hv
  cases hn : o.name with
  | none => rw [hn] at h1; exact absurd h1 (by simp)
  | some n =>
  cases hc : o.code with
  | none => rw [hc] at h2; exact absurd h2 (by simp)
  | some c =>
  cases hcat : o.category with
  | none => rw [hcat] at h3; exact absurd h3 (by simp)
  | some cat =>
  cases hdom : o.dlReservoirDomain with
  | none => rw [hdom] at h4; exact absurd h4 (by simp)
  | some dom =>
  cases hinfo : o.additionalInfo with
  | none => rw [hinfo] at h5; exact absurd h5 (by simp)
  | some info =>
  cases ht : o.videoCurrentTime with
  | none => rw [ht] at h6; exact absurd h6 (by simp)
  | some t =>
  cases hC : o.coordinates with
  | none => rw [hC] at h7; exact absurd h7 (by simp)
  | some C =>
  cases hp : o.polygon with
  | none => rw [hp] at h8; exact absurd h8 (by simp)
  | some p =>
  rw [hn] at h1
  rw [hc] at h2
  rw [hcat] at h3
  rw [hdom] at h4
  rw [hinfo] at h5
  rw [ht] at h6
  rw [hC] at h7
  rw [hp] at h8
  simp only [Bool.and_eq_true, decide_eq_true_eq, Bool.or_eq_true] at h1 h2 h3 h4 h5 h7 h8
  refine ⟨n, c, cat, dom, info, t, C, p, rfl, h1.1, h1.2, rfl, h2.1, h2.2, rfl, h3.1, h3.2,
    rfl, h4.1, h4.2, rfl, h5.1, h5.2, rfl, h6, rfl, h7.1, ?_, rfl, h8.1, ?_⟩
  · rcases h7.2 with hT | hT
    · exact Or.inl hT
    · exact Or.inr ⟨isNullJ_eq hT.1, hT.2⟩
  · rcases h8.2 with hT | hT
    · exact Or.inl hT
    · exact Or.inr (isNullJ_eq hT)

theorem encodeEntries_eval {env : EncodeEnv} (hcf : env.coordFile = none) {o : VObj}
    {n c cat dom info : Str} {t : ℚ} {C p : Json}
    (hn : o.name = some n) (hc : o.code = some c) (hcat : o.category = some cat)
    (hdom : o.dlReservoirDomain = some dom) (hinfo : o.additionalInfo = some info)
    (ht : o.videoCurrentTime = some t) (hC : o.coordinates = some C) (hp : o.polygon = some p)
    (hne_c : c ≠ []) (hne_cat : cat ≠ []) (hne_dom : dom ≠ []) (hne_info : info ≠ [])
    (hpos : jsTruthy C = true ∨ (C = Json.null ∧ posFalsy o.position = true))
    (hpt : jsTruthy p = true ∨ p = Json.null) (rctr : ℕ) :
    encodeEntries env rctr o =
      ([(strL ("이름"), Json.str n),
        (strL ("시간"), Json.num t),
        (strL ("code"), Json.str c),
        (strL ("catefory"), Json.str cat),
        (strL ("도메인"), Json.str dom),
        (strL ("정보"), Json.str info),
        (strL ("finallink"), Json.str (dom ++ '/' :: getCategoryCode cat ++ '/' :: c)),
        (strL ("position"), if jsTruthy C = true then C else Json.null),
        (strL ("polygon"), p)], rctr) := by
  have htso_c : truthyStrOpt o.code = some c := by
    rw [hc, truthyStrOpt, if_neg hne_c]
  have htso_cat : truthyStrOpt o.category = some cat := by
    rw [hcat, truthyStrOpt, if_neg hne_cat]
  have htso_dom : truthyStrOpt o.dlReservoirDomain = some dom := by
    rw [hdom, truthyStrOpt, if_neg hne_dom]
  have htso_info : truthyStrOpt o.additionalInfo = some info := by
    rw [hinfo, truthyStrOpt, if_neg hne_info]
  have hposD : coordinateOverride env.coordFile o.name
      (jsOr (jsOr o.coordinates o.position) (some Json.null)) =
      some (if jsTruthy C = true then C else Json.null) := by
    rw [hcf]
    show jsOr (jsOr o.coordinates o.position) (some Json.null) = _
    rw [hC]
    rcases hpos with hT | ⟨hCnull, hpf⟩
    · rw [if_pos hT, jsOr, if_pos hT, jsOr, if_pos hT]
    · subst hCnull
      rw [if_neg (by decide), jsOr, if_neg (by decide)]
      cases hop : o.position with
      | none => rfl
      | some p' =>
        rw [hop, posFalsy] at hpf
        rw [jsOr, if_neg (by simp at hpf; simp [hpf])]
  have hpoly : (jsOr o.polygon (some Json.null)).getD Json.null = p := by
    rw [hp, jsOr]
    rcases hpt with hT | hTn
    · rw [if_pos hT, Option.getD_some]
    · subst hTn
      rw [if_neg (by decide), Option.getD_some]
  rw [hn] at hposD
  simp only [encodeEntries, hn, htso_c, htso_cat, htso_dom, htso_info, ht, hposD, hpoly,
    Option.getD_some]
  rfl

theorem jsTrim_inv {c : Char} {t : Str} (hws : isWsChar c = false)
    (hlast : isWsChar ((c :: t).getLastD ' ') = false) : jsTrim (c :: t) = c :: t := by
  rw [jsTrim, dropWhile_nonws_head hws, dropTrailing]
  cases hrev : (c :: t).reverse with
  | nil => exact absurd hrev (by simp)
  | cons x xs =>
    have hx : x = (c :: t).getLastD ' ' := by
      have hh := List.head?_reverse (c :: t)
      rw [hrev] at hh
      rw [List.getLastD_eq_getLast?, ← hh]
      rfl
    have hxws : isWsChar x = false := by rw [hx]; exact hlast
    rw [dropWhile_nonws_head hxws, ← hrev, List.reverse_reverse]

theorem protoMemberStr_safe {category : Str}
    (h : objectProtoKeys.contains category = true) :
    safeStr (protoMemberStr category) = true := by
  have hmem : category ∈ objectProtoKeys := by simpa using h
  simp only [objectProtoKeys, List.mem_cons, List.not_mem_nil, or_false] at hmem
  rcases hmem with rfl | rfl | rfl | rfl | rfl | rfl | rfl | rfl | rfl | rfl | rfl | rfl <;>
    decide

theorem getCategoryCode_safe (cat : Str) : safeStr (getCategoryCode cat) = true := by
  rw [getCategoryCode]
  repeat' split
  all_goals (first | decide | (apply protoMemberStr_safe; assumption))

theorem safeStr_append {a b : Str} (ha : safeStr a = true) (hb : safeStr b = true) :
    safeStr (a ++ b) = true := by
  rw [safeStr] at ha hb ⊢
  rw [List.all_append, ha, hb]
  rfl

theorem safeStr_cons_of {c : Char} {x : Str} (hc : 32 ≤ c.toNat) (hx : safeStr x = true) :
    safeStr (c :: x) = true := by
  rw [safeStr] at hx ⊢
  rw [List.all_cons, hx]
  simp [hc]

theorem safeObj_cons (k : Str) (v : Json) (kvs : List (Str × Json)) :
    safeObj ((k, v) :: kvs) = (safeStr k && safeJson v && safeObj kvs) := by
  rw [safeObj]

theorem entries_safeObj {n c cat dom info : Str} {t : ℚ} {C p : Json}
    (hsn : safeStr n = true) (hsc : safeStr c = true) (hscat : safeStr cat = true)
    (hsdom : safeStr dom = true) (hsinfo : safeStr info = true) (hst : safeNum t = true)
    (hsC : safeJson C = true) (hsp : safeJson p = true) :
    safeObj [(strL ("이름"), Json.str n),
      (strL ("시간"), Json.num t),
      (strL ("code"), Json.str c),
      (strL ("catefory"), Json.str cat),
      (strL ("도메인"), Json.str dom),
      (strL ("정보"), Json.str info),
      (strL ("finallink"), Json.str (dom ++ '/' :: getCategoryCode cat ++ '/' :: c)),
      (strL ("position"), if jsTruthy C = true then C else Json.null),
      (strL ("polygon"), p)] = true := by
  have hlink : safeStr (dom ++ '/' :: getCategoryCode cat ++ '/' :: c) = true :=
    safeStr_append
      (safeStr_append hsdom (safeStr_cons_of (by decide) (getCategoryCode_safe cat)))
      (safeStr_cons_of (by decide) hsc)
  have hposval : safeJson (if jsTruthy C = true then C else Json.null) = true := by
    split
    · exact hsC
    · rfl
  simp only [safeObj_cons, safeJson, Bool.and_eq_true]
  exact ⟨⟨by decide, hsn⟩, ⟨by decide, hst⟩, ⟨by decide, hsc⟩, ⟨by decide, hscat⟩,
    ⟨by decide, hsdom⟩, ⟨by decide, hsinfo⟩, ⟨by decide, hlink⟩, ⟨by decide, hposval⟩,
    ⟨by decide, hsp⟩, rfl⟩

theorem encodeEntries_block_good {env : EncodeEnv} (hcf : env.coordFile = none) {o : VObj}
    (hv : validObj o = true) (rctr : ℕ) :
    (∀ l ∈ renderLines (Json.obj (encodeEntries env rctr o).1), goodLineB l = true) ∧
    (encodeEntries env rctr o).2 = rctr := by
  obtain ⟨n, c, cat, dom, info, t, C, p, hn, hne_n, hsn, hc, hne_c, hsc, hcat, hne_cat, hscat,
    hdom, hne_dom, hsdom, hinfo, hne_info, hsinfo, ht, hst, hC, hsC, hpos, hp, hsp, hpt⟩ :=
    validObj_destruct hv
  rw [encodeEntries_eval hcf hn hc hcat hdom hinfo ht hC hp hne_c hne_cat hne_dom hne_info
    hpos hpt rctr]
  refine ⟨linesGood ?_, rfl⟩
  rw [safeJson]
  exact entries_safeObj hsn hsc hscat hsdom hsinfo hst hsC hsp

theorem tag_line_trim (idx : ℕ) :
    jsTrim (strL ("object") ++ natChars (idx + 1)) = strL ("object") ++ natChars (idx + 1) := by
  obtain ⟨d, td, hd, hdig⟩ := canonDigits_head (idx + 1)
  have hnc : natChars (idx + 1) = d :: td := by rw [natChars_eq_canon, hd]
  rw [show strL ("object") ++ natChars (idx + 1) =
    'o' :: (strL ("bject") ++ natChars (idx + 1)) from rfl]
  apply jsTrim_inv (by decide)
  rw [show ('o' :: (strL ("bject") ++ natChars (idx + 1))).getLastD ' ' =
    (strL ("bject") ++ natChars (idx + 1)).getLastD 'o' from List.getLastD_cons _ _ _]
  rw [hnc, getLastD_append_cons]
  have hmem : td.getLastD d ∈ d :: td := by
    have h0 := getLastD_mem td d 'x'
    rw [List.getLastD_cons] at h0
    exact h0
  have hdig2 : isDigitCh (td.getLastD d) = true := by
    apply canonDigits_all_digits (idx + 1)
    rw [hd]
    exact hmem
  exact digit_not_ws hdig2

theorem tag_line_head (idx : ℕ) :
    strL ("object") ++ natChars (idx + 1) = 'o' :: (strL ("bject") ++ natChars (idx + 1)) := rfl

theorem vttBlocksLoop_encodeBlocks {env : EncodeEnv} (hcf : env.coordFile = none) :
    ∀ (L : List VObj), validList L = true → ∀ (idx rctr : ℕ) (tail curr : List Str),
      vttBlocksLoop (encodeBlocks env idx rctr L ++ strL ("COORDINATES_DATA_END") :: tail)
        true curr =
      (if curr ≠ [] then [curr] else []) ++ encodedBlocks env rctr L ++
        vttBlocksLoop tail false [] := by
  intro L
  induction L with
  | nil =>
    intro _ idx rctr tail curr
    rw [show encodeBlocks env idx rctr [] = [] from rfl, List.nil_append]
    rw [vttBlocksLoop]
    rw [if_neg (by decide), if_pos (by decide)]
    rw [show encodedBlocks env rctr [] = [] from rfl]
    simp

  | cons o rest ih =>
    intro hv idx rctr tail curr
    have hvo : validObj o = true := by
      rw [validList, List.all_cons, Bool.and_eq_true] at hv
      exact hv.1
    have hvr : validList rest = true := by
      rw [validList, List.all_cons, Bool.and_eq_true] at hv
      exact hv.2
    obtain ⟨hgood, hrctr⟩ := encodeEntries_block_good hcf hvo rctr
    rw [show encodeBlocks env idx rctr (o :: rest) =
      (strL ("object") ++ natChars (idx + 1)) ::
        (renderLines (Json.obj (encodeEntries env rctr o).1) ++
          encodeBlocks env (idx + 1) (encodeEntries env rctr o).2 rest) from by
      rw [encodeBlocks]]
    rw [List.cons_append, vttBlocksLoop, tag_line_trim idx]
    rw [if_neg (by rw [tag_line_head]; exact cons_ne_start (by decide) _)]
    rw [if_neg (by rw [tag_line_head]; exact cons_ne_end (by decide) _)]
    rw [if_pos rfl]
    rw [strStarts_self_append (strL ("object")) (natChars (idx + 1)), if_pos rfl]
    rw [List.append_assoc]
    rw [vttBlocksLoop_json hgood _ []]
    rw [List.nil_append]
    rw [ih hvr (idx + 1) (encodeEntries env rctr o).2 tail _]
    rw [if_pos (renderLines_ne_nil _)]
    rw [show encodedBlocks env rctr (o :: rest) =
      renderLines (Json.obj (encodeEntries env rctr o).1) ::
        encodedBlocks env (encodeEntries env rctr o).2 rest from by rw [encodedBlocks]]
    simp [List.append_assoc]

/-! ## C1, step 11: every emitted line is newline-free -/

theorem natChars_ne_nl {n : ℕ} {x : Char} (hx : x ∈ natChars n) : x ≠ nlChar :=
  (digit_head_facts (natChars_mem hx)).2.2.2.1

theorem goodLineB_no_nl {l : Str} (h : goodLineB l = true) : l.contains nlChar = false := by
  obtain ⟨c, t, rfl, _, _, h3⟩ := goodLineB_shape h
  exact h3

theorem intChars_mem {i : ℤ} {x : Char} (hx : x ∈ intChars i) :
    x = '-' ∨ isDigitCh x = true := by
  rw [intChars] at hx
  rcases List.mem_append.1 hx with h | h
  · split at h
    · simp at h
      exact Or.inl h
    · simp at h
  · exact Or.inr (natChars_mem h)

theorem padTwo_mem {s : Str} {x : Char} (hx : x ∈ padTwo s) : x = '0' ∨ x ∈ s := by
  rw [padTwo] at hx
  split at hx
  · rcases List.mem_append.1 hx with h | h
    · exact Or.inl (List.eq_of_mem_replicate h)
    · exact Or.inr h
  · exact Or.inr hx

theorem formatDuration_ne_nl {q : ℚ} {x : Char} (hx : x ∈ formatDuration q) : x ≠ nlChar := by
  simp only [formatDuration] at hx
  have hpd : ∀ (i : ℤ), x ∈ padTwo (intChars i) → x ≠ nlChar := by
    intro i hxi
    rcases padTwo_mem hxi with rfl | hxm
    · decide
    · rcases intChars_mem hxm with rfl | hd
      · decide
      · exact (digit_head_facts hd).2.2.2.1
  rcases List.mem_append.1 hx with h | h
  · rcases List.mem_append.1 h with h2 | h2
    · exact hpd _ h2
    · rcases List.mem_cons.1 h2 with rfl | h3
      · decide
      · exact hpd _ h3
  · rcases List.mem_cons.1 h with rfl | h3
    · decide
    · exact hpd _ h3

theorem joinSep_mem : ∀ {pieces : List Str} {sep : Str} {x : Char},
    x ∈ joinSep sep pieces → x ∈ sep ∨ ∃ l ∈ pieces, x ∈ l := by
  intro pieces
  induction pieces with
  | nil =>
    intro sep x hx
    simp [joinSep] at hx
  | cons a as ih =>
    intro sep x hx
    cases as with
    | nil =>
      rw [show joinSep sep [a] = a from rfl] at hx
      exact Or.inr ⟨a, by simp, hx⟩
    | cons b bs =>
      rw [joinSep] at hx
      · rcases List.mem_append.1 hx with h | h
        · rcases List.mem_append.1 h with h2 | h2
          · exact Or.inr ⟨a, by simp, h2⟩
          · exact Or.inl h2
        · rcases ih h with h2 | ⟨l, hl, hxl⟩
          · exact Or.inl h2
          · exact Or.inr ⟨l, by simp [hl], hxl⟩
      · simp

theorem validList_elem {L : List VObj} (hv : validList L = true) {o : VObj} (ho : o ∈ L) :
    validObj o = true := by
  rw [validList, List.all_eq_true] at hv
  exact hv o ho

theorem validObj_name_safe {o : VObj} (hv : validObj o = true) :
    safeStr (o.name.getD []) = true := by
  obtain ⟨n, c, cat, dom, info, t, C, p, hn, _, hsn, _⟩ := validObj_destruct hv
  rw [hn, Option.getD_some]
  exact hsn

theorem encodeBlocks_mem {env : EncodeEnv} (hcf : env.coordFile = none) :
    ∀ {L : List VObj}, validList L = true → ∀ {idx rctr : ℕ} {l : Str},
      l ∈ encodeBlocks env idx rctr L →
      (∃ k, l = strL ("object") ++ natChars k) ∨ goodLineB l = true := by
  intro L
  induction L with
  | nil =>
    intro _ idx rctr l hl
    simp [encodeBlocks] at hl
  | cons o rest ih =>
    intro hv idx rctr l hl
    have hvo : validObj o = true := by
      rw [validList, List.all_cons, Bool.and_eq_true] at hv
      exact hv.1
    have hvr : validList rest = true := by
      rw [validList, List.all_cons, Bool.and_eq_true] at hv
      exact hv.2
    rw [encodeBlocks] at hl
    rcases List.mem_cons.1 hl with rfl | hl2
    · exact Or.inl ⟨idx + 1, rfl⟩
    · rcases List.mem_append.1 hl2 with h3 | h4
      · exact Or.inr ((encodeEntries_block_good hcf hvo rctr).1 l h3)
      · exact ih hvr h4

theorem generateVttLines_no_nl {env : EncodeEnv} (hcf : env.coordFile = none)
    {data : WebVTTData} {L : List VObj} (hv : validList L = true)
    (hfn : nlChar ∉ data.videoFileName) (hkt : nlChar ∉ env.koreaTimeISO) :
    ∀ l ∈ generateVttLines env data L, l.contains nlChar = false := by
  intro l hl
  rw [contains_nl_false_iff]
  intro x hx
  rw [generateVttLines] at hl
  have hblock : l ∈ encodeBlocks env 0 0 L → x ≠ nlChar := by
    intro hbl
    rcases encodeBlocks_mem hcf hv hbl with ⟨k, rfl⟩ | hgood
    · rcases List.mem_append.1 hx with h | h
      · exact (by decide : ∀ y ∈ strL ("object"), y ≠ nlChar) x h
      · exact natChars_ne_nl h
    · exact (contains_nl_false_iff l).1 (goodLineB_no_nl hgood) x hx
  have hnames : l = strL ("탐지된 객체: ") ++
      joinSep (strL (", ")) (L.map (fun o => o.name.getD [])) → x ≠ nlChar := by
    rintro rfl
    rcases List.mem_append.1 hx with h | h
    · exact (by decide : ∀ y ∈ strL ("탐지된 객체: "), y ≠ nlChar) x h
    · rcases joinSep_mem h with h2 | ⟨piece, hp, hxp⟩
      · exact (by decide : ∀ y ∈ strL (", "), y ≠ nlChar) x h2
      · obtain ⟨o, ho, rfl⟩ := List.mem_map.1 hp
        have hsafe := validObj_name_safe (validList_elem hv ho)
        rw [safeStr, List.all_eq_true] at hsafe
        exact ge32_ne_nl (by simpa using hsafe x hxp)
  have hdur : l = strL ("00:00:00.000 --> ") ++ formatDuration data.duration → x ≠ nlChar := by
    rintro rfl
    rcases List.mem_append.1 hx with h | h
    · exact (by decide : ∀ y ∈ strL ("00:00:00.000 --> "), y ≠ nlChar) x h
    · exact formatDuration_ne_nl h
  have hhdr3 : l = strL ("동영상: ") ++ data.videoFileName → x ≠ nlChar := by
    rintro rfl
    rcases List.mem_append.1 hx with h | h
    · exact (by decide : ∀ y ∈ strL ("동영상: "), y ≠ nlChar) x h
    · exact fun he => hfn (he ▸ h)
  have hhdr4 : l = strL ("생성일: ") ++ env.koreaTimeISO → x ≠ nlChar := by
    rintro rfl
    rcases List.mem_append.1 hx with h | h
    · exact (by decide : ∀ y ∈ strL ("생성일: "), y ≠ nlChar) x h
    · exact fun he => hkt (he ▸ h)
  have hhdr5 : l = strL ("탐지된 객체 수: ") ++ natChars L.length → x ≠ nlChar := by
    rintro rfl
    rcases List.mem_append.1 hx with h | h
    · exact (by decide : ∀ y ∈ strL ("탐지된 객체 수: "), y ≠ nlChar) x h
    · exact natChars_ne_nl h
  by_cases hL : L.length > 0
  · rw [if_pos hL, if_pos hL] at hl
    simp only [List.mem_append, List.mem_cons, List.mem_singleton] at hl
    rcases hl with (((rfl | rfl | rfl | rfl | rfl | h0) | rfl | hb | rfl | h0b) | rfl | h0c) |
      rfl | rfl | rfl | rfl | h0d
    · exact (by decide : ∀ y ∈ strL ("WEBVTT"), y ≠ nlChar) x hx
    · exact (by decide : ∀ y ∈ strL ("NOTE"), y ≠ nlChar) x hx
    · exact hhdr3 rfl
    · exact hhdr4 rfl
    · exact hhdr5 rfl
    · simp at h0
    · exact (by decide : ∀ y ∈ strL ("COORDINATES_DATA_START"), y ≠ nlChar) x hx
    · exact hblock hb
    · exact (by decide : ∀ y ∈ strL ("COORDINATES_DATA_END"), y ≠ nlChar) x hx
    · simp at h0b
    · simp at hx
    · simp at h0c
    · exact (by decide : ∀ y ∈ strL ("1"), y ≠ nlChar) x hx
    · exact hdur rfl
    · exact hnames rfl
    · simp at hx
    · simp at h0d
  · rw [if_neg hL, if_neg hL] at hl
    simp only [List.mem_append, List.mem_cons, List.mem_singleton] at hl
    rcases hl with (((rfl | rfl | rfl | rfl | rfl | h0) | h0b) | rfl | h0c) |
      rfl | rfl | rfl | rfl | h0d
    · exact (by decide : ∀ y ∈ strL ("WEBVTT"), y ≠ nlChar) x hx
    · exact (by decide : ∀ y ∈ strL ("NOTE"), y ≠ nlChar) x hx
    · exact hhdr3 rfl
    · exact hhdr4 rfl
    · exact hhdr5 rfl
    · simp at h0
    · simp at h0b
    · simp at hx
    · simp at h0c
    · exact (by decide : ∀ y ∈ strL ("1"), y ≠ nlChar) x hx
    · exact hdur rfl
    · exact (by decide : ∀ y ∈ strL ("탐지된 객체가 없습니다."), y ≠ nlChar) x hx
    · simp at hx
    · simp at h0d

theorem vttBlocks_generate {env : EncodeEnv} (hcf : env.coordFile = none)
    {data : WebVTTData} {L : List VObj} (hv : validList L = true)
    (hfn : nlChar ∉ data.videoFileName) (hkt : nlChar ∉ env.koreaTimeISO) :
    vttBlocks (generateCompleteVttContent env data L) = encodedBlocks env 0 L := by
  rw [generateCompleteVttContent, vttBlocks,
    splitNl_joinNl (generateVttLines_no_nl hcf hv hfn hkt)
      (by rw [generateVttLines]; simp)]
  rw [generateVttLines]
  cases L with
  | nil =>
    rw [if_neg (by decide), if_neg (by decide)]
    rw [show encodedBlocks env 0 [] = [] from rfl]
    apply vttBlocksLoop_skip
    intro l hl
    simp only [List.mem_append, List.mem_cons, List.mem_singleton] at hl
    rcases hl with (((rfl | rfl | rfl | rfl | rfl | h0) | h0b) | rfl | h0c) |
      rfl | rfl | rfl | rfl | h0d
    · exact ⟨by decide, by decide⟩
    · exact ⟨by decide, by decide⟩
    · exact ⟨trim_ne_start 
        (by decide) (by decide),
        trim_ne_end 
        (by decide) (by decide)⟩
    · exact ⟨trim_ne_start 
        (by decide) (by decide),
        trim_ne_end 
        (by decide) (by decide)⟩
    · exact ⟨trim_ne_start (c := '탐')
         (by decide) (by decide),
        trim_ne_end (c := '탐')
         (by decide) (by decide)⟩
    · simp at h0
    · simp at h0b
    · exact ⟨by decide, by decide⟩
    · simp at h0c
    · exact ⟨by decide, by decide⟩
    · exact ⟨trim_ne_start (c := '0')
        
        (by decide) (by decide),
        trim_ne_end (c := '0')
        
        (by decide) (by decide)⟩
    · exact ⟨trim_ne_start 
        (by decide) (by decide),
        trim_ne_end 
        (by decide) (by decide)⟩
    · exact ⟨by decide, by decide⟩
    · simp at h0d
  | cons o rest =>
    rw [if_pos (by simp), if_pos (by simp)]
    simp only [List.cons_append, List.nil_append, List.append_assoc, List.singleton_append]
    rw [vttBlocksLoop, if_neg (by decide), if_neg (by decide), if_neg (by simp)]
    rw [vttBlocksLoop, if_neg (by decide), if_neg (by decide), if_neg (by simp)]
    rw [vttBlocksLoop,
      if_neg (show jsTrim (strL ("동영상: ") ++ data.videoFileName) ≠
          strL ("COORDINATES_DATA_START") from trim_ne_start (by decide) (by decide)),
      if_neg (show jsTrim (strL ("동영상: ") ++ data.videoFileName) ≠
          strL ("COORDINATES_DATA_END") from trim_ne_end (by decide) (by decide)),
      if_neg (by simp)]
    rw [vttBlocksLoop,
      if_neg (show jsTrim (strL ("생성일: ") ++ env.koreaTimeISO) ≠
          strL ("COORDINATES_DATA_START") from trim_ne_start (by decide) (by decide)),
      if_neg (show jsTrim (strL ("생성일: ") ++ env.koreaTimeISO) ≠
          strL ("COORDINATES_DATA_END") from trim_ne_end (by decide) (by decide)),
      if_neg (by simp)]
    rw [vttBlocksLoop,
      if_neg (show jsTrim (strL ("탐지된 객체 수: ") ++ natChars (o :: rest).length) ≠
          strL ("COORDINATES_DATA_START") from trim_ne_start (by decide) (by decide)),
      if_neg (show jsTrim (strL ("탐지된 객체 수: ") ++ natChars (o :: rest).length) ≠
          strL ("COORDINATES_DATA_END") from trim_ne_end (by decide) (by decide)),
      if_neg (by simp)]
    rw [vttBlocksLoop, if_pos (by decide)]
    rw [vttBlocksLoop_encodeBlocks hcf (o :: rest) hv 0 0 _ []]
    rw [if_neg (by simp)]
    rw [vttBlocksLoop_skip ?_ []]
    · simp
    · intro l hl
      simp only [List.mem_cons, List.mem_singleton] at hl
      rcases hl with rfl | rfl | rfl | rfl | rfl | h0
      · exact ⟨by decide, by decide⟩
      · exact ⟨by decide, by decide⟩
      · exact ⟨trim_ne_start (c := '0')
          
          (by decide) (by decide),
          trim_ne_end (c := '0')
          
          (by decide) (by decide)⟩
      · exact ⟨trim_ne_start 
          (by decide) (by decide),
          trim_ne_end 
          (by decide) (by decide)⟩
      · exact ⟨by decide, by decide⟩
      · simp at h0

/-! ## C1, step 12: decoding an encoded block recovers the object's fields -/

theorem jsOr_truthy {v : Json} (h : jsTruthy v = true) (b : Option Json) :
    jsOr (some v) b = some v := by
  rw [jsOr, if_pos h]

theorem vtAsStr_jsOr_str {d : Json} {key : Str} {n : Str}
    (hg : jsGet d key = some (Json.str n)) (hne : n ≠ []) (b : Option Json) :
    vtAsStr (jsOr (jsGet d key) b) = some n := by
  rw [hg, jsOr_truthy (by rw [jsTruthy]; simp [hne])]
  rfl

theorem vtAsNum_time {d : Json} {k1 k2 : Str} {t : ℚ} (h1 : jsGet d k1 = some (Json.num t))
    (h2 : jsGet d k2 = none) :
    vtAsNum (jsOr (jsOr (jsGet d k1) (jsGet d k2)) (some (Json.num 0))) = some t := by
  rw [h1, h2]
  by_cases h0 : t = 0
  · subst h0
    rw [jsOr, if_neg (by rw [jsTruthy]; simp)]
    rw [show jsOr none (some (Json.num 0)) = some (Json.num 0) from rfl]
    rfl
  · rw [jsOr, if_pos (by rw [jsTruthy]; simp [h0])]
    rw [jsOr, if_pos (by rw [jsTruthy]; simp [h0])]
    rfl

theorem processVttObject_encoded (denv : DecodeEnv) {eenv : EncodeEnv}
    (hcf : eenv.coordFile = none) {o : VObj} (hv : validObj o = true) (rctr k : ℕ) :
    ∃ dec, processVttObject denv (renderLines (Json.obj (encodeEntries eenv rctr o).1)) k =
        some dec ∧ specView dec = specView o := by
  obtain ⟨n, c, cat, dom, info, t, C, p, hn, hne_n, hsn, hc, hne_c, hsc, hcat, hne_cat, hscat,
    hdom, hne_dom, hsdom, hinfo, hne_info, hsinfo, ht, hst, hC, hsC, hpos, hp, hsp, hpt⟩ :=
    validObj_destruct hv
  rw [encodeEntries_eval hcf hn hc hcat hdom hinfo ht hC hp hne_c hne_cat hne_dom hne_info
    hpos hpt rctr]
  have hparse := jsonParse_render
    (by rw [safeJson]; exact entries_safeObj hsn hsc hscat hsdom hsinfo hst hsC hsp :
      safeJson (Json.obj [(strL ("이름"), Json.str n),
        (strL ("시간"), Json.num t),
        (strL ("code"), Json.str c),
        (strL ("catefory"), Json.str cat),
        (strL ("도메인"), Json.str dom),
        (strL ("정보"), Json.str info),
        (strL ("finallink"), Json.str (dom ++ '/' :: getCategoryCode cat ++ '/' :: c)),
        (strL ("position"), if jsTruthy C = true then C else Json.null),
        (strL ("polygon"), p)]) = true)
  rw [processVttObject, hparse]
  refine ⟨_, rfl, ?_⟩
  simp only [specView, Prod.mk.injEq]
  refine ⟨?_, ?_, ?_, ?_, ?_, ?_, ?_, ?_⟩
  · rw [hn]
    apply vtAsStr_jsOr_str
    · rfl
    · exact hne_n
  · rw [ht]
    apply vtAsNum_time
    · rfl
    · rfl
  · rw [hc]
    rfl
  · rw [hcat]
    apply vtAsStr_jsOr_str
    · rfl
    · exact hne_cat
  · rw [hdom]
    apply vtAsStr_jsOr_str
    · rfl
    · exact hne_dom
  · rw [hinfo]
    apply vtAsStr_jsOr_str
    · rfl
    · exact hne_info
  · rw [hC]
    rcases hpos with hT | ⟨rfl, _⟩
    · show some (if jsTruthy C = true then C else Json.null) = some C
      rw [if_pos hT]
    · rfl
  · rw [hp]
    rfl

theorem decodeBlocks_encoded (denv : DecodeEnv) {eenv : EncodeEnv}
    (hcf : eenv.coordFile = none) :
    ∀ (L : List VObj), validList L = true → ∀ (k rctr : ℕ),
      (decodeBlocks denv k (encodedBlocks eenv rctr L)).map specView = L.map specView := by
  intro L
  induction L with
  | nil => intro _ k rctr; rfl
  | cons o rest ih =>
    intro hv k rctr
    have hvo : validObj o = true := by
      rw [validList, List.all_cons, Bool.and_eq_true] at hv
      exact hv.1
    have hvr : validList rest = true := by
      rw [validList, List.all_cons, Bool.and_eq_true] at hv
      exact hv.2
    rw [show encodedBlocks eenv rctr (o :: rest) =
      renderLines (Json.obj (encodeEntries eenv rctr o).1) ::
        encodedBlocks eenv (encodeEntries eenv rctr o).2 rest from by rw [encodedBlocks]]
    obtain ⟨dec, hdec, hsv⟩ := processVttObject_encoded denv hcf hvo rctr k
    rw [decodeBlocks, hdec]
    simp only [List.map_cons]
    rw [hsv, ih hvr (k + 1) _]

/-- C1: round-trip — for every valid object list `L` (including `[]`) and
any header inputs (file name and timestamp, both newline-free, with no
coordinate file overriding geometry), decoding the container produced by
encoding `L` yields a list whose specification fields (`name`,
`temporalMarker`, `code`, `category`, `domain`, `info`, geometry,
`polygon`) equal those of `L` object for object; the synthesized `id` and
the recomputed `finallink` are excluded from the comparison, as the claim
prescribes. -/
theorem C1_round_trip (denv : DecodeEnv) (eenv : EncodeEnv) (data : WebVTTData)
    (L : List VObj) (hcf : eenv.coordFile = none) (hv : validList L = true)
    (hfn : nlChar ∉ data.videoFileName) (hkt : nlChar ∉ eenv.koreaTimeISO) :
    (extractObjectsFromVtt denv (generateCompleteVttContent eenv data L)).map specView =
      L.map specView := by
  rw [extractObjectsFromVtt]
  rw [show ({} : ExtractState) =
    { inCoordinatesSection := false, currentObjectLines := [], objects := [] } from rfl]
  rw [extractLoop_blocks]
  rw [show vttBlocksLoop (splitNl (generateCompleteVttContent eenv data L)) false [] =
    vttBlocks (generateCompleteVttContent eenv data L) from rfl]
  rw [vttBlocks_generate hcf hv hfn hkt]
  simp only [List.nil_append, List.length_nil]
  exact decodeBlocks_encoded denv hcf L hv 0 0

/-- Witness for `C1_round_trip`: a concrete valid object list, payload and
environments satisfying every hypothesis, with the round trip evaluated. -/
theorem C1_round_trip_witness :
    (extractObjectsFromVtt exDecodeEnv
        (generateCompleteVttContent exEncEnv exData [exValidObj])).map specView =
      [exValidObj].map specView :=
  C1_round_trip exDecodeEnv exEncEnv exData [exValidObj] rfl (by decide) (by decide)
    (by decide)

/-! ## C4: determinism and purity of decode / encode -/

theorem processVttObject_dropId (env1 env2 : DecodeEnv) (ls : List Str) (k1 k2 : ℕ) :
    (processVttObject env1 ls k1).map dropId = (processVttObject env2 ls k2).map dropId := by
  rw [processVttObject, processVttObject]
  cases jsonParse (joinNl ls) with
  | none => rfl
  | some d =>
    cases d with
    | null => rfl
    | bool b => rfl
    | num q => rfl
    | str s => rfl
    | arr es => rfl
    | obj kvs => rfl

theorem decodeBlocks_dropId (env1 env2 : DecodeEnv) :
    ∀ (bs : List (List Str)) (k1 k2 : ℕ),
      (decodeBlocks env1 k1 bs).map dropId = (decodeBlocks env2 k2 bs).map dropId := by
  intro bs
  induction bs with
  | nil => intro k1 k2; rfl
  | cons b bs' ih =>
    intro k1 k2
    have hmap := processVttObject_dropId env1 env2 b k1 k2
    rw [decodeBlocks, decodeBlocks]
    cases h1 : processVttObject env1 b k1 with
    | none =>
      rw [h1] at hmap
      cases h2 : processVttObject env2 b k2 with
      | none => exact ih k1 k2
      | some o2 =>
        rw [h2] at hmap
        simp only [Option.map_none', Option.map_some'] at hmap
        exact Option.noConfusion hmap
    | some o1 =>
      rw [h1] at hmap
      cases h2 : processVttObject env2 b k2 with
      | none =>
        rw [h2] at hmap
        simp only [Option.map_none', Option.map_some'] at hmap
        exact Option.noConfusion hmap
      | some o2 =>
        rw [h2] at hmap
        simp only [Option.map_some'] at hmap
        simp only [List.map_cons]
        rw [show dropId o1 = dropId o2 from by injection hmap, ih (k1 + 1) (k2 + 1)]

theorem encodeEntries_no_rand (iso1 iso2 : Str) (rf1 rf2 : ℕ → ℕ) (cf : Option Str)
    {o : VObj} (hcode : (truthyStrOpt o.code).isSome = true) (r1 r2 : ℕ) :
    (encodeEntries ⟨iso1, rf1, cf⟩ r1 o).1 = (encodeEntries ⟨iso2, rf2, cf⟩ r2 o).1 ∧
    (encodeEntries ⟨iso1, rf1, cf⟩ r1 o).2 = r1 ∧
    (encodeEntries ⟨iso2, rf2, cf⟩ r2 o).2 = r2 := by
  obtain ⟨c, hc⟩ := Option.isSome_iff_exists.1 hcode
  refine ⟨?_, ?_, ?_⟩ <;> simp only [encodeEntries, hc]

theorem encodeBlocks_no_rand {iso1 iso2 : Str} {rf1 rf2 : ℕ → ℕ} {cf : Option Str} :
    ∀ {L : List VObj}, codesTruthy L = true → ∀ (idx r1 r2 : ℕ),
      encodeBlocks ⟨iso1, rf1, cf⟩ idx r1 L = encodeBlocks ⟨iso2, rf2, cf⟩ idx r2 L := by
  intro L
  induction L with
  | nil => intro _ idx r1 r2; rfl
  | cons o rest ih =>
    intro hct idx r1 r2
    have hcode : (truthyStrOpt o.code).isSome = true := by
      rw [codesTruthy, List.all_cons, Bool.and_eq_true] at hct
      exact hct.1
    have hrest : codesTruthy rest = true := by
      rw [codesTruthy, List.all_cons, Bool.and_eq_true] at hct
      exact hct.2
    obtain ⟨hent, hr1, hr2⟩ :=
      encodeEntries_no_rand iso1 iso2 rf1 rf2 cf hcode r1 r2
    cases hpe1 : encodeEntries ⟨iso1, rf1, cf⟩ r1 o with
    | mk E1 rc1 =>
      cases hpe2 : encodeEntries ⟨iso2, rf2, cf⟩ r2 o with
      | mk E2 rc2 =>
        rw [hpe1] at hent hr1
        rw [hpe2] at hent hr2
        dsimp only at hent hr1 hr2
        subst hent
        subst hr1
        subst hr2
        rw [encodeBlocks, encodeBlocks, hpe1, hpe2]
        dsimp only
        rw [ih hrest (idx + 1) _ _]

set_option maxRecDepth 40000 in
/-- C4 counterexample: (1) the same container text decoded under two
ambient clocks yields different object lists (the synthesized `id`
embeds `Date.now()`/`Math.random()`); (2) the same payload encoded with
and without the per-video coordinate file on disk yields different
container texts even though the generation timestamp is identical (the
encoder reads the file system); (3) the same payload encoded under two
`Math.random()` streams (same timestamp, no file) yields different
texts when an object lacks a `code`. -/
theorem C4_counterexample :
    extractObjectsFromVtt exDecodeEnv exC4Text ≠
      extractObjectsFromVtt exDecodeEnv2 exC4Text ∧
    generateCompleteVttContent exEncEnv exData [exValidObj] ≠
      generateCompleteVttContent exEncEnvFile exData [exValidObj] ∧
    generateCompleteVttContent exEncEnvR1 exData [exNoCodeObj] ≠
      generateCompleteVttContent exEncEnvR2 exData [exNoCodeObj] := by
  refine ⟨?_, by decide, by decide⟩
  intro h
  have e1 := congrArg (List.map (fun o => o.id)) h
  revert e1
  decide

/-- C4: determinism and purity — corrected.  Decode is deterministic only
up to the synthesized `id` (which embeds the ambient clock and random
stream): for any two ambient environments the decoded lists agree after
erasing `id`.  Encode is deterministic apart from the `생성일` header
line only once the coordinate-file contents are fixed and every object
carries a code (otherwise `Math.random()` and the file system leak into
the output, see the counterexample): under those conditions the emitted
line lists agree except for the one timestamp line. -/
theorem C4_purity_mod :
    (∀ (env1 env2 : DecodeEnv) (content : Str),
      (extractObjectsFromVtt env1 content).map dropId =
        (extractObjectsFromVtt env2 content).map dropId) ∧
    (∀ (iso1 iso2 : Str) (rf1 rf2 : ℕ → ℕ) (cf : Option Str) (data : WebVTTData)
        (L : List VObj), codesTruthy L = true →
      ∃ pre post,
        generateVttLines ⟨iso1, rf1, cf⟩ data L =
          pre ++ (strL ("생성일: ") ++ iso1) :: post ∧
        generateVttLines ⟨iso2, rf2, cf⟩ data L =
          pre ++ (strL ("생성일: ") ++ iso2) :: post) := by
  constructor
  · intro env1 env2 content
    rw [extractObjectsFromVtt, extractObjectsFromVtt]
    rw [show ({} : ExtractState) =
      { inCoordinatesSection := false, currentObjectLines := [], objects := [] } from rfl]
    rw [extractLoop_blocks, extractLoop_blocks]
    simp only [List.nil_append, List.length_nil]
    exact decodeBlocks_dropId env1 env2 _ 0 0
  · intro iso1 iso2 rf1 rf2 cf data L hct
    refine ⟨[strL ("WEBVTT"), strL ("NOTE"), strL ("동영상: ") ++ data.videoFileName],
      (strL ("탐지된 객체 수: ") ++ natChars L.length) ::
        ((if L.length > 0 then
            strL ("COORDINATES_DATA_START") ::
              (encodeBlocks ⟨iso1, rf1, cf⟩ 0 0 L ++ [strL ("COORDINATES_DATA_END")])
          else []) ++
         [[]] ++
         (if L.length > 0 then
            [strL ("1"), strL ("00:00:00.000 --> ") ++ formatDuration data.duration,
              strL ("탐지된 객체: ") ++
                joinSep (strL (", ")) (L.map (fun o => o.name.getD [])), []]
          else
            [strL ("1"), strL ("00:00:00.000 --> ") ++ formatDuration data.duration,
              strL ("탐지된 객체가 없습니다."), []])), ?_, ?_⟩
    · rw [generateVttLines]
      simp [List.append_assoc]
    · rw [generateVttLines]
      rw [show encodeBlocks ⟨iso2, rf2, cf⟩ 0 0 L = encodeBlocks ⟨iso1, rf1, cf⟩ 0 0 L from
        encodeBlocks_no_rand hct 0 0 0]
      simp [List.append_assoc]

/-- Witness for `C4_purity_mod`: both conjuncts applied at concrete
inputs, the `codesTruthy` hypothesis discharged by evaluation. -/
theorem C4_purity_mod_witness :
    codesTruthy [exValidObj] = true ∧
    (extractObjectsFromVtt exDecodeEnv exC4Text).map dropId =
      (extractObjectsFromVtt exDecodeEnv2 exC4Text).map dropId ∧
    (∃ pre post,
      generateVttLines ⟨strL ("2026-10-11T00:00:00"), fun _ => 0, none⟩ exData [exValidObj] =
        pre ++ (strL ("생성일: ") ++ strL ("2026-10-11T00:00:00")) :: post ∧
      generateVttLines ⟨strL ("2027-01-01T00:00:00"), fun _ => 5, none⟩ exData [exValidObj] =
        pre ++ (strL ("생성일: ") ++ strL ("2027-01-01T00:00:00")) :: post) :=
  ⟨by decide, C4_purity_mod.1 exDecodeEnv exDecodeEnv2 exC4Text,
    C4_purity_mod.2 (strL ("2026-10-11T00:00:00")) (strL ("2027-01-01T00:00:00"))
      (fun _ => 0) (fun _ => 5) none exData [exValidObj] (by decide)⟩
